import Mathlib

/-!
The UI control-parameter manager of faustgen~: a shallow embedding of
`src/faust_tilde_ui.c`, with theorems about it.

Conventions of the embedding

* A C string (`const char*`) and an interned Pd symbol (`t_symbol*`) are both the
  list of the characters before the terminating NUL; `gensym` interns, so pointer
  equality of symbols is equality of these lists.
* `FAUSTFLOAT` / `t_float` values are exact rationals.
* A `FAUSTFLOAT*` zone is an address (`Nat`, `0` is `NULL`); the cells owned by the
  DSP instance are the map `zone_mem` of the manager state.
* The linked list `f_uis` (through `p_next`) is a `List`, head first.
* The intrusive free and used chains of the voice pool (through `next_free` and
  `next_used`) are lists of slots of the table `f_voices`; a `t_faust_ui*` held by
  a voice is the position of that record in `f_uis` (the pool only lives between
  `faust_ui_manager_finish_changes` and the next `faust_ui_manager_prepare_changes`,
  while the list is not restructured).
* `getbytes` never fails.
* The file-scope static `last_meta` is a field of the manager state.
-/

namespace FaustUI

/-! ## Constants -/

def MAXFAUSTSTRING : Nat := 4096

def FAUST_UI_TYPE_BUTTON : Int := 0
def FAUST_UI_TYPE_TOGGLE : Int := 1
def FAUST_UI_TYPE_NUMBER : Int := 2
def FAUST_UI_TYPE_BARGRAPH : Int := 3

def MIDI_NONE : Int := 0
def MIDI_CTRL : Int := 1
def MIDI_KEYON : Int := 2
def MIDI_KEYOFF : Int := 3
def MIDI_KEY : Int := 4
def MIDI_KEYPRESS : Int := 5
def MIDI_PGM : Int := 6
def MIDI_CHANPRESS : Int := 7
def MIDI_PITCHWHEEL : Int := 8
def MIDI_START : Int := 9
def MIDI_STOP : Int := 10
def MIDI_CLOCK : Int := 11
def N_MIDI : Int := 12

def VOICE_NONE : Int := 0
def VOICE_FREQ : Int := 1
def VOICE_GAIN : Int := 2
def VOICE_GATE : Int := 3

def N_MIDI_UI : Nat := 256

/-- The float constant `FLT_EPSILON` of `<float.h>`, two to the power -23. -/
def FLT_EPSILON : ℚ := 1 / 8388608

/-! ## Data model -/

/-- The record `t_faust_midi_ui`: one MIDI binding of a control. -/
structure t_faust_midi_ui where
  msg : Int
  num : Int
  chan : Int
  val : Int
deriving DecidableEq

/-- The file-scope static `last_meta`: metadata pending for the next control
(`n_midi` is the length of `midi`). -/
structure t_last_meta where
  zone : Nat
  voice : Int
  midi : List t_faust_midi_ui
deriving DecidableEq

/-- The record `t_faust_ui`: one control. `p_uirecv` is the proxy of the control,
given by the symbol it is bound to, when there is one. -/
structure t_faust_ui where
  p_name : List Char
  p_longname : List Char
  p_uisym : Option (List Char)
  p_uirecv : Option (List Char)
  p_uival : ℚ
  p_type : Int
  p_zone : Nat
  p_min : ℚ
  p_max : ℚ
  p_step : ℚ
  p_default : ℚ
  p_saved : ℚ
  p_kept : Bool
  p_index : Nat
  p_tempv : ℚ
  p_voice : Int
  p_midi : List t_faust_midi_ui
deriving DecidableEq

/-- The record `t_faust_voice`: the note playing and the three controls of the
voice, each the position of a record in `f_uis` or `none` for `NULL`. -/
structure t_faust_voice where
  num : Int
  freq_c : Option Nat
  gain_c : Option Nat
  gate_c : Option Nat
deriving DecidableEq

/-- The record `t_faust_ui_manager`, with the DSP cells (`zone_mem`), the static
`last_meta` and the values pushed to the GUI proxies (`gui_out`, oldest first).
`f_voices = []` is the `NULL` table. -/
structure t_faust_ui_manager where
  f_uis : List t_faust_ui
  f_nuis : Nat
  f_names : List (List Char)
  f_nvoices : Nat
  f_voices : List t_faust_voice
  f_free : List Nat
  f_used : List Nat
  zone_mem : Nat → ℚ
  last_meta : t_last_meta
  gui_out : List (List Char × ℚ)

/-! ## Name canonicalizer -/

/-- C `isalnum` in the "C" locale: ASCII letters and digits. -/
def isalnum (c : Char) : Bool := c.isAlphanum

/-- C `strnlen`. -/
def strnlen (s : List Char) (maxlen : Nat) : Nat := min s.length maxlen

/-- C `strncat`: appends at most `n` characters of `src`. -/
def strncat (dest src : List Char) (n : Nat) : List Char := dest ++ src.take n

/-- The `while` loop of `mangle`: `label` is the rest of the input, `name` the
characters written so far (`i` is its length) and `state` the pending-hyphen flag. -/
def mangle_loop : List Char → List Char → Bool → List Char
  | [], name, _ => name
  | c :: label, name, state =>
    if name.length < MAXFAUSTSTRING - 1 then
      if isalnum c then
        if state then
          if (name ++ ['-']).length ≥ MAXFAUSTSTRING - 1 then name ++ ['-']
          else mangle_loop label (name ++ ['-'] ++ [c]) false
        else mangle_loop label (name ++ [c]) false
      else mangle_loop label name true
    else name

/-- The function `mangle`. -/
def mangle (label : List Char) : List Char :=
  let name := mangle_loop label [] false
  if name ≠ [] then name else "0x00".toList

/-- One round of the `for` loop of `faust_ui_manager_get_long_name`. -/
def long_name_step (name g : List Char) : List Char :=
  if g = "0x00".toList then name
  else
    let name1 := strncat name g (MAXFAUSTSTRING - strnlen name MAXFAUSTSTRING - 1)
    strncat name1 "/".toList (MAXFAUSTSTRING - strnlen name1 MAXFAUSTSTRING - 1)

/-- The function `faust_ui_manager_get_long_name`. -/
def faust_ui_manager_get_long_name (x : t_faust_ui_manager) (label : List Char) :
    List Char :=
  let name := x.f_names.foldl long_name_step []
  let name :=
    if label ≠ "0x00".toList ∧ mangle label ≠ "0x00".toList then
      strncat name (mangle label) (MAXFAUSTSTRING - strnlen name MAXFAUSTSTRING - 1)
    else if name ≠ [] then name.take (strnlen name MAXFAUSTSTRING - 1)
    else name
  if name ≠ [] then name else "anon".toList

/-- The `for` loop of `faust_ui_manager_get_name`, from the innermost group outwards;
`rnames` is the stack innermost first. -/
def get_name_loop : List (List Char) → List Char
  | [] => "anon".toList
  | g :: rnames => if g ≠ "0x00".toList then g else get_name_loop rnames

/-- The function `faust_ui_manager_get_name`. -/
def faust_ui_manager_get_name (x : t_faust_ui_manager) (label : List Char) : List Char :=
  if label ≠ "0x00".toList ∧ mangle label ≠ "0x00".toList then mangle label
  else get_name_loop x.f_names.reverse

/-- The function `faust_ui_manager_ui_open_box`. -/
def faust_ui_manager_ui_open_box (x : t_faust_ui_manager) (label : List Char) :
    t_faust_ui_manager :=
  { x with f_names := x.f_names ++ [mangle label] }

/-- The function `faust_ui_manager_ui_close_box`. -/
def faust_ui_manager_ui_close_box (x : t_faust_ui_manager) : t_faust_ui_manager :=
  if x.f_names.length > 1 then { x with f_names := x.f_names.take (x.f_names.length - 1) }
  else if x.f_names.length ≠ 0 then { x with f_names := [] }
  else x

/-- The function `faust_ui_manager_new`. -/
def faust_ui_manager_new : t_faust_ui_manager :=
  { f_uis := [], f_nuis := 0, f_names := [], f_nvoices := 0, f_voices := [],
    f_free := [], f_used := [], zone_mem := fun _ => 0,
    last_meta := { zone := 0, voice := 0, midi := [] }, gui_out := [] }

/-! ## Parameter registry -/

/-- The lookup loop of `faust_ui_manager_get`; the result is the position of the
record found (the pointer returned), `none` is `NULL`. -/
def get_loop (name : List Char) : List t_faust_ui → Option Nat
  | [] => none
  | c :: cs =>
    if c.p_name = name ∨ c.p_longname = name then some 0
    else (get_loop name cs).map (· + 1)

/-- The function `faust_ui_manager_get`. -/
def faust_ui_manager_get (x : t_faust_ui_manager) (name : List Char) : Option Nat :=
  get_loop name x.f_uis

/-- C `round` on a rational: to the nearest integer, halves away from zero. -/
def c_round (q : ℚ) : Int := if 0 ≤ q then ⌊q + 1 / 2⌋ else ⌈q - 1 / 2⌉

/-- The function `rtranslate`. -/
def rtranslate (z p_min p_max : ℚ) (min max : Int) : Int :=
  if p_min = p_max then min
  else
    let z1 := (z - p_min) / (p_max - p_min) * ((max - min : Int) : ℚ)
    let val := c_round z1
    let val1 := if val < min then min else val
    if val1 > max - 1 then max - 1 else val1

/-- The function `midi_defaultval`. -/
def midi_defaultval (z p_min p_max : ℚ) (p_type msg : Int) : Int :=
  if p_type = FAUST_UI_TYPE_BARGRAPH then
    if msg = MIDI_CLOCK ∨ msg = MIDI_START then 0
    else if msg = MIDI_STOP then 1
    else if msg = MIDI_PITCHWHEEL then rtranslate z p_min p_max 0 16384
    else rtranslate z p_min p_max 0 128
  else -1

/-- A store to the cell `*z`. -/
def write_zone (mem : Nat → ℚ) (z : Nat) (v : ℚ) : Nat → ℚ :=
  fun a => if a = z then v else mem a

/-- The function `gui_update`: the value goes out to the proxy, when there is one. -/
def gui_update (out : List (List Char × ℚ)) (v : ℚ) (r : Option (List Char)) :
    List (List Char × ℚ) :=
  match r with
  | some s => out ++ [(s, v)]
  | none => out

/-- The function `set_zone`. -/
def set_zone (x : t_faust_ui_manager) (z : Nat) (v : ℚ) (r : Option (List Char)) :
    t_faust_ui_manager :=
  { x with zone_mem := write_zone x.zone_mem z v, gui_out := gui_update x.gui_out v r }

/-- A record fresh from `getbytes` (zero-filled). -/
def zero_ui : t_faust_ui :=
  { p_name := [], p_longname := [], p_uisym := none, p_uirecv := none, p_uival := 0,
    p_type := 0, p_zone := 0, p_min := 0, p_max := 0, p_step := 0, p_default := 0,
    p_saved := 0, p_kept := false, p_index := 0, p_tempv := 0, p_voice := 0, p_midi := [] }

/-- The tail of `faust_ui_manager_add_param` that attaches the pending metadata of
`last_meta` to the record being written. -/
def attach_meta (m : t_last_meta) (c : t_faust_ui) (type : Int) (zone : Nat)
    (init min max : ℚ) : t_faust_ui :=
  if m.zone = zone then
    let c1 :=
      if m.voice ≠ 0 then
        if c.p_type ≠ FAUST_UI_TYPE_BARGRAPH then { c with p_voice := m.voice } else c
      else c
    if m.midi.length ≠ 0 then
      { c1 with p_midi := m.midi.map fun b =>
          { msg := b.msg, num := b.num, chan := b.chan,
            val := midi_defaultval init min max type b.msg } }
    else c1
  else c

/-- The assignments `c->p_longname = lname; ... c->p_voice = VOICE_NONE` of
`faust_ui_manager_add_param`. -/
def fill_ui (c : t_faust_ui) (lname : List Char) (type : Int) (zone : Nat)
    (init min max step saved : ℚ) (index : Nat) : t_faust_ui :=
  { c with p_longname := lname, p_uisym := none, p_uirecv := none, p_type := type,
           p_zone := zone, p_min := min, p_max := max, p_step := step, p_default := init,
           p_saved := saved, p_kept := true, p_index := index, p_midi := [],
           p_voice := VOICE_NONE }

/-- The test `c && !c->p_kept` of `faust_ui_manager_add_param` on the record found
for the long name: the position and the record to rewrite, or `none` when a new
record is made. -/
def add_param_reuse (x : t_faust_ui_manager) (lname : List Char) :
    Option (Nat × t_faust_ui) :=
  match faust_ui_manager_get x lname with
  | some i =>
    match x.f_uis[i]? with
    | some c => if !c.p_kept then some (i, c) else none
    | none => none
  | none => none

/-- The record `*c` as `faust_ui_manager_add_param` leaves it. -/
def add_param_record (x : t_faust_ui_manager) (label : List Char) (type : Int)
    (zone : Nat) (init min max step : ℚ) : t_faust_ui :=
  let name := faust_ui_manager_get_name x label
  let lname := faust_ui_manager_get_long_name x label
  match add_param_reuse x lname with
  | some (_, c) =>
    attach_meta x.last_meta (fill_ui c lname type zone init min max step c.p_saved x.f_nuis)
      type zone init min max
  | none =>
    attach_meta x.last_meta
      (fill_ui { zero_ui with p_name := name } lname type zone init min max step init x.f_nuis)
      type zone init min max

/-- The function `faust_ui_manager_add_param`. -/
def faust_ui_manager_add_param (x : t_faust_ui_manager) (label : List Char) (type : Int)
    (zone : Nat) (init min max step : ℚ) : t_faust_ui_manager :=
  let lname := faust_ui_manager_get_long_name x label
  let c2 := add_param_record x label type zone init min max step
  let meta_clear : t_last_meta := { x.last_meta with midi := [], voice := VOICE_NONE }
  match add_param_reuse x lname with
  | some (i, c) =>
    { x with f_uis := x.f_uis.set i c2, f_nuis := x.f_nuis + 1,
             zone_mem := write_zone x.zone_mem zone c.p_tempv, last_meta := meta_clear }
  | none =>
    { x with f_uis := c2 :: x.f_uis, f_nuis := x.f_nuis + 1,
             zone_mem := write_zone x.zone_mem zone init, last_meta := meta_clear }

/-! ## Voice allocator -/

/-- The function `faust_free_voices`. -/
def faust_free_voices (x : t_faust_ui_manager) : t_faust_ui_manager :=
  if x.f_voices ≠ [] then { x with f_voices := [], f_free := [], f_used := [], f_nvoices := 0 }
  else x

/-- The cell behind `c->p_zone` for the control at position `c` of `f_uis`. -/
def write_ctl (x : t_faust_ui_manager) (c : Option Nat) (v : ℚ) : t_faust_ui_manager :=
  match c with
  | some i =>
    match x.f_uis[i]? with
    | some ui => { x with zone_mem := write_zone x.zone_mem ui.p_zone v }
    | none => x
  | none => x

/-- The control `gate_c` of the voice in slot `u`. -/
def voice_gate (x : t_faust_ui_manager) (u : Nat) : Option Nat :=
  match x.f_voices[u]? with
  | some v => v.gate_c
  | none => none

/-- The function `faust_ui_manager_all_notes_off`. -/
def faust_ui_manager_all_notes_off (x : t_faust_ui_manager) : t_faust_ui_manager :=
  let x1 := x.f_used.foldl (fun y u => write_ctl y (voice_gate y u) 0) x
  { x1 with f_free := x1.f_free ++ x1.f_used, f_used := [] }

/-- The counting loop of `faust_new_voices`: `(n_freq, n_gain, n_gate)`. -/
def count_voices (uis : List t_faust_ui) : Nat × Nat × Nat :=
  uis.foldl (fun n c =>
    if c.p_voice = VOICE_FREQ then (n.1 + 1, n.2.1, n.2.2)
    else if c.p_voice = VOICE_GAIN then (n.1, n.2.1 + 1, n.2.2)
    else if c.p_voice = VOICE_GATE then (n.1, n.2.1, n.2.2 + 1)
    else n) (0, 0, 0)

/-- An assignment to the voice in slot `i` of the table. -/
def modify_voice (tab : List t_faust_voice) (i : Nat) (f : t_faust_voice → t_faust_voice) :
    List t_faust_voice :=
  match tab[i]? with
  | some v => tab.set i (f v)
  | none => tab

/-- The second loop of `faust_new_voices`, which fills the table: the state is the
table and the three running counts, `pc` a position of `f_uis` with its record. -/
def populate_step (st : List t_faust_voice × Nat × Nat × Nat) (pc : Nat × t_faust_ui) :
    List t_faust_voice × Nat × Nat × Nat :=
  if pc.2.p_voice = VOICE_FREQ then
    (modify_voice st.1 st.2.1 (fun v => { v with freq_c := some pc.1 }),
      st.2.1 + 1, st.2.2.1, st.2.2.2)
  else if pc.2.p_voice = VOICE_GAIN then
    (modify_voice st.1 st.2.2.1 (fun v => { v with gain_c := some pc.1 }),
      st.2.1, st.2.2.1 + 1, st.2.2.2)
  else if pc.2.p_voice = VOICE_GATE then
    (modify_voice st.1 st.2.2.2 (fun v => { v with gate_c := some pc.1 }),
      st.2.1, st.2.2.1, st.2.2.2 + 1)
  else st

/-- A voice fresh from `getzbytes`. -/
def zero_voice : t_faust_voice := { num := 0, freq_c := none, gain_c := none, gate_c := none }

/-- The function `faust_new_voices`. -/
def faust_new_voices (x : t_faust_ui_manager) : t_faust_ui_manager :=
  let x1 := if x.f_voices ≠ [] then faust_free_voices x else x
  let n := count_voices x1.f_uis
  let n_freq := n.1
  let n_gain := n.2.1
  let n_gate := n.2.2
  let n_voices := if n_freq ≠ 0 then n_freq else if n_gain ≠ 0 then n_gain else n_gate
  if n_voices ≠ 0 then
    if (n_freq ≠ 0 ∧ n_freq ≠ n_voices) ∨ (n_gain ≠ 0 ∧ n_gain ≠ n_voices) ∨
        (n_gate ≠ 0 ∧ n_gate ≠ n_voices) then x1
    else
      let tab := (x1.f_uis.enum.foldl populate_step
        (List.replicate n_voices zero_voice, 0, 0, 0)).1
      { x1 with f_voices := tab, f_nvoices := n_voices,
                f_free := List.range n_voices, f_used := [] }
  else x1

/-- The function `voices_noteon` (with `VOICE_STEALING` set, as compiled); `mtof` is
the note-to-frequency function of Pd. -/
def voices_noteon (mtof : Int → ℚ) (x : t_faust_ui_manager) (num val _chan : Int) :
    t_faust_ui_manager :=
  let stolen : Option t_faust_ui_manager :=
    if x.f_free = [] then
      match x.f_used with
      | [] => none
      | u :: used => some { x with f_used := used, f_free := [u] }
    else some x
  match stolen with
  | none => x
  | some x1 =>
    match x1.f_free with
    | [] => x1
    | v :: free =>
      let x2 := { x1 with f_free := free, f_used := x1.f_used ++ [v],
                          f_voices := modify_voice x1.f_voices v (fun r => { r with num := num }) }
      match x2.f_voices[v]? with
      | some r =>
        let x3 := write_ctl x2 r.freq_c (mtof num)
        let x4 := write_ctl x3 r.gain_c ((val : ℚ) / 127)
        write_ctl x4 r.gate_c 1
      | none => x2

/-- The search loop of `voices_noteoff`: the first used voice playing `num`, and the
used chain with that voice unlinked. -/
def unlink_used (tab : List t_faust_voice) (num : Int) : List Nat → Option (Nat × List Nat)
  | [] => none
  | u :: us =>
    match tab[u]? with
    | some r =>
      if r.num ≠ num then (unlink_used tab num us).map fun p => (p.1, u :: p.2)
      else some (u, us)
    | none => (unlink_used tab num us).map fun p => (p.1, u :: p.2)

/-- The function `voices_noteoff`. -/
def voices_noteoff (x : t_faust_ui_manager) (num _chan : Int) : t_faust_ui_manager :=
  match unlink_used x.f_voices num x.f_used with
  | some (u, used) =>
    let x1 := { x with f_used := used, f_free := x.f_free ++ [u] }
    write_ctl x1 (voice_gate x1 u) 0
  | none => x

/-! ## Introspection pass -/

/-- The body of the `while` loop of `faust_ui_manager_prepare_changes`: the record is
marked as not kept and the value of its cell is saved in `p_tempv`. -/
def prepare_ui (mem : Nat → ℚ) (c : t_faust_ui) : t_faust_ui :=
  { c with p_kept := false, p_tempv := mem c.p_zone }

/-- The function `faust_ui_manager_prepare_changes`. -/
def faust_ui_manager_prepare_changes (x : t_faust_ui_manager) : t_faust_ui_manager :=
  let x1 := faust_ui_manager_all_notes_off x
  let x2 := { x1 with f_uis := x1.f_uis.map (prepare_ui x1.zone_mem), f_nuis := 0 }
  let x3 := faust_free_voices x2
  { x3 with last_meta := { x3.last_meta with midi := [], voice := VOICE_NONE } }

/-- The comparison `cmpui` (the indices are far below the range of `int`). -/
def cmpui (c1 c2 : t_faust_ui) : Int := (c1.p_index : Int) - (c2.p_index : Int)

/-- C `qsort` with the comparison `cmpui`. -/
def qsort_cmpui (cv : List t_faust_ui) : List t_faust_ui :=
  cv.insertionSort fun c1 c2 => cmpui c1 c2 ≤ 0

/-- The function `faust_ui_manager_sort`. -/
def faust_ui_manager_sort (x : t_faust_ui_manager) : t_faust_ui_manager :=
  match x.f_uis with
  | [] => x
  | _ :: _ =>
    let cv := x.f_uis.take x.f_nuis
    if cv.length ≤ x.f_nuis ∧ cv.length > 0 then { x with f_uis := qsort_cmpui cv }
    else x

/-- The `while` loop of `faust_ui_manager_finish_changes`, on the records after the
head: the records that are not kept are unlinked. -/
def remove_unkept : List t_faust_ui → List t_faust_ui
  | [] => []
  | n :: rest => if !n.p_kept then remove_unkept rest else n :: remove_unkept rest

/-- The function `faust_ui_manager_finish_changes`. -/
def faust_ui_manager_finish_changes (x : t_faust_ui_manager) : t_faust_ui_manager :=
  match x.f_uis with
  | [] => x
  | c :: rest =>
    let rest1 := remove_unkept rest
    let x1 := if !c.p_kept then { x with f_uis := rest1 } else { x with f_uis := c :: rest1 }
    faust_new_voices (faust_ui_manager_sort x1)

/-- The function `faust_ui_manager_free_names`. -/
def faust_ui_manager_free_names (x : t_faust_ui_manager) : t_faust_ui_manager :=
  { x with f_names := [] }

/-- The conversion of an `unsigned` to `int` (32 bits, two's complement). -/
def int_of_unsigned (n : Nat) : Int :=
  if n % 4294967296 < 2147483648 then (n % 4294967296 : Nat)
  else ((n % 4294967296 : Nat) : Int) - 4294967296

/-- One pending binding appended to `last_meta` by `faust_ui_manager_ui_declare`. -/
def push_meta (m : t_last_meta) (zone : Nat) (msg num chan : Int) : t_last_meta :=
  let b : t_faust_midi_ui := { msg := msg, num := num, chan := chan, val := -1 }
  { m with zone := zone, midi := m.midi ++ [b] }

/-- The branches `sscanf(value, "<key> %u %u", &num, &chan)` of
`faust_ui_manager_ui_declare`; `r` is the list of the values converted. -/
def declare_two (m : t_last_meta) (zone : Nat) (msg : Int) (r : List Nat) : t_last_meta :=
  push_meta m zone msg (int_of_unsigned (r.getD 0 0))
    (if r.length > 1 then int_of_unsigned (r.getD 1 0) else -1)

/-- The branches `sscanf(value, "<key> %u", &chan)` of `faust_ui_manager_ui_declare`. -/
def declare_one (m : t_last_meta) (zone : Nat) (msg : Int) (r : List Nat) : t_last_meta :=
  push_meta m zone msg 0 (if r.length > 0 then int_of_unsigned (r.getD 0 0) else -1)

/-- The branch `strcmp(key, "voice") == 0` of `faust_ui_manager_ui_declare`, on
`last_meta`. -/
def declare_voice (m : t_last_meta) (zone : Nat) (value : List Char) : t_last_meta :=
  if value = "freq".toList then { m with zone := zone, voice := VOICE_FREQ }
  else if value = "gain".toList then { m with zone := zone, voice := VOICE_GAIN }
  else if value = "gate".toList then { m with zone := zone, voice := VOICE_GATE }
  else m

/-- The branch `strcmp(key, "midi") == 0` of `faust_ui_manager_ui_declare`, on
`last_meta`. `sscanf fmt value` is the list of the unsigned values that C `sscanf`
converts (its count is the length). -/
def declare_midi (sscanf : List Char → List Char → List Nat) (m : t_last_meta) (zone : Nat)
    (value : List Char) : t_last_meta :=
  if m.midi.length ≥ N_MIDI_UI then m
  else if (sscanf "ctrl %u %u".toList value).length > 0 then
    declare_two m zone MIDI_CTRL (sscanf "ctrl %u %u".toList value)
  else if (sscanf "keyon %u %u".toList value).length > 0 then
    declare_two m zone MIDI_KEYON (sscanf "keyon %u %u".toList value)
  else if (sscanf "keyoff %u %u".toList value).length > 0 then
    declare_two m zone MIDI_KEYOFF (sscanf "keyoff %u %u".toList value)
  else if (sscanf "key %u %u".toList value).length > 0 then
    declare_two m zone MIDI_KEY (sscanf "key %u %u".toList value)
  else if (sscanf "keypress %u %u".toList value).length > 0 then
    declare_two m zone MIDI_KEYPRESS (sscanf "keypress %u %u".toList value)
  else if (sscanf "pgm %u".toList value).length > 0 ∨ value = "pgm".toList then
    declare_one m zone MIDI_PGM (sscanf "pgm %u".toList value)
  else if (sscanf "chanpress %u".toList value).length > 0 ∨ value = "chanpress".toList then
    declare_one m zone MIDI_CHANPRESS (sscanf "chanpress %u".toList value)
  else if (sscanf "pitchwheel %u".toList value).length > 0 ∨
      value = "pitchwheel".toList then
    declare_one m zone MIDI_PITCHWHEEL (sscanf "pitchwheel %u".toList value)
  else if (sscanf "pitchbend %u".toList value).length > 0 ∨ value = "pitchbend".toList then
    declare_one m zone MIDI_PITCHWHEEL (sscanf "pitchbend %u".toList value)
  else if value = "start".toList then push_meta m zone MIDI_START 0 (-1)
  else if value = "stop".toList then push_meta m zone MIDI_STOP 0 (-1)
  else if value = "clock".toList then push_meta m zone MIDI_CLOCK 0 (-1)
  else m

/-- The function `faust_ui_manager_ui_declare`, which only writes the static
`last_meta`; `zone = 0` is the `NULL` zone and `value = []` covers both a `NULL` and an
empty value. -/
def faust_ui_manager_ui_declare (sscanf : List Char → List Char → List Nat)
    (x : t_faust_ui_manager) (zone : Nat) (key value : List Char) : t_faust_ui_manager :=
  if zone ≠ 0 ∧ value ≠ [] then
    if key = "voice".toList then { x with last_meta := declare_voice x.last_meta zone value }
    else if key = "midi".toList then
      { x with last_meta := declare_midi sscanf x.last_meta zone value }
    else x
  else x

/-- The calls that `buildUserInterfaceCDSPInstance` makes through the `UIGlue` table
of the manager: one constructor for each callback set by `faust_ui_manager_new`. -/
inductive UICall where
  | openBox (label : List Char)
  | closeBox
  | addButton (label : List Char) (zone : Nat)
  | addToggle (label : List Char) (zone : Nat)
  | addNumber (label : List Char) (zone : Nat) (init min max step : ℚ)
  | addBargraph (label : List Char) (zone : Nat) (min max : ℚ)
  | declare (zone : Nat) (key value : List Char)
deriving DecidableEq

/-- The callback of the manager behind one call of the DSP instance
(`faust_ui_manager_ui_add_button` and its siblings are unfolded). -/
def ui_call (sscanf : List Char → List Char → List Nat) (x : t_faust_ui_manager) :
    UICall → t_faust_ui_manager
  | .openBox label => faust_ui_manager_ui_open_box x label
  | .closeBox => faust_ui_manager_ui_close_box x
  | .addButton label zone =>
    faust_ui_manager_add_param x label FAUST_UI_TYPE_BUTTON zone 0 0 0 0
  | .addToggle label zone =>
    faust_ui_manager_add_param x label FAUST_UI_TYPE_TOGGLE zone 0 0 1 1
  | .addNumber label zone init min max step =>
    faust_ui_manager_add_param x label FAUST_UI_TYPE_NUMBER zone init min max step
  | .addBargraph label zone min max =>
    faust_ui_manager_add_param x label FAUST_UI_TYPE_BARGRAPH zone 0 min max 0
  | .declare zone key value => faust_ui_manager_ui_declare sscanf x zone key value

/-- The run of `buildUserInterfaceCDSPInstance`: the calls of the DSP instance in order. -/
def build_user_interface (sscanf : List Char → List Char → List Nat)
    (x : t_faust_ui_manager) (calls : List UICall) : t_faust_ui_manager :=
  calls.foldl (ui_call sscanf) x

/-- An introspection pass, the first three statements of `faust_ui_manager_init`:
`prepare_changes`, the calls of the DSP instance, `finish_changes`. -/
def introspection_pass (sscanf : List Char → List Char → List Nat)
    (x : t_faust_ui_manager) (calls : List UICall) : t_faust_ui_manager :=
  faust_ui_manager_finish_changes
    (build_user_interface sscanf (faust_ui_manager_prepare_changes x) calls)

/-- The function `faust_ui_manager_init` (`metadataCDSPInstance` only logs). -/
def faust_ui_manager_init (sscanf : List Char → List Char → List Nat)
    (x : t_faust_ui_manager) (calls : List UICall) : t_faust_ui_manager :=
  faust_ui_manager_free_names (introspection_pass sscanf x calls)

/-- The record that a call of the DSP instance writes in state `x`, when the call
is one of the four that add a control. -/
def call_record (x : t_faust_ui_manager) : UICall → Option t_faust_ui
  | .addButton label zone =>
    some (add_param_record x label FAUST_UI_TYPE_BUTTON zone 0 0 0 0)
  | .addToggle label zone =>
    some (add_param_record x label FAUST_UI_TYPE_TOGGLE zone 0 0 1 1)
  | .addNumber label zone init min max step =>
    some (add_param_record x label FAUST_UI_TYPE_NUMBER zone init min max step)
  | .addBargraph label zone min max =>
    some (add_param_record x label FAUST_UI_TYPE_BARGRAPH zone 0 min max 0)
  | _ => none

/-- The records written by the calls of a run that starts in state `x`, one for each
call of `faust_ui_manager_add_param`, in the order of the calls. -/
def written_records (sscanf : List Char → List Char → List Nat) :
    t_faust_ui_manager → List UICall → List t_faust_ui
  | _, [] => []
  | x, call :: calls =>
    (call_record x call).toList ++ written_records sscanf (ui_call sscanf x call) calls

/-! ## Values -/

/-- The function `faust_ui_manager_set_value`: the new state and the status returned. -/
def faust_ui_manager_set_value (x : t_faust_ui_manager) (name : List Char) (f : ℚ) :
    t_faust_ui_manager × Int :=
  match faust_ui_manager_get x name with
  | some i =>
    match x.f_uis[i]? with
    | some ui =>
      if ui.p_type = FAUST_UI_TYPE_BUTTON ∨ ui.p_type = FAUST_UI_TYPE_TOGGLE then
        (set_zone x ui.p_zone (if f > FLT_EPSILON then 1 else 0) ui.p_uirecv, 0)
      else if ui.p_type = FAUST_UI_TYPE_NUMBER then
        (set_zone x ui.p_zone
          (if f < ui.p_min then ui.p_min else if f > ui.p_max then ui.p_max else f)
          ui.p_uirecv, 0)
      else (x, 1)
    | none => (x, 1)
  | none => (x, 1)

/-- The function `faust_ui_manager_get_value`: the value stored through `f`, when one
is, and the status returned. -/
def faust_ui_manager_get_value (x : t_faust_ui_manager) (name : List Char) :
    Option ℚ × Int :=
  match faust_ui_manager_get x name with
  | some i =>
    match x.f_uis[i]? with
    | some ui => (some (x.zone_mem ui.p_zone), 0)
    | none => (none, 1)
  | none => (none, 1)

/-- The function `faust_ui_manager_get_parameter_char`. -/
def faust_ui_manager_get_parameter_char (type : Int) : List Char :=
  if type = FAUST_UI_TYPE_BUTTON then "button".toList
  else if type = FAUST_UI_TYPE_TOGGLE then "toggle".toList
  else if type = FAUST_UI_TYPE_NUMBER then "number".toList
  else "bargraph".toList

/-- A Pd atom (`t_atom`): a float or a symbol. -/
inductive t_atom where
  | A_FLOAT (f : ℚ)
  | A_SYMBOL (s : List Char)
deriving DecidableEq

/-- The `while` loop of `faust_ui_manager_dump`: the messages sent, oldest first. -/
def dump_loop (mem : Nat → ℚ) : List t_faust_ui → List (List t_atom)
  | [] => []
  | c :: cs =>
    if c.p_voice = 0 then
      [.A_SYMBOL c.p_name, .A_SYMBOL c.p_longname,
        .A_SYMBOL (faust_ui_manager_get_parameter_char c.p_type),
        .A_FLOAT c.p_default, .A_FLOAT c.p_min, .A_FLOAT c.p_max,
        .A_FLOAT (mem c.p_zone)] :: dump_loop mem cs
    else dump_loop mem cs

/-- The function `faust_ui_manager_dump`: the argument vectors of the messages sent
(to the receiver of `outsym`, or to the outlet when `outsym` is `NULL`), and the count
returned. `outsym` is `none` for `NULL` and otherwise tells whether `outsym->s_thing`
is set. -/
def faust_ui_manager_dump (x : t_faust_ui_manager) (outsym : Option Bool) :
    List (List t_atom) × Int :=
  if outsym = some false then ([], 0)
  else (dump_loop x.zone_mem x.f_uis, ((dump_loop x.zone_mem x.f_uis).length : Int))

/-! ## Observations used in the statements -/

/-- The components of the path of a control that are not the placeholder: the
names on the group stack, outermost first, then the mangled label. -/
def path_components (names : List (List Char)) (label : List Char) : List (List Char) :=
  (names ++ [mangle label]).filter fun g => decide (g ≠ "0x00".toList)

/-- The number of characters that `faust_ui_manager_get_long_name` appends to its
buffer when nothing is cut: every group name that is not the placeholder with the
"/" after it, then the mangled label when it is not the placeholder. -/
def written_length (names : List (List Char)) (label : List Char) : Nat :=
  ((names.filter fun g => decide (g ≠ "0x00".toList)).map fun g => g.length + 1).sum +
    (if mangle label ≠ "0x00".toList then (mangle label).length else 0)

/-- The manager after one `openBox` of a group whose label is 4095 letters. -/
def long_group_state : t_faust_ui_manager :=
  faust_ui_manager_ui_open_box faust_ui_manager_new (List.replicate 4095 'a')

/-- The text of the groups: each name that is not the placeholder, then "/". -/
def groups_text (names : List (List Char)) : List Char :=
  ((names.filter fun g => decide (g ≠ "0x00".toList)).map fun g => g ++ ['/']).flatten

/-- The calls that run `faust_ui_manager_add_param`. -/
def is_add_param : UICall → Bool
  | .addButton _ _ => true
  | .addToggle _ _ => true
  | .addNumber _ _ _ _ _ _ => true
  | .addBargraph _ _ _ _ => true
  | _ => false

/-- The label of a call that adds a control. -/
def call_label : UICall → Option (List Char)
  | .addButton label _ => some label
  | .addToggle label _ => some label
  | .addNumber label _ _ _ _ _ => some label
  | .addBargraph label _ _ _ => some label
  | _ => none

/-- The zone of a call that adds a control. -/
def call_zone : UICall → Option Nat
  | .addButton _ zone => some zone
  | .addToggle _ zone => some zone
  | .addNumber _ zone _ _ _ _ => some zone
  | .addBargraph _ zone _ _ => some zone
  | _ => none

/-- The long names that the calls of `faust_ui_manager_add_param` compute during a
run that starts in state `x`, in the order of the calls. -/
def registered_long_names (sscanf : List Char → List Char → List Nat) :
    t_faust_ui_manager → List UICall → List (List Char)
  | _, [] => []
  | x, call :: calls =>
    ((call_label call).map (faust_ui_manager_get_long_name x)).toList ++
      registered_long_names sscanf (ui_call sscanf x call) calls

/-- The short names that the calls of `faust_ui_manager_add_param` compute during a
run that starts in state `x`, in the order of the calls. -/
def registered_short_names (sscanf : List Char → List Char → List Nat) :
    t_faust_ui_manager → List UICall → List (List Char)
  | _, [] => []
  | x, call :: calls =>
    ((call_label call).map (faust_ui_manager_get_name x)).toList ++
      registered_short_names sscanf (ui_call sscanf x call) calls

/-- A character that `mangle` may write: alphanumeric or a hyphen. -/
def mangled_char (c : Char) : Prop := isalnum c = true ∨ c = '-'

/-- The invariant of a run: the kept records are the records `W` written so far, and
the record at position `i` of `W` carries the index `i`. -/
def run_inv (s : t_faust_ui_manager) (W : List t_faust_ui) : Prop :=
  (s.f_uis.filter fun c => c.p_kept).Perm W ∧ s.f_nuis = W.length ∧
    W.map (fun c => c.p_index) = List.range W.length

/-- An `sscanf` for which no format matches (it converts nothing). -/
def sscanf_none : List Char → List Char → List Nat := fun _ _ => []

/-- The registry after a pass that adds one Number control "vol" with range 0 to 1. -/
def vol_state : t_faust_ui_manager :=
  introspection_pass sscanf_none faust_ui_manager_new [.addNumber "vol".toList 1 0 0 1 0]

/-- The registry after a pass over one Toggle "Gate" inside the group "Synth". -/
def gate_toggle_state : t_faust_ui_manager :=
  introspection_pass sscanf_none faust_ui_manager_new
    [.openBox "Synth".toList, .addToggle "Gate".toList 1, .closeBox]

/-- The registry after a pass that adds one Bargraph "meter". -/
def meter_state : t_faust_ui_manager :=
  introspection_pass sscanf_none faust_ui_manager_new [.addBargraph "meter".toList 1 0 1]

/-- Every control of the registry has one of the four kinds (what the four add
callbacks pass to `faust_ui_manager_add_param`). -/
def valid_types (x : t_faust_ui_manager) : Prop :=
  ∀ c ∈ x.f_uis, c.p_type = FAUST_UI_TYPE_BUTTON ∨ c.p_type = FAUST_UI_TYPE_TOGGLE ∨
    c.p_type = FAUST_UI_TYPE_NUMBER ∨ c.p_type = FAUST_UI_TYPE_BARGRAPH

/-- The seven fields of the record of a control in `faust_ui_manager_dump`. -/
def dump_record (mem : Nat → ℚ) (c : t_faust_ui) : List t_atom :=
  [.A_SYMBOL c.p_name, .A_SYMBOL c.p_longname,
    .A_SYMBOL (faust_ui_manager_get_parameter_char c.p_type),
    .A_FLOAT c.p_default, .A_FLOAT c.p_min, .A_FLOAT c.p_max, .A_FLOAT (mem c.p_zone)]

/-- The registry after a pass that adds two Number controls, "a b" and "a-b". -/
def duplicate_state : t_faust_ui_manager :=
  introspection_pass sscanf_none faust_ui_manager_new
    [.addNumber "a b".toList 1 0 0 1 0, .addNumber "a-b".toList 2 0 0 1 0]

/-- The invariant behind the uniqueness of long names during a run: `Ls` are the long
names of the whole pass and `done` the ones computed so far. -/
def long_inv (Ls done : List (List Char)) (s : t_faust_ui_manager) : Prop :=
  (s.f_uis.map fun c => c.p_longname).Nodup ∧
  (∀ c ∈ s.f_uis, c.p_kept = true → c.p_longname ∈ done) ∧
  (∀ c ∈ s.f_uis, c.p_name ∉ Ls)

/-- Two calls that add the Number controls "vol", inside the group "synth", and "pan". -/
def two_controls : List UICall :=
  [.openBox "synth".toList, .addNumber "vol".toList 1 0 0 1 0, .closeBox,
    .addNumber "pan".toList 2 0 0 1 0]

/-- The record `c0` is where the lookup of the long name `L` stops: no record in
front of it has `L` as its short or long name. -/
def lookup_stops_at (L : List Char) (c0 : t_faust_ui) (s : t_faust_ui_manager) : Prop :=
  ∃ A B, s.f_uis = A ++ c0 :: B ∧ ∀ c ∈ A, c.p_name ≠ L ∧ c.p_longname ≠ L

/-- The cells that `faust_ui_manager_all_notes_off` sets to 0: the gate cells of the
voices on the used chain. -/
def sounding_gate_zones (x : t_faust_ui_manager) : List Nat :=
  x.f_used.filterMap fun u =>
    match voice_gate x u with
    | some i => (x.f_uis[i]?).map fun c => c.p_zone
    | none => none

/-- The MIDI bindings that `faust_ui_manager_add_param` attaches to a record with
the fields of `c` when `m` is the pending metadata. -/
def pending_bindings (m : t_last_meta) (c : t_faust_ui) : List t_faust_midi_ui :=
  if m.zone = c.p_zone ∧ m.midi ≠ [] then
    m.midi.map fun b =>
      { msg := b.msg, num := b.num, chan := b.chan,
        val := midi_defaultval c.p_default c.p_min c.p_max c.p_type b.msg }
  else []

/-- The registry of `vol_state` after the value of "vol" was set to 1. -/
def vol_moved_state : t_faust_ui_manager :=
  (faust_ui_manager_set_value vol_state "vol".toList 1).1

/-- The record of the control "vol" in `vol_state`. -/
def vol_record : t_faust_ui :=
  { p_name := "vol".toList, p_longname := "vol".toList, p_uisym := none, p_uirecv := none,
    p_uival := 0, p_type := 2, p_zone := 1, p_min := 0, p_max := 1, p_step := 0,
    p_default := 0, p_saved := 0, p_kept := true, p_index := 0, p_tempv := 0,
    p_voice := 0, p_midi := [] }

/-- The calls of a DSP with one Number control "gate" (range 0 to 10, initial value 5)
that is declared as the gate of a voice. -/
def gate_calls : List UICall :=
  [.declare 1 "voice".toList "gate".toList, .addNumber "gate".toList 1 5 0 10 0]

/-- The registry after a pass over `gate_calls`: one voice, free. -/
def gate_state : t_faust_ui_manager :=
  introspection_pass sscanf_none faust_ui_manager_new gate_calls

/-- The state of `gate_state` after a note-on: the voice sounds and its gate cell
holds 1. -/
def gate_sounding_state : t_faust_ui_manager :=
  voices_noteon (fun _ => 440) gate_state 60 100 0

/-! ## MIDI binding table -/

/-- The table `midi_sym_s`: the Pd name of each message (`[]` for the `NULL` entry). -/
def midi_sym_s (i : Int) : List Char :=
  if i = 1 then "ctl".toList
  else if i = 2 then "noteon".toList
  else if i = 3 then "noteoff".toList
  else if i = 4 then "note".toList
  else if i = 5 then "polytouch".toList
  else if i = 6 then "pgm".toList
  else if i = 7 then "touch".toList
  else if i = 8 then "bend".toList
  else if i = 9 then "start".toList
  else if i = 10 then "stop".toList
  else if i = 11 then "clock".toList
  else []

/-- The table `midi_argc`: the argument count of each message, without the channel. -/
def midi_argc (i : Int) : Int :=
  if i = 1 then 2
  else if i = 2 then 2
  else if i = 3 then 2
  else if i = 4 then 2
  else if i = 5 then 2
  else if i = 6 then 1
  else if i = 7 then 1
  else if i = 8 then 1
  else 0

/-- A C cast `(int)` of a float: the fraction is cut off, towards zero. -/
def c_int (q : ℚ) : Int := if 0 ≤ q then ⌊q⌋ else ⌈q⌉

/-- The function `translate`. -/
def translate (val min max p_type : Int) (p_min p_max p_step : ℚ) : ℚ :=
  let val1 := if val < min then min else val
  let val2 := if val1 > max then max else val1
  let val3 := if max - min > 1 ∧ val2 = max - 1 then max else val2
  if p_type = FAUST_UI_TYPE_BUTTON ∨ p_type = FAUST_UI_TYPE_TOGGLE then
    if val3 > min then 1 else 0
  else
    let v : ℚ := ((val3 - min : Int) : ℚ) / ((max - min : Int) : ℚ)
    let lo := if p_min > p_max then p_max else p_min
    let hi := if p_min > p_max then p_min else p_max
    let step := if p_min > p_max then -p_step else p_step
    if step ≠ 0 then lo + step * (c_round (v * (hi - lo) / step) : ℚ)
    else lo + v * (hi - lo)

/-- The search loop at the top of `faust_ui_manager_get_midi`: the first index from 1
whose symbol is `s`, or `N_MIDI` when there is none; `k` indices are left to try. -/
def midi_find (s : List Char) : Nat → Int → Int
  | 0, i => i
  | k + 1, i => if s = midi_sym_s i then i else midi_find s k (i + 1)

/-- The float of an atom, when its type is `A_FLOAT`. -/
def atom_float : Option t_atom → Option ℚ
  | some (.A_FLOAT f) => some f
  | _ => none

/-- The body of the inner `for` loop of `faust_ui_manager_get_midi` for the binding
`b` of the control `c`: the state and the local variable `val` before and after. The
message is `i`, with number `num` on channel `chan`. -/
def midi_apply (i num chan : Int) (c : t_faust_ui) (st : t_faust_ui_manager × Int)
    (b : t_faust_midi_ui) : t_faust_ui_manager × Int :=
  if b.msg = i ∧ (b.chan < 0 ∨ b.chan = chan) ∧ c.p_type ≠ FAUST_UI_TYPE_BARGRAPH then
    let upd (x : t_faust_ui_manager) (v : ℚ) : t_faust_ui_manager :=
      { x with zone_mem := write_zone x.zone_mem c.p_zone v,
               gui_out := gui_update x.gui_out v c.p_uirecv }
    if i = MIDI_START then
      (upd st.1 (translate 1 0 1 c.p_type c.p_min c.p_max c.p_step), st.2)
    else if i = MIDI_STOP then
      (upd st.1 (translate 0 0 1 c.p_type c.p_min c.p_max c.p_step), st.2)
    else if i = MIDI_CLOCK then
      let val : Int :=
        if c.p_type = FAUST_UI_TYPE_BUTTON ∨ c.p_type = FAUST_UI_TYPE_TOGGLE then
          (if st.1.zone_mem c.p_zone = 0 then 1 else 0)
        else (if st.1.zone_mem c.p_zone = c.p_min then 1 else 0)
      (upd st.1 (translate val 0 1 c.p_type c.p_min c.p_max c.p_step), val)
    else if i = MIDI_PITCHWHEEL then
      (upd st.1 (translate st.2 0 16384 c.p_type c.p_min c.p_max c.p_step), st.2)
    else if midi_argc i = 1 then
      let val : Int := if i = MIDI_PGM then st.2 - 1 else st.2
      (upd st.1 (translate val 0 128 c.p_type c.p_min c.p_max c.p_step), val)
    else if b.num = num then
      (upd st.1 (translate st.2 0 128 c.p_type c.p_min c.p_max c.p_step), st.2)
    else st
  else st

/-- The `while` loop of `faust_ui_manager_get_midi` over the controls, with the
`for` loop over the bindings of each. -/
def midi_scan (i num chan : Int) (uis : List t_faust_ui) (st : t_faust_ui_manager × Int) :
    t_faust_ui_manager × Int :=
  uis.foldl (fun st c => c.p_midi.foldl (midi_apply i num chan c) st) st

/-- The part of `faust_ui_manager_get_midi` that routes a note message to the voice
allocator when there is a pool. -/
def midi_voices (mtof : Int → ℚ) (x : t_faust_ui_manager) (i num val chan : Int) :
    t_faust_ui_manager :=
  if x.f_voices ≠ [] ∧ i = MIDI_KEY then
    if val ≠ 0 then voices_noteon mtof x num val chan else voices_noteoff x num chan
  else x

/-- The end of `faust_ui_manager_get_midi`, from the swap of the arguments of the
note messages on: the voices, then the scan of the bindings. Here `val` and `num`
are the first and the second argument. -/
def midi_dispatch (mtof : Int → ℚ) (x : t_faust_ui_manager) (i val num chan : Int) :
    t_faust_ui_manager :=
  let swap := i = MIDI_KEY ∨ i = MIDI_KEYON ∨ i = MIDI_KEYOFF
  let num1 := if swap then val else num
  let val1 := if swap then num else val
  let x1 := midi_voices mtof x i num1 val1 chan
  (midi_scan i num1 chan x1.f_uis (x1, val1)).1

/-- The function `faust_ui_manager_get_midi`: the new state and the value returned.
The message is the symbol `s` with the atoms `argv` (`argc` is their number); the
locals `val` and `num` are 0 until they are assigned. -/
def faust_ui_manager_get_midi (mtof : Int → ℚ) (x : t_faust_ui_manager) (s : List Char)
    (argv : List t_atom) (midichan : Int) : t_faust_ui_manager × Int :=
  let i := midi_find s 11 1
  if i < N_MIDI then
    if (argv.length : Int) < midi_argc i then (x, MIDI_NONE)
    else if midi_argc i > 0 ∧ atom_float argv[0]? = none then (x, MIDI_NONE)
    else if midi_argc i > 1 ∧ atom_float argv[1]? = none then (x, MIDI_NONE)
    else
      let val : Int := if midi_argc i > 0 then c_int ((atom_float argv[0]?).getD 0) else 0
      let num : Int := if midi_argc i > 1 then c_int ((atom_float argv[1]?).getD 0) else 0
      let chan_arg : Option ℚ :=
        if (argv.length : Int) > midi_argc i then atom_float argv[(midi_argc i).toNat]?
        else none
      match chan_arg with
      | some f =>
        if c_int f ≥ 1 then
          if midichan ≥ 0 ∧ c_int f - 1 ≠ midichan then (x, i)
          else if midichan < -1 ∧ c_int f - 1 = 9 then (x, i)
          else (midi_dispatch mtof x i val num (c_int f - 1), i)
        else (midi_dispatch mtof x i val num (-1), i)
      | none => (midi_dispatch mtof x i val num (-1), i)
  else (x, MIDI_NONE)

/-! ## Observations on names, raw values and messages -/

/-- No two hyphens next to each other. -/
def no_double_hyphen (l : List Char) : Prop :=
  List.Chain' (fun a b : Char => ¬ (a = '-' ∧ b = '-')) l

/-- The raw value that `translate` scales: clamped into the raw range, and moved to
the top when it is one below the top of a range wider than 1. -/
def snapped_raw (val min max : Int) : Int :=
  let val1 := if val < min then min else val
  let val2 := if val1 > max then max else val1
  if max - min > 1 ∧ val2 = max - 1 then max else val2

/-- The variable `chan` of `faust_ui_manager_get_midi` when the binding scan starts:
the float that follows the required arguments, truncated and made zero-based when it
is at least 1, and -1 otherwise. -/
def message_channel (argv : List t_atom) (i : Int) : Int :=
  if (argv.length : Int) > midi_argc i then
    match atom_float argv[(midi_argc i).toNat]? with
    | some f => if c_int f ≥ 1 then c_int f - 1 else -1
    | none => -1
  else -1

/-- The message with the channel `chan` is not swallowed by the channel filter
`midichan` of `faust_ui_manager_get_midi`. -/
def passes_filter (midichan chan : Int) : Prop :=
  ¬ (chan ≥ 0 ∧ ((midichan ≥ 0 ∧ chan ≠ midichan) ∨ (midichan < -1 ∧ chan = 9)))

instance passes_filter_decidable (midichan chan : Int) :
    Decidable (passes_filter midichan chan) := by
  unfold passes_filter
  infer_instance

/-- A binding of the control `c` that a two-argument message of type `i` with the
number `num` on the channel `chan` applies. -/
def binding_applies (i num chan : Int) (c : t_faust_ui) : Prop :=
  c.p_type ≠ FAUST_UI_TYPE_BARGRAPH ∧
    ∃ b ∈ c.p_midi, b.msg = i ∧ b.num = num ∧ (b.chan < 0 ∨ b.chan = chan)

/-- An `sscanf` that converts the two numbers of "ctrl 7 3" and the one number of
"ctrl 7". -/
def sscanf_ctrl (fmt value : List Char) : List Nat :=
  if fmt = "ctrl %u %u".toList ∧ value = "ctrl 7 3".toList then [7, 3]
  else if fmt = "ctrl %u %u".toList ∧ value = "ctrl 7".toList then [7]
  else []

/-- The registry of a DSP with two Number controls with the range 0 to 127: "vol",
bound to controller 7 on channel 3, and "pan", bound to controller 7 on any channel. -/
def ctrl_state : t_faust_ui_manager :=
  introspection_pass sscanf_ctrl faust_ui_manager_new
    [.declare 1 "midi".toList "ctrl 7 3".toList, .addNumber "vol".toList 1 0 0 127 0,
      .declare 2 "midi".toList "ctrl 7".toList, .addNumber "pan".toList 2 0 0 127 0]

/-! ## MIDI output -/

/-- The entry `midi_sym[i]` once `faust_ui_midi_init` has run: the symbol of the
message, `none` for `NULL`. -/
def midi_sym (i : Int) : Option (List Char) :=
  if 1 ≤ i ∧ i < N_MIDI then some (midi_sym_s i) else none

/-- The variables `s`, `argc`, `num`, `chan` and `val` of `faust_ui_manager_midiout`
after the `switch`. -/
structure t_midiout_vars where
  s : Option (List Char)
  argc : Int
  num : Int
  chan : Int
  val : Int
deriving DecidableEq

/-- The `switch (i)` of `faust_ui_manager_midiout` for the binding `b` of the control
`c`. -/
def midiout_switch (mem : Nat → ℚ) (c : t_faust_ui) (b : t_faust_midi_ui) : t_midiout_vars :=
  if b.msg = MIDI_START then
    { s := if mem c.p_zone > c.p_min then midi_sym b.msg else none,
      argc := midi_argc b.msg, num := -1, chan := -1,
      val := if mem c.p_zone > c.p_min then 1 else 0 }
  else if b.msg = MIDI_STOP then
    { s := if mem c.p_zone > c.p_min then none else midi_sym b.msg,
      argc := midi_argc b.msg, num := -1, chan := -1,
      val := if mem c.p_zone > c.p_min then 1 else 0 }
  else if b.msg = MIDI_CLOCK then
    { s := midi_sym b.msg, argc := midi_argc b.msg, num := -1, chan := -1,
      val := if mem c.p_zone > c.p_min then 1 else 0 }
  else if b.msg = MIDI_PITCHWHEEL then
    { s := midi_sym b.msg, argc := midi_argc b.msg + 1, num := -1, chan := b.chan,
      val := rtranslate (mem c.p_zone) c.p_min c.p_max 0 16384 }
  else if midi_argc b.msg = 1 then
    { s := midi_sym b.msg, argc := midi_argc b.msg + 1, num := -1, chan := b.chan,
      val := if b.msg = MIDI_PGM then rtranslate (mem c.p_zone) c.p_min c.p_max 0 128 + 1
        else rtranslate (mem c.p_zone) c.p_min c.p_max 0 128 }
  else
    { s := midi_sym b.msg, argc := midi_argc b.msg + 1, num := b.num, chan := b.chan,
      val := rtranslate (mem c.p_zone) c.p_min c.p_max 0 128 }

/-- The argument vector `argv` that `faust_ui_manager_midiout` fills for the message
`i`: the value and the number (the other way round for the note messages), then the
channel, counted from 1, for the voice messages. -/
def midiout_argv (i : Int) (v : t_midiout_vars) (midichan : Int) : List t_atom :=
  let swap := i = MIDI_KEY ∨ i = MIDI_KEYON ∨ i = MIDI_KEYOFF
  let num1 := if swap then v.val else v.num
  let val1 := if swap then v.num else v.val
  let chan1 := if v.chan < 0 then (if midichan ≥ 0 then midichan else 0) else v.chan
  (if midi_argc i > 0 then [t_atom.A_FLOAT (val1 : ℚ)] else []) ++
    (if midi_argc i > 1 then [t_atom.A_FLOAT (num1 : ℚ)] else []) ++
    (if midi_argc i < v.argc then [t_atom.A_FLOAT ((chan1 + 1 : Int) : ℚ)] else [])

/-- The body of the `for` loop of `faust_ui_manager_midiout`: the binding as it is
left, and the message sent, if one is. -/
def midiout_binding (mem : Nat → ℚ) (midichan : Int) (c : t_faust_ui) (b : t_faust_midi_ui) :
    t_faust_midi_ui × Option (List Char × List t_atom) :=
  match (midiout_switch mem c b).s with
  | some s =>
    if (midiout_switch mem c b).val ≠ b.val then
      ({ b with val := (midiout_switch mem c b).val },
        some (s, midiout_argv b.msg (midiout_switch mem c b) midichan))
    else (b, none)
  | none => (b, none)

/-- The body of the `while` loop of `faust_ui_manager_midiout`: the control as it is
left, and the messages sent for it, oldest first. -/
def midiout_control (mem : Nat → ℚ) (midichan : Int) (c : t_faust_ui) :
    t_faust_ui × List (List Char × List t_atom) :=
  if c.p_type = FAUST_UI_TYPE_BARGRAPH then
    ({ c with p_midi := c.p_midi.map fun b => (midiout_binding mem midichan c b).1 },
      c.p_midi.filterMap fun b => (midiout_binding mem midichan c b).2)
  else (c, [])

/-- The result of `faust_ui_manager_midiout`: the manager, the messages that went
to the outlet and the messages that went to the receiver. -/
structure t_midiout where
  x : t_faust_ui_manager
  outlet : List (List Char × List t_atom)
  recv : List (List Char × List t_atom)

/-- The function `faust_ui_manager_midiout`. `midirecv` is `none` for `NULL` and
otherwise tells whether `midirecv->s_thing` is set; `out` tells whether the outlet is
not `NULL`. -/
def faust_ui_manager_midiout (x : t_faust_ui_manager) (midichan : Int)
    (midirecv : Option Bool) (out : Bool) : t_midiout :=
  if midirecv = none ∧ out = false then { x := x, outlet := [], recv := [] }
  else
    { x := { x with f_uis := x.f_uis.map fun c => (midiout_control x.zone_mem midichan c).1 },
      outlet := if out then
          (x.f_uis.map fun c => (midiout_control x.zone_mem midichan c).2).flatten
        else [],
      recv := if midirecv = some true then
          (x.f_uis.map fun c => (midiout_control x.zone_mem midichan c).2).flatten
        else [] }

/-! ## Saved states -/

/-- The function `faust_ui_manager_save_states`. -/
def faust_ui_manager_save_states (x : t_faust_ui_manager) : t_faust_ui_manager :=
  { x with f_uis := x.f_uis.map fun c => { c with p_saved := x.zone_mem c.p_zone } }

/-- The function `faust_ui_manager_restore_states`. -/
def faust_ui_manager_restore_states (x : t_faust_ui_manager) : t_faust_ui_manager :=
  x.f_uis.foldl (fun y c => set_zone y c.p_zone c.p_saved c.p_uirecv) x

/-! ## Observations on voices, values and passes -/

/-- An operation on the voices: a note-on, a note-off, or all notes off. -/
inductive VoiceOp where
  | noteon (num val chan : Int)
  | noteoff (num chan : Int)
  | allNotesOff
deriving DecidableEq

/-- The function that an operation on the voices runs. -/
def voice_op (mtof : Int → ℚ) (x : t_faust_ui_manager) : VoiceOp → t_faust_ui_manager
  | .noteon num val chan => voices_noteon mtof x num val chan
  | .noteoff num chan => voices_noteoff x num chan
  | .allNotesOff => faust_ui_manager_all_notes_off x

/-- The free chain and the used chain hold every slot of the voice table exactly
once between them. -/
def pool_partition (x : t_faust_ui_manager) : Prop :=
  x.f_voices.length = x.f_nvoices ∧ (x.f_free ++ x.f_used).Perm (List.range x.f_nvoices)

/-- The notes that the voices on the used chain play, oldest first. -/
def used_notes (x : t_faust_ui_manager) : List Int :=
  x.f_used.filterMap fun u => (x.f_voices[u]?).map fun v => v.num

/-- Successive note-ons, one for each pair of a note number and a velocity. -/
def noteons (mtof : Int → ℚ) (chan : Int) (x : t_faust_ui_manager) (notes : List (Int × Int)) :
    t_faust_ui_manager :=
  notes.foldl (fun y k => voices_noteon mtof y k.1 k.2 chan) x

/-- A change of values from outside: a call of `faust_ui_manager_set_value` or an
incoming MIDI message. -/
inductive ValueChange where
  | setValue (name : List Char) (f : ℚ)
  | midi (s : List Char) (argv : List t_atom) (midichan : Int)

/-- The function that a change of values runs. -/
def value_change (mtof : Int → ℚ) (x : t_faust_ui_manager) : ValueChange → t_faust_ui_manager
  | .setValue name f => (faust_ui_manager_set_value x name f).1
  | .midi s argv midichan => (faust_ui_manager_get_midi mtof x s argv midichan).1

/-- The kind that a call of the DSP instance passes to `faust_ui_manager_add_param`. -/
def call_kind : UICall → Option Int
  | .addButton _ _ => some FAUST_UI_TYPE_BUTTON
  | .addToggle _ _ => some FAUST_UI_TYPE_TOGGLE
  | .addNumber _ _ _ _ _ _ => some FAUST_UI_TYPE_NUMBER
  | .addBargraph _ _ _ _ => some FAUST_UI_TYPE_BARGRAPH
  | _ => none

/-- Every Bargraph of the registry has the voice role `VOICE_NONE`. -/
def bargraph_no_voice (x : t_faust_ui_manager) : Prop :=
  ∀ c ∈ x.f_uis, c.p_type = FAUST_UI_TYPE_BARGRAPH → c.p_voice = VOICE_NONE

/-- A store of the DSP to the cell `z`. -/
def dsp_write (x : t_faust_ui_manager) (z : Nat) (v : ℚ) : t_faust_ui_manager :=
  { x with zone_mem := write_zone x.zone_mem z v }

/-- The registry of a DSP with two Toggle controls, "a" and "b", both bound to
program changes. -/
def pgm_state : t_faust_ui_manager :=
  introspection_pass sscanf_none faust_ui_manager_new
    [.declare 1 "midi".toList "pgm".toList, .addToggle "a".toList 1,
      .declare 2 "midi".toList "pgm".toList, .addToggle "b".toList 2]

/-- The registry of a DSP with one Bargraph "run" with the range 0 to 1, bound to
the start message. -/
def start_state : t_faust_ui_manager :=
  introspection_pass sscanf_none faust_ui_manager_new
    [.declare 1 "midi".toList "start".toList, .addBargraph "run".toList 1 0 1]

/-- The calls of a DSP with two voices, each with a frequency and a gate. -/
def two_voice_calls : List UICall :=
  [.declare 1 "voice".toList "freq".toList, .addNumber "freq1".toList 1 440 20 20000 0,
    .declare 2 "voice".toList "gate".toList, .addButton "gate1".toList 2,
    .declare 3 "voice".toList "freq".toList, .addNumber "freq2".toList 3 440 20 20000 0,
    .declare 4 "voice".toList "gate".toList, .addButton "gate2".toList 4]

/-- The registry after a pass over `two_voice_calls`: two voices, both free. -/
def two_voice_state : t_faust_ui_manager :=
  introspection_pass sscanf_none faust_ui_manager_new two_voice_calls

/-! ## Observations on the voice table, example registries -/

/-- The positions in the list of the controls that have the voice role `role`, in
the order of the list. -/
def role_positions (role : Int) (uis : List t_faust_ui) : List Nat :=
  (uis.enum.filter fun pc => decide (pc.2.p_voice = role)).map Prod.fst

/-- The calls of a DSP with one Number control "vol", range 0 to 10 and initial
value 5, inside the group "synth". -/
def grouped_vol_calls : List UICall :=
  [.openBox "synth".toList, .addNumber "vol".toList 1 5 0 10 0, .closeBox]

/-- The registry after a pass over `grouped_vol_calls` and a call that sets "vol"
to 7. -/
def grouped_vol_state : t_faust_ui_manager :=
  (faust_ui_manager_set_value
    (introspection_pass sscanf_none faust_ui_manager_new grouped_vol_calls) "vol".toList 7).1

/-- The calls of a DSP that declares a binding for the cell 1 and a binding for the
cell 2 before it adds the control of the cell 2, and then adds the control of the
cell 1. -/
def mixed_declare_calls : List UICall :=
  [.declare 1 "midi".toList "ctrl 7 3".toList, .declare 2 "midi".toList "ctrl 7".toList,
    .addNumber "pan".toList 2 0 0 127 0, .addNumber "vol".toList 1 0 0 127 0]

/-! ## Theorems: the name canonicalizer -/

theorem mangle_loop_chars (label : List Char) : ∀ (name : List Char) (state : Bool),
    (∀ c ∈ name, mangled_char c) → ∀ c ∈ mangle_loop label name state, mangled_char c := by
  induction label with
  | nil => intro name state h; simpa [mangle_loop] using h
  | cons a label ih =>
    intro name state h
    unfold mangle_loop
    split_ifs with h1 h2 h3 h4
    · intro c hc
      rcases List.mem_append.1 hc with hc | hc
      · exact h c hc
      · right; simpa using hc
    · apply ih
      intro c hc
      simp only [List.mem_append, List.mem_singleton] at hc
      rcases hc with (hc | hc) | hc
      · exact h c hc
      · right; exact hc
      · left; rw [hc]; exact h2
    · apply ih
      intro c hc
      simp only [List.mem_append, List.mem_singleton] at hc
      rcases hc with hc | hc
      · exact h c hc
      · left; rw [hc]; exact h2
    · exact ih name true h
    · exact h

theorem mangle_loop_length (label : List Char) : ∀ (name : List Char) (state : Bool),
    name.length ≤ MAXFAUSTSTRING - 1 →
    (mangle_loop label name state).length ≤ MAXFAUSTSTRING - 1 := by
  induction label with
  | nil => intro name state h; simpa [mangle_loop] using h
  | cons a label ih =>
    intro name state h
    unfold mangle_loop
    split_ifs with h1 h2 h3 h4
    · simp only [List.length_append, List.length_singleton] at h4 ⊢
      omega
    · apply ih
      simp only [List.length_append, List.length_singleton] at h4 ⊢
      omega
    · apply ih
      simp only [List.length_append, List.length_singleton]
      omega
    · exact ih name true h
    · exact h

theorem mangle_loop_no_alnum (label : List Char) : ∀ (name : List Char) (state : Bool),
    (∀ c ∈ label, isalnum c = false) → mangle_loop label name state = name := by
  induction label with
  | nil => intro name state _; simp [mangle_loop]
  | cons a label ih =>
    intro name state h
    have ha : isalnum a = false := h a (List.mem_cons_self _ _)
    have hl : ∀ c ∈ label, isalnum c = false := fun c hc => h c (List.mem_cons_of_mem _ hc)
    unfold mangle_loop
    simp only [ha, Bool.false_eq_true, if_false]
    split_ifs
    · exact ih name true hl
    · rfl

/-- C10. Every character of `mangle L` is an ASCII letter, a digit or a hyphen; the
result is never empty (it is "0x00" when `L` has no alphanumeric character) and has at
most 4095 characters; `mangle "meter #1 (dB)"` is "meter-1-dB". -/
theorem C10_mangle_charset (L : List Char) :
    (∀ c ∈ mangle L, isalnum c = true ∨ c = '-') ∧
    mangle L ≠ [] ∧
    ((∀ c ∈ L, isalnum c = false) → mangle L = "0x00".toList) ∧
    (mangle L).length ≤ 4095 ∧
    mangle "meter #1 (dB)".toList = "meter-1-dB".toList := by
  refine ⟨?_, ?_, ?_, ?_, by decide⟩
  · intro c hc
    unfold mangle at hc
    simp only at hc
    split_ifs at hc with h
    · exact mangle_loop_chars L [] false (by simp) c hc
    · revert c; decide
  · unfold mangle
    simp only
    split_ifs with h
    · exact h
    · decide
  · intro h
    unfold mangle
    simp [mangle_loop_no_alnum L [] false h]
  · unfold mangle
    simp only
    split_ifs with h
    · exact mangle_loop_length L [] false (by simp [MAXFAUSTSTRING])
    · decide

theorem mangle_placeholder : mangle "0x00".toList = "0x00".toList := by decide

theorem label_test_iff (label : List Char) :
    (label ≠ "0x00".toList ∧ mangle label ≠ "0x00".toList) ↔ mangle label ≠ "0x00".toList := by
  constructor
  · exact fun h => h.2
  · intro h
    refine ⟨?_, h⟩
    intro hl
    exact h (hl ▸ mangle_placeholder)

theorem mangle_ne_nil (L : List Char) : mangle L ≠ [] := by
  unfold mangle
  simp only
  split_ifs with h
  · exact h
  · decide

/-- A step of the loop with room for the group name and its separator. -/
theorem long_name_step_fit (name g : List Char) (hg : g ≠ "0x00".toList)
    (h : name.length + g.length + 1 ≤ MAXFAUSTSTRING - 1) :
    long_name_step name g = name ++ g ++ ['/'] := by
  have h' : name.length + g.length + 1 ≤ 4095 := h
  unfold long_name_step strncat strnlen
  rw [if_neg hg]
  simp only [MAXFAUSTSTRING]
  have e1 : List.take (4096 - min name.length 4096 - 1) g = g :=
    List.take_of_length_le (by omega)
  rw [e1]
  have e2 : List.take (4096 - min (name ++ g).length 4096 - 1) "/".toList = ['/'] := by
    apply List.take_of_length_le
    simp only [List.length_append]
    have : "/".toList.length = 1 := rfl
    omega
  rw [e2]

theorem groups_text_skip (g : List Char) (names : List (List Char))
    (hg : g = "0x00".toList) : groups_text (g :: names) = groups_text names := by
  unfold groups_text
  rw [List.filter_cons_of_neg (by simpa using hg)]

theorem groups_text_keep (g : List Char) (names : List (List Char))
    (hg : g ≠ "0x00".toList) : groups_text (g :: names) = g ++ ['/'] ++ groups_text names := by
  unfold groups_text
  rw [List.filter_cons_of_pos (by simpa using hg), List.map_cons, List.flatten_cons]

theorem groups_text_length (names : List (List Char)) :
    (groups_text names).length =
      ((names.filter fun g => decide (g ≠ "0x00".toList)).map fun g => g.length + 1).sum := by
  induction names with
  | nil => rfl
  | cons g names ih =>
    by_cases hg : g = "0x00".toList
    · rw [groups_text_skip g names hg, ih, List.filter_cons_of_neg (by simpa using hg)]
    · rw [groups_text_keep g names hg, List.filter_cons_of_pos (by simpa using hg)]
      simp only [List.length_append, List.length_singleton, List.map_cons, List.sum_cons, ih]

theorem long_name_foldl_fit (names : List (List Char)) : ∀ (name : List Char),
    name.length + (groups_text names).length ≤ MAXFAUSTSTRING - 1 →
    names.foldl long_name_step name = name ++ groups_text names := by
  induction names with
  | nil => intro name _; simp [groups_text]
  | cons g names ih =>
    intro name h
    by_cases hg : g = "0x00".toList
    · rw [groups_text_skip g names hg] at h ⊢
      rw [List.foldl_cons]
      have : long_name_step name g = name := by
        unfold long_name_step
        rw [if_pos hg]
      rw [this]
      exact ih name h
    · rw [groups_text_keep g names hg] at h ⊢
      simp only [List.length_append, List.length_singleton] at h
      rw [List.foldl_cons, long_name_step_fit name g hg (by omega), ih _ (by
        simp only [List.length_append, List.length_singleton]; omega)]
      simp

theorem intercalate_snoc (gs : List (List Char)) (m : List Char) :
    "/".toList.intercalate (gs ++ [m]) = (gs.map fun g => g ++ ['/']).flatten ++ m := by
  induction gs with
  | nil => simp [List.intercalate, List.intersperse]
  | cons g gs ih =>
    cases gs with
    | nil => simp [List.intercalate, List.intersperse]
    | cons g' gs =>
      have : "/".toList.intercalate (g :: (g' :: gs ++ [m])) =
          g ++ "/".toList ++ "/".toList.intercalate (g' :: gs ++ [m]) := by
        simp [List.intercalate, List.intersperse]
      rw [List.cons_append, this, ih]
      simp

theorem flatten_slash_dropLast (gs : List (List Char)) (h : gs ≠ []) :
    ((gs.map fun g => g ++ ['/']).flatten).dropLast = "/".toList.intercalate gs := by
  obtain ⟨init, m, rfl⟩ : ∃ init m, gs = init ++ [m] :=
    ⟨gs.dropLast, gs.getLast h, (List.dropLast_append_getLast h).symm⟩
  rw [intercalate_snoc]
  simp only [List.map_append, List.map_cons, List.map_nil, List.flatten_append,
    List.flatten_cons, List.flatten_nil, List.append_nil]
  rw [← List.append_assoc, List.dropLast_concat]

theorem mangle_chars (L : List Char) : ∀ c ∈ mangle L, isalnum c = true ∨ c = '-' := by
  intro c hc
  unfold mangle at hc
  simp only at hc
  split_ifs at hc with h
  · exact mangle_loop_chars L [] false (by simp) c hc
  · revert c; decide

theorem mangle_no_slash (L : List Char) : '/' ∉ mangle L := by
  intro h
  rcases mangle_chars L '/' h with h1 | h1
  · exact absurd h1 (by decide)
  · exact absurd h1 (by decide)

theorem intercalate_head_last (cs : List (List Char)) (hne : cs ≠ [])
    (hcs : ∀ g ∈ cs, g ≠ [] ∧ '/' ∉ g) :
    ("/".toList.intercalate cs).head? ≠ some '/' ∧
    ("/".toList.intercalate cs).getLast? ≠ some '/' := by
  constructor
  · cases cs with
    | nil => exact absurd rfl hne
    | cons c rest =>
      obtain ⟨hc, hs⟩ := hcs c (List.mem_cons_self _ _)
      cases c with
      | nil => exact absurd rfl hc
      | cons a c =>
        have ha : a ≠ '/' := fun e => hs (e ▸ List.mem_cons_self _ _)
        cases rest with
        | nil => simpa [List.intercalate, List.intersperse] using ha
        | cons r rest => simpa [List.intercalate, List.intersperse] using ha
  · obtain ⟨init, m, rfl⟩ : ∃ init m, cs = init ++ [m] :=
      ⟨cs.dropLast, cs.getLast hne, (List.dropLast_append_getLast hne).symm⟩
    obtain ⟨hm, hs⟩ := hcs m (by simp)
    rw [intercalate_snoc, List.getLast?_append]
    obtain ⟨b, hb⟩ : ∃ b, m.getLast? = some b := by
      cases h : m.getLast? with
      | none => exact absurd (List.getLast?_eq_none_iff.1 h) hm
      | some b => exact ⟨b, rfl⟩
    rw [hb]
    intro e
    have e' : b = '/' := by simpa [Option.or] using e
    exact hs (e' ▸ List.mem_of_getLast?_eq_some hb)

theorem path_components_ok (groups : List (List Char)) (label : List Char) :
    ∀ g ∈ path_components (groups.map mangle) label, g ≠ [] ∧ '/' ∉ g := by
  intro g hg
  unfold path_components at hg
  have hmem := (List.mem_filter.1 hg).1
  have : ∃ l, g = mangle l := by
    rcases List.mem_append.1 hmem with h | h
    · obtain ⟨l, _, hl⟩ := List.mem_map.1 h
      exact ⟨l, hl.symm⟩
    · exact ⟨label, by simpa using h⟩
  obtain ⟨l, rfl⟩ := this
  exact ⟨mangle_ne_nil l, mangle_no_slash l⟩

theorem path_components_of_label (names : List (List Char)) (label : List Char)
    (h : mangle label ≠ "0x00".toList) :
    path_components names label =
      (names.filter fun g => decide (g ≠ "0x00".toList)) ++ [mangle label] := by
  unfold path_components
  rw [List.filter_append, List.filter_cons_of_pos (by simpa using h)]
  rfl

theorem path_components_of_anon (names : List (List Char)) (label : List Char)
    (h : mangle label = "0x00".toList) :
    path_components names label = names.filter fun g => decide (g ≠ "0x00".toList) := by
  unfold path_components
  rw [List.filter_append, List.filter_cons_of_neg (by simpa using h)]
  simp

/-- What `faust_ui_manager_get_long_name` builds when nothing is cut. -/
theorem long_name_fit (x : t_faust_ui_manager) (label : List Char)
    (hfit : written_length x.f_names label ≤ MAXFAUSTSTRING - 1) :
    faust_ui_manager_get_long_name x label =
      if mangle label ≠ "0x00".toList then groups_text x.f_names ++ mangle label
      else if (groups_text x.f_names).dropLast ≠ [] then (groups_text x.f_names).dropLast
      else "anon".toList := by
  unfold written_length at hfit
  rw [← groups_text_length] at hfit
  have hfit' : (groups_text x.f_names).length +
      (if mangle label ≠ "0x00".toList then (mangle label).length else 0) ≤ 4095 := hfit
  have hG : x.f_names.foldl long_name_step [] = groups_text x.f_names := by
    have := long_name_foldl_fit x.f_names [] (by
      simp only [List.length_nil, zero_add, MAXFAUSTSTRING]; omega)
    simpa using this
  unfold faust_ui_manager_get_long_name
  simp only [hG]
  by_cases hm : mangle label ≠ "0x00".toList
  · rw [if_pos hm] at hfit'
    rw [if_pos ((label_test_iff label).2 hm), if_pos hm]
    unfold strncat strnlen
    simp only [MAXFAUSTSTRING]
    rw [List.take_of_length_le (by omega)]
    rw [if_pos]
    intro h
    exact mangle_ne_nil label (List.append_eq_nil.1 h).2
  · rw [if_neg (fun h => hm ((label_test_iff label).1 h)), if_neg hm]
    rw [if_neg hm, Nat.add_zero] at hfit'
    unfold strnlen
    simp only [MAXFAUSTSTRING]
    have e : min (groups_text x.f_names).length 4096 - 1 = (groups_text x.f_names).length - 1 := by
      omega
    rw [e, ← List.dropLast_eq_take]
    by_cases hn : groups_text x.f_names = []
    · simp [hn]
    · rw [if_pos hn]


theorem groups_text_eq_nil (names : List (List Char)) :
    groups_text names = [] ↔ (names.filter fun g => decide (g ≠ "0x00".toList)) = [] := by
  constructor
  · intro h
    have hl := groups_text_length names
    rw [h] at hl
    cases hf : (names.filter fun g => decide (g ≠ "0x00".toList)) with
    | nil => rfl
    | cons a l =>
      rw [hf] at hl
      simp only [List.length_nil, List.map_cons, List.sum_cons] at hl
      omega
  · intro h
    unfold groups_text
    rw [h]
    rfl

/-- A joined path that is "anon" has "anon" as its only component. -/
theorem intercalate_eq_anon (cs : List (List Char)) (hne : cs ≠ [])
    (h : "/".toList.intercalate cs = "anon".toList) : cs = ["anon".toList] := by
  obtain ⟨init, m, rfl⟩ : ∃ init m, cs = init ++ [m] :=
    ⟨cs.dropLast, cs.getLast hne, (List.dropLast_append_getLast hne).symm⟩
  rw [intercalate_snoc] at h
  cases init with
  | nil =>
    simp only [List.map_nil, List.flatten_nil, List.nil_append] at h
    rw [h]
    rfl
  | cons g rest =>
    exfalso
    have hmem : '/' ∈ "anon".toList := by
      rw [← h]
      simp
    revert hmem
    decide

/-- C8 (amended). When the text the function writes (every group name that is not
the placeholder followed by "/", then the mangled label when it is not the
placeholder) has at most 4095 characters, `faust_ui_manager_get_long_name` returns
the components that are not the placeholder "0x00" (the mangled names of the open
groups, outermost first, then the mangled label) joined by single "/", with no "/"
in front or at the end; it returns "anon" exactly when every component is the
placeholder or the only component that is not is "anon" itself. No component is
empty or holds a "/". Group "Synth" with label "Gate" gives "Synth/Gate". -/
theorem C8_long_name_joined (groups : List (List Char)) (label : List Char)
    (x : t_faust_ui_manager) (hx : x.f_names = groups.map mangle)
    (hfit : written_length x.f_names label ≤ MAXFAUSTSTRING - 1) :
    (path_components x.f_names label = [] →
      faust_ui_manager_get_long_name x label = "anon".toList) ∧
    (path_components x.f_names label ≠ [] →
      faust_ui_manager_get_long_name x label =
        "/".toList.intercalate (path_components x.f_names label) ∧
      (faust_ui_manager_get_long_name x label).head? ≠ some '/' ∧
      (faust_ui_manager_get_long_name x label).getLast? ≠ some '/') ∧
    (faust_ui_manager_get_long_name x label = "anon".toList ↔
      path_components x.f_names label = [] ∨
      path_components x.f_names label = ["anon".toList]) ∧
    (∀ g ∈ path_components x.f_names label, g ≠ [] ∧ '/' ∉ g) ∧
    faust_ui_manager_get_long_name
      (faust_ui_manager_ui_open_box faust_ui_manager_new "Synth".toList) "Gate".toList =
      "Synth/Gate".toList := by
  have hok := path_components_ok groups label
  rw [← hx] at hok
  have main : (path_components x.f_names label = [] →
        faust_ui_manager_get_long_name x label = "anon".toList) ∧
      (path_components x.f_names label ≠ [] →
        faust_ui_manager_get_long_name x label =
          "/".toList.intercalate (path_components x.f_names label) ∧
        (faust_ui_manager_get_long_name x label).head? ≠ some '/' ∧
        (faust_ui_manager_get_long_name x label).getLast? ≠ some '/') := ?_
  · refine ⟨main.1, main.2, ?_, hok, by decide⟩
    constructor
    · intro h
      by_cases hc : path_components x.f_names label = []
      · exact Or.inl hc
      · right
        rw [(main.2 hc).1] at h
        exact intercalate_eq_anon _ hc h
    · rintro (h | h)
      · exact main.1 h
      · rw [(main.2 (by rw [h]; simp)).1, h]
        rfl
  refine ⟨?_, ?_⟩
  · intro hc
    rw [long_name_fit x label hfit]
    by_cases hm : mangle label ≠ "0x00".toList
    · rw [path_components_of_label _ _ hm] at hc
      exact absurd hc (by simp)
    · rw [path_components_of_anon _ _ (not_not.1 hm)] at hc
      rw [if_neg hm, (groups_text_eq_nil _).2 hc]
      rfl
  · intro hc
    have key : faust_ui_manager_get_long_name x label =
        "/".toList.intercalate (path_components x.f_names label) := by
      rw [long_name_fit x label hfit]
      by_cases hm : mangle label ≠ "0x00".toList
      · rw [if_pos hm, path_components_of_label _ _ hm, intercalate_snoc]
        rfl
      · rw [path_components_of_anon _ _ (not_not.1 hm)] at hc hok ⊢
        rw [if_neg hm]
        have e : (groups_text x.f_names).dropLast =
            "/".toList.intercalate (x.f_names.filter fun g => decide (g ≠ "0x00".toList)) :=
          flatten_slash_dropLast _ hc
        rw [e, if_pos]
        intro h0
        have := (intercalate_head_last _ hc hok).1
        rw [h0] at this
        obtain ⟨init, m, hm'⟩ : ∃ init m,
            (x.f_names.filter fun g => decide (g ≠ "0x00".toList)) = init ++ [m] :=
          ⟨_, _, (List.dropLast_append_getLast hc).symm⟩
        rw [hm', intercalate_snoc] at h0
        have hmne : m ≠ [] := (hok m (by rw [hm']; simp)).1
        exact hmne (List.append_eq_nil.1 h0).2
    rw [key]
    exact ⟨rfl, intercalate_head_last _ hc hok⟩

theorem C8_long_name_joined_witness :
    written_length (faust_ui_manager_ui_open_box faust_ui_manager_new "Synth".toList).f_names
      "Gate".toList ≤ MAXFAUSTSTRING - 1 ∧
    faust_ui_manager_get_long_name
      (faust_ui_manager_ui_open_box faust_ui_manager_new "Synth".toList) "Gate".toList =
      "/".toList.intercalate (path_components
        (faust_ui_manager_ui_open_box faust_ui_manager_new "Synth".toList).f_names
        "Gate".toList) :=
  ⟨by decide,
    ((C8_long_name_joined ["Synth".toList] "Gate".toList
      (faust_ui_manager_ui_open_box faust_ui_manager_new "Synth".toList) (by decide)
      (by decide)).2.1 (by decide)).1⟩

/-- Letters and digits only: the loop of `mangle` copies the label until the buffer
is full. -/
theorem mangle_loop_alnum (label : List Char) : ∀ (name : List Char),
    (∀ c ∈ label, isalnum c = true) →
    mangle_loop label name false = name ++ label.take (MAXFAUSTSTRING - 1 - name.length) := by
  induction label with
  | nil => intro name _; simp [mangle_loop]
  | cons a label ih =>
    intro name h
    have ha : isalnum a = true := h a (List.mem_cons_self _ _)
    have hl : ∀ c ∈ label, isalnum c = true := fun c hc => h c (List.mem_cons_of_mem _ hc)
    unfold mangle_loop
    simp only [ha, if_true, Bool.false_eq_true, if_false]
    split_ifs with h1
    · rw [ih _ hl]
      simp only [List.length_append, List.length_singleton, List.append_assoc]
      obtain ⟨k, hk⟩ : ∃ k, MAXFAUSTSTRING - 1 - name.length = k + 1 :=
        ⟨MAXFAUSTSTRING - 1 - name.length - 1, by omega⟩
      rw [hk, List.take_succ_cons]
      have : MAXFAUSTSTRING - 1 - (name.length + 1) = k := by omega
      rw [this]
      rfl
    · have : MAXFAUSTSTRING - 1 - name.length = 0 := by omega
      rw [this]
      simp

theorem mangle_replicate_a (n : Nat) (h0 : 0 < n) (hn : n ≤ MAXFAUSTSTRING - 1) :
    mangle (List.replicate n 'a') = List.replicate n 'a' := by
  unfold mangle
  have h := mangle_loop_alnum (List.replicate n 'a') [] (by
    intro c hc
    rw [List.eq_of_mem_replicate hc]
    decide)
  rw [List.length_nil, Nat.sub_zero, List.nil_append,
    List.take_of_length_le (by rw [List.length_replicate]; exact hn)] at h
  simp only [h]
  rw [if_pos]
  intro e
  have := congrArg List.length e
  rw [List.length_replicate, List.length_nil] at this
  omega

theorem replicate_a_ne_placeholder (n : Nat) (hn : 4 < n) :
    List.replicate n 'a' ≠ "0x00".toList := by
  intro e
  have := congrArg List.length e
  rw [List.length_replicate] at this
  have h4 : "0x00".toList.length = 4 := rfl
  omega

/-- The long name at the edge of the buffer: one group of `n = 4095` letters and the
placeholder label. -/
theorem long_name_buffer_edge (n : Nat) (hn : n = MAXFAUSTSTRING - 1)
    (x : t_faust_ui_manager) (hx : x.f_names = [List.replicate n 'a']) :
    faust_ui_manager_get_long_name x "0x00".toList = List.replicate (n - 1) 'a' := by
  have hn' : n = 4095 := hn
  have hne : List.replicate n 'a' ≠ "0x00".toList :=
    replicate_a_ne_placeholder n (by omega)
  have hstep : long_name_step [] (List.replicate n 'a') = List.replicate n 'a' := by
    unfold long_name_step strncat strnlen
    rw [if_neg hne]
    simp only [List.length_nil, List.nil_append, MAXFAUSTSTRING]
    rw [List.take_of_length_le (by rw [List.length_replicate]; omega), List.length_replicate]
    have : 4096 - min n 4096 - 1 = 0 := by omega
    rw [this, List.take_zero, List.append_nil]
  have hnil : List.replicate n 'a' ≠ [] := by
    intro e
    have := congrArg List.length e
    rw [List.length_replicate, List.length_nil] at this
    omega
  unfold faust_ui_manager_get_long_name
  rw [hx]
  have hc : ¬ ("0x00".toList ≠ "0x00".toList ∧ mangle "0x00".toList ≠ "0x00".toList) :=
    fun h => h.1 rfl
  have htake : List.take (strnlen (List.replicate n 'a') MAXFAUSTSTRING - 1)
      (List.replicate n 'a') = List.replicate (n - 1) 'a' := by
    unfold strnlen
    rw [List.length_replicate, List.take_replicate]
    have : min (min n MAXFAUSTSTRING - 1) n = n - 1 := by
      simp only [MAXFAUSTSTRING]; omega
    rw [this]
  simp only [List.foldl_cons, List.foldl_nil, hstep, if_neg hc, if_pos hnil, htake]
  rw [if_pos]
  intro e
  have := congrArg List.length e
  rw [List.length_replicate, List.length_nil] at this
  omega

/-- C8, as stated, fails at the edge of the buffer: with one open group whose name
is 4095 letters and the placeholder label, the joined name is the group name, 4095
characters, and it is below the buffer size 4096; the function returns only the
first 4094 letters, since the "/" it appends is cut off and the last character is
trimmed all the same. Also, the label "anon" on an empty stack gives "anon" although
its one component is not the placeholder. -/
theorem C8_counterexample_buffer_edge :
    long_group_state.f_names = [List.replicate 4095 'a'].map mangle ∧
    ("/".toList.intercalate
      (path_components long_group_state.f_names "0x00".toList)).length < MAXFAUSTSTRING ∧
    faust_ui_manager_get_long_name long_group_state "0x00".toList =
      List.replicate 4094 'a' ∧
    faust_ui_manager_get_long_name long_group_state "0x00".toList ≠
      "/".toList.intercalate (path_components long_group_state.f_names "0x00".toList) ∧
    faust_ui_manager_get_long_name faust_ui_manager_new "anon".toList = "anon".toList ∧
    path_components faust_ui_manager_new.f_names "anon".toList = ["anon".toList] := by
  have hm := mangle_replicate_a 4095 (by omega) (by simp only [MAXFAUSTSTRING]; omega)
  have hn : long_group_state.f_names = [List.replicate 4095 'a'] := by
    show [] ++ [mangle (List.replicate 4095 'a')] = _
    rw [hm]
    rfl
  have hne := replicate_a_ne_placeholder 4095 (by omega)
  have hpc : path_components long_group_state.f_names "0x00".toList =
      [List.replicate 4095 'a'] := by
    rw [path_components_of_anon _ _ mangle_placeholder, hn,
      List.filter_cons_of_pos (by rw [decide_eq_true_eq]; exact hne)]
    rfl
  have hj : "/".toList.intercalate [List.replicate 4095 'a'] = List.replicate 4095 'a' := by
    unfold List.intercalate
    rw [List.intersperse_single, List.flatten_cons, List.flatten_nil, List.append_nil]
  have hval := long_name_buffer_edge 4095 rfl long_group_state hn
  refine ⟨?_, ?_, hval, ?_, by decide, by decide⟩
  · rw [hn, List.map_cons, hm]
    rfl
  · rw [hpc, hj, List.length_replicate]
    decide
  · rw [hval, hpc, hj]
    intro e
    have := congrArg List.length e
    rw [List.length_replicate, List.length_replicate] at this
    omega

/-- C9. `faust_ui_manager_get_name` returns the mangled label when it is not the
placeholder "0x00"; otherwise the innermost name on the group stack that is not the
placeholder; otherwise "anon". -/
theorem C9_short_name (x : t_faust_ui_manager) (label : List Char) :
    (mangle label ≠ "0x00".toList → faust_ui_manager_get_name x label = mangle label) ∧
    (mangle label = "0x00".toList →
      ∀ (outer : List (List Char)) (g : List Char) (inner : List (List Char)),
        x.f_names = outer ++ g :: inner → g ≠ "0x00".toList →
        (∀ h ∈ inner, h = "0x00".toList) → faust_ui_manager_get_name x label = g) ∧
    (mangle label = "0x00".toList → (∀ h ∈ x.f_names, h = "0x00".toList) →
      faust_ui_manager_get_name x label = "anon".toList) := by
  have loop_skip : ∀ (inner rest : List (List Char)), (∀ h ∈ inner, h = "0x00".toList) →
      get_name_loop (inner.reverse ++ rest) = get_name_loop rest := by
    intro inner
    induction inner using List.reverseRecOn with
    | nil => intro rest _; rfl
    | append_singleton inner h ih =>
      intro rest hall
      have hh : h = "0x00".toList := hall h (by simp)
      rw [List.reverse_append, List.reverse_singleton, List.singleton_append, List.cons_append,
        get_name_loop, if_neg (not_not.2 hh)]
      exact ih rest (fun k hk => hall k (List.mem_append_left _ hk))
  refine ⟨?_, ?_, ?_⟩
  · intro hm
    unfold faust_ui_manager_get_name
    rw [if_pos ((label_test_iff label).2 hm)]
  · intro hm outer g inner hx hg hinner
    unfold faust_ui_manager_get_name
    rw [if_neg (fun h => h.2 hm), hx, List.reverse_append, List.reverse_cons,
      List.append_assoc, loop_skip inner _ hinner]
    show get_name_loop (g :: outer.reverse) = g
    rw [get_name_loop, if_pos hg]
  · intro hm hall
    unfold faust_ui_manager_get_name
    rw [if_neg (fun h => h.2 hm)]
    have := loop_skip x.f_names [] hall
    rw [List.append_nil] at this
    rw [this]
    rfl

theorem C9_short_name_witness :
    faust_ui_manager_get_name
      (faust_ui_manager_ui_open_box
        (faust_ui_manager_ui_open_box faust_ui_manager_new "Synth".toList) "!".toList)
      "0x00".toList = "Synth".toList :=
  (C9_short_name
    (faust_ui_manager_ui_open_box
      (faust_ui_manager_ui_open_box faust_ui_manager_new "Synth".toList) "!".toList)
    "0x00".toList).2.1 (by decide) [] "Synth".toList ["0x00".toList] (by decide) (by decide)
    (by decide)


/-! ## Theorems: the introspection pass -/

/-! ### The record written by `faust_ui_manager_add_param` -/

theorem attach_meta_fields (m : t_last_meta) (c : t_faust_ui) (type : Int) (zone : Nat)
    (init min max : ℚ) :
    (attach_meta m c type zone init min max).p_name = c.p_name ∧
    (attach_meta m c type zone init min max).p_longname = c.p_longname ∧
    (attach_meta m c type zone init min max).p_kept = c.p_kept ∧
    (attach_meta m c type zone init min max).p_index = c.p_index ∧
    (attach_meta m c type zone init min max).p_saved = c.p_saved ∧
    (attach_meta m c type zone init min max).p_zone = c.p_zone ∧
    (attach_meta m c type zone init min max).p_type = c.p_type := by
  unfold attach_meta
  split_ifs <;> simp

theorem add_param_record_fields (x : t_faust_ui_manager) (label : List Char) (type : Int)
    (zone : Nat) (init min max step : ℚ) :
    (add_param_record x label type zone init min max step).p_longname =
      faust_ui_manager_get_long_name x label ∧
    (add_param_record x label type zone init min max step).p_kept = true ∧
    (add_param_record x label type zone init min max step).p_index = x.f_nuis ∧
    (add_param_record x label type zone init min max step).p_zone = zone ∧
    (add_param_record x label type zone init min max step).p_type = type := by
  unfold add_param_record
  simp only
  split <;> simp [attach_meta_fields, fill_ui]

theorem call_record_fields (x : t_faust_ui_manager) (call : UICall) (c : t_faust_ui)
    (h : call_record x call = some c) : c.p_kept = true ∧ c.p_index = x.f_nuis := by
  cases call <;> simp only [call_record, Option.some.injEq] at h <;>
    first
    | (subst h; exact ⟨(add_param_record_fields _ _ _ _ _ _ _ _).2.1,
        (add_param_record_fields _ _ _ _ _ _ _ _).2.2.1⟩)
    | exact absurd h (by simp)

theorem add_param_reuse_some (x : t_faust_ui_manager) (lname : List Char) (i : Nat)
    (c : t_faust_ui) (h : add_param_reuse x lname = some (i, c)) :
    faust_ui_manager_get x lname = some i ∧ x.f_uis[i]? = some c ∧ c.p_kept = false := by
  unfold add_param_reuse at h
  cases hg : faust_ui_manager_get x lname with
  | none => rw [hg] at h; exact absurd h (by simp)
  | some j =>
    rw [hg] at h
    simp only at h
    cases hc : x.f_uis[j]? with
    | none => rw [hc] at h; exact absurd h (by simp)
    | some d =>
      rw [hc] at h
      simp only at h
      split_ifs at h with hk
      simp only [Option.some.injEq, Prod.mk.injEq] at h
      obtain ⟨rfl, rfl⟩ := h
      exact ⟨rfl, hc, by simpa using hk⟩

/-- A list with the record at position `i` replaced, split around that position. -/
theorem set_split (l : List t_faust_ui) (i : Nat) (c d : t_faust_ui) (h : l[i]? = some c) :
    ∃ l1 l2, l = l1 ++ c :: l2 ∧ l.set i d = l1 ++ d :: l2 ∧ l1.length = i := by
  induction l generalizing i with
  | nil => simp at h
  | cons a l ih =>
    cases i with
    | zero =>
      simp only [List.getElem?_cons_zero, Option.some.injEq] at h
      exact ⟨[], l, by simp [h], by simp, rfl⟩
    | succ i =>
      simp only [List.getElem?_cons_succ] at h
      obtain ⟨l1, l2, e1, e2, e3⟩ := ih i h
      exact ⟨a :: l1, l2, by simp [e1], by simp [e2], by simp [e3]⟩

/-- The list of controls after `faust_ui_manager_add_param`: the record written takes
the place of a record that was not kept, or is put in front. -/
theorem add_param_uis (x : t_faust_ui_manager) (label : List Char) (type : Int)
    (zone : Nat) (init min max step : ℚ) :
    (∃ l1 c l2, x.f_uis = l1 ++ c :: l2 ∧ c.p_kept = false ∧
      add_param_reuse x (faust_ui_manager_get_long_name x label) = some (l1.length, c) ∧
      (faust_ui_manager_add_param x label type zone init min max step).f_uis =
        l1 ++ add_param_record x label type zone init min max step :: l2) ∨
    (add_param_reuse x (faust_ui_manager_get_long_name x label) = none ∧
      (faust_ui_manager_add_param x label type zone init min max step).f_uis =
        add_param_record x label type zone init min max step :: x.f_uis) := by
  cases hr : add_param_reuse x (faust_ui_manager_get_long_name x label) with
  | none =>
    right
    refine ⟨rfl, ?_⟩
    unfold faust_ui_manager_add_param
    simp only [hr]
  | some p =>
    left
    obtain ⟨i, c⟩ := p
    obtain ⟨_, hc, hk⟩ := add_param_reuse_some x _ i c hr
    obtain ⟨l1, l2, e1, e2, e3⟩ := set_split x.f_uis i c
      (add_param_record x label type zone init min max step) hc
    refine ⟨l1, c, l2, e1, hk, by rw [e3], ?_⟩
    unfold faust_ui_manager_add_param
    simp only [hr]
    exact e2

theorem add_param_nuis (x : t_faust_ui_manager) (label : List Char) (type : Int)
    (zone : Nat) (init min max step : ℚ) :
    (faust_ui_manager_add_param x label type zone init min max step).f_nuis = x.f_nuis + 1 := by
  unfold faust_ui_manager_add_param
  simp only
  split <;> rfl

theorem add_param_names (x : t_faust_ui_manager) (label : List Char) (type : Int)
    (zone : Nat) (init min max step : ℚ) :
    (faust_ui_manager_add_param x label type zone init min max step).f_names = x.f_names := by
  unfold faust_ui_manager_add_param
  simp only
  split <;> rfl

/-! ### The kept records during a run -/

theorem declare_uis (sscanf : List Char → List Char → List Nat) (x : t_faust_ui_manager)
    (zone : Nat) (key value : List Char) :
    (faust_ui_manager_ui_declare sscanf x zone key value).f_uis = x.f_uis ∧
    (faust_ui_manager_ui_declare sscanf x zone key value).f_nuis = x.f_nuis ∧
    (faust_ui_manager_ui_declare sscanf x zone key value).zone_mem = x.zone_mem ∧
    (faust_ui_manager_ui_declare sscanf x zone key value).f_names = x.f_names := by
  unfold faust_ui_manager_ui_declare
  split_ifs <;> simp

theorem close_box_uis (x : t_faust_ui_manager) :
    (faust_ui_manager_ui_close_box x).f_uis = x.f_uis ∧
    (faust_ui_manager_ui_close_box x).f_nuis = x.f_nuis ∧
    (faust_ui_manager_ui_close_box x).zone_mem = x.zone_mem ∧
    (faust_ui_manager_ui_close_box x).last_meta = x.last_meta := by
  unfold faust_ui_manager_ui_close_box
  split_ifs <;> simp

theorem run_inv_add (s : t_faust_ui_manager) (W : List t_faust_ui) (h : run_inv s W)
    (label : List Char) (type : Int) (zone : Nat) (init min max step : ℚ) :
    run_inv (faust_ui_manager_add_param s label type zone init min max step)
      (W ++ [add_param_record s label type zone init min max step]) := by
  obtain ⟨h1, h2, h3⟩ := h
  obtain ⟨_, hk, hi, _⟩ := add_param_record_fields s label type zone init min max step
  refine ⟨?_, ?_, ?_⟩
  · rcases add_param_uis s label type zone init min max step with
      ⟨l1, c, l2, e, hc, _, e'⟩ | ⟨_, e'⟩
    · rw [e']
      rw [e] at h1
      rw [List.filter_append, List.filter_cons_of_neg (by simp [hc])] at h1
      rw [List.filter_append, List.filter_cons_of_pos (by simp [hk])]
      exact (List.perm_middle.trans (List.Perm.cons _ h1)).trans
        (List.perm_append_singleton _ _).symm
    · rw [e', List.filter_cons_of_pos (by simp [hk])]
      exact (List.Perm.cons _ h1).trans (List.perm_append_singleton _ _).symm
  · rw [add_param_nuis, h2, List.length_append, List.length_singleton]
  · rw [List.map_append, h3, List.length_append, List.length_singleton, List.range_succ,
      List.map_cons, List.map_nil, hi, h2]

theorem run_inv_call (sscanf : List Char → List Char → List Nat) (s : t_faust_ui_manager)
    (W : List t_faust_ui) (h : run_inv s W) (call : UICall) :
    run_inv (ui_call sscanf s call) (W ++ (call_record s call).toList) := by
  cases call with
  | openBox label => simpa [ui_call, call_record, faust_ui_manager_ui_open_box, run_inv] using h
  | closeBox =>
    obtain ⟨e1, e2, _, _⟩ := close_box_uis s
    simpa [ui_call, call_record, run_inv, e1, e2] using h
  | declare zone key value =>
    obtain ⟨e1, e2, _, _⟩ := declare_uis sscanf s zone key value
    simpa [ui_call, call_record, run_inv, e1, e2] using h
  | addButton label zone => exact run_inv_add s W h label _ zone 0 0 0 0
  | addToggle label zone => exact run_inv_add s W h label _ zone 0 0 1 1
  | addNumber label zone init min max step => exact run_inv_add s W h label _ zone init min max step
  | addBargraph label zone min max => exact run_inv_add s W h label _ zone 0 min max 0

theorem run_inv_build (sscanf : List Char → List Char → List Nat) (calls : List UICall) :
    ∀ (s : t_faust_ui_manager) (W : List t_faust_ui), run_inv s W →
    run_inv (build_user_interface sscanf s calls) (W ++ written_records sscanf s calls) := by
  induction calls with
  | nil => intro s W h; simpa [build_user_interface, written_records] using h
  | cons call calls ih =>
    intro s W h
    have := ih _ _ (run_inv_call sscanf s W h call)
    rw [List.append_assoc] at this
    exact this


/-! ### `faust_ui_manager_finish_changes` -/

theorem remove_unkept_eq_filter (l : List t_faust_ui) :
    remove_unkept l = l.filter fun c => c.p_kept := by
  induction l with
  | nil => rfl
  | cons a l ih =>
    unfold remove_unkept
    cases h : a.p_kept
    · simp [ih, h]
    · simp [ih, h]

theorem free_voices_fields (x : t_faust_ui_manager) :
    (faust_free_voices x).f_uis = x.f_uis ∧ (faust_free_voices x).zone_mem = x.zone_mem ∧
    (faust_free_voices x).f_nuis = x.f_nuis ∧ (faust_free_voices x).f_names = x.f_names ∧
    (faust_free_voices x).last_meta = x.last_meta := by
  unfold faust_free_voices
  split_ifs <;> simp

theorem new_voices_fields (x : t_faust_ui_manager) :
    (faust_new_voices x).f_uis = x.f_uis ∧ (faust_new_voices x).zone_mem = x.zone_mem ∧
    (faust_new_voices x).f_nuis = x.f_nuis ∧ (faust_new_voices x).f_names = x.f_names ∧
    (faust_new_voices x).last_meta = x.last_meta := by
  obtain ⟨e1, e2, e3, e4, e5⟩ := free_voices_fields x
  unfold faust_new_voices
  simp only
  split_ifs <;> simp [e1, e2, e3, e4, e5]

theorem sort_fields (x : t_faust_ui_manager) :
    (faust_ui_manager_sort x).zone_mem = x.zone_mem ∧
    (faust_ui_manager_sort x).f_names = x.f_names ∧
    (faust_ui_manager_sort x).last_meta = x.last_meta := by
  unfold faust_ui_manager_sort
  split
  · simp
  · simp only
    split_ifs <;> simp

theorem finish_changes_fields (x : t_faust_ui_manager) :
    (faust_ui_manager_finish_changes x).zone_mem = x.zone_mem ∧
    (faust_ui_manager_finish_changes x).f_names = x.f_names ∧
    (faust_ui_manager_finish_changes x).last_meta = x.last_meta := by
  unfold faust_ui_manager_finish_changes
  split
  · simp
  · simp only
    obtain ⟨_, n2, _, n4, n5⟩ := new_voices_fields
      (faust_ui_manager_sort (if (!(‹t_faust_ui› : t_faust_ui).p_kept) = true then
        { x with f_uis := remove_unkept ‹List t_faust_ui› }
        else { x with f_uis := ‹t_faust_ui› :: remove_unkept ‹List t_faust_ui› }))
    obtain ⟨s2, s4, s5⟩ := sort_fields
      (if (!(‹t_faust_ui› : t_faust_ui).p_kept) = true then
        { x with f_uis := remove_unkept ‹List t_faust_ui› }
        else { x with f_uis := ‹t_faust_ui› :: remove_unkept ‹List t_faust_ui› })
    rw [n2, n4, n5, s2, s4, s5]
    split_ifs <;> simp

/-- The list after the removal step of `faust_ui_manager_finish_changes` and the
sort: the kept records, sorted. -/
theorem finish_changes_uis (x : t_faust_ui_manager)
    (hn : (x.f_uis.filter fun c => c.p_kept).length = x.f_nuis) :
    (faust_ui_manager_finish_changes x).f_uis =
      qsort_cmpui (x.f_uis.filter fun c => c.p_kept) := by
  unfold faust_ui_manager_finish_changes
  split
  · rename_i h
    rw [h]
    rfl
  · rename_i c rest h
    simp only
    rw [(new_voices_fields _).1]
    have hx1 : ∀ y : t_faust_ui_manager, y.f_nuis = x.f_nuis →
        y.f_uis = (x.f_uis.filter fun c => c.p_kept) →
        (faust_ui_manager_sort y).f_uis = qsort_cmpui (x.f_uis.filter fun c => c.p_kept) := by
      intro y hy1 hy2
      unfold faust_ui_manager_sort
      split
      · rename_i hnil
        rw [← hy2, hnil]
        rfl
      · rename_i a l hcons
        simp only
        have htake : List.take y.f_nuis y.f_uis = y.f_uis := by
          apply List.take_of_length_le
          rw [hy1, hy2, hn]
        rw [htake]
        have hlen : y.f_uis.length ≤ y.f_nuis ∧ y.f_uis.length > 0 := by
          constructor
          · rw [hy1, hy2, hn]
          · rw [hcons]; simp
        rw [if_pos hlen, hy2]
    apply hx1
    · split_ifs <;> rfl
    · rw [h]
      cases hk : c.p_kept
      · simp [remove_unkept_eq_filter, hk]
      · simp [remove_unkept_eq_filter, hk]

/-- Records that carry the indices `0, 1, ...` in order are sorted by `cmpui`, and
`qsort` returns this order from any arrangement of them. -/
theorem qsort_perm_range (K W : List t_faust_ui) (hp : K.Perm W)
    (hW : W.map (fun c => c.p_index) = List.range W.length) : qsort_cmpui K = W := by
  unfold qsort_cmpui
  set r : t_faust_ui → t_faust_ui → Prop := fun c1 c2 => cmpui c1 c2 ≤ 0 with hr
  haveI : IsTotal t_faust_ui r := ⟨fun a b => by
    simp only [hr, cmpui]
    omega⟩
  haveI : IsTrans t_faust_ui r := ⟨fun a b c h1 h2 => by
    simp only [hr, cmpui] at h1 h2 ⊢
    omega⟩
  have hS : List.Sorted r (List.insertionSort r K) := List.sorted_insertionSort r K
  have hSp : (List.insertionSort r K).Perm W := (List.perm_insertionSort r K).trans hp
  -- the indices of the sorted list are 0, 1, ...
  have hidx_sorted : List.Sorted (· ≤ ·) ((List.insertionSort r K).map fun c => c.p_index) := by
    rw [List.Sorted, List.pairwise_map]
    refine List.Pairwise.imp ?_ hS
    intro a b hab
    simp only [hr, cmpui] at hab
    omega
  have hidx : (List.insertionSort r K).map (fun c => c.p_index) = List.range W.length := by
    apply List.eq_of_perm_of_sorted _ hidx_sorted (List.sorted_le_range _)
    rw [← hW]
    exact hSp.map _
  -- hence both lists are strictly sorted by index
  have strict : ∀ l : List t_faust_ui, l.map (fun c => c.p_index) = List.range W.length →
      List.Sorted (fun a b : t_faust_ui => a.p_index < b.p_index) l := by
    intro l hl
    have := List.sorted_lt_range W.length
    rw [← hl, List.Sorted, List.pairwise_map] at this
    exact this
  haveI : IsAntisymm t_faust_ui (fun a b : t_faust_ui => a.p_index < b.p_index) :=
    ⟨fun a b h1 h2 => absurd h1 (Nat.lt_asymm h2)⟩
  exact List.eq_of_perm_of_sorted hSp (strict _ hidx) (strict _ hW)

theorem prepare_changes_fields (x : t_faust_ui_manager) :
    (faust_ui_manager_prepare_changes x).f_uis =
      (faust_ui_manager_all_notes_off x).f_uis.map
        (prepare_ui (faust_ui_manager_all_notes_off x).zone_mem) ∧
    (faust_ui_manager_prepare_changes x).f_nuis = 0 ∧
    (faust_ui_manager_prepare_changes x).zone_mem =
      (faust_ui_manager_all_notes_off x).zone_mem ∧
    (faust_ui_manager_prepare_changes x).last_meta.midi = [] ∧
    (faust_ui_manager_prepare_changes x).last_meta.voice = VOICE_NONE := by
  unfold faust_ui_manager_prepare_changes
  obtain ⟨e1, e2, e3, _, _⟩ := free_voices_fields
    { faust_ui_manager_all_notes_off x with
      f_uis := (faust_ui_manager_all_notes_off x).f_uis.map
        (prepare_ui (faust_ui_manager_all_notes_off x).zone_mem),
      f_nuis := 0 }
  exact ⟨e1, e3, e2, rfl, rfl⟩

theorem run_inv_prepare (x : t_faust_ui_manager) :
    run_inv (faust_ui_manager_prepare_changes x) [] := by
  obtain ⟨e1, e2, _⟩ := prepare_changes_fields x
  refine ⟨?_, e2, rfl⟩
  rw [e1]
  have : ((faust_ui_manager_all_notes_off x).f_uis.map
        (prepare_ui (faust_ui_manager_all_notes_off x).zone_mem)).filter
      (fun c => c.p_kept) = [] := by
    rw [List.filter_eq_nil_iff]
    intro c hc
    obtain ⟨d, _, rfl⟩ := List.mem_map.1 hc
    simp [prepare_ui]
  rw [this]

/-- After an introspection pass the list of controls is the list of the records
written by the calls of `faust_ui_manager_add_param`, in the order of the calls. -/
theorem pass_uis_eq_written (sscanf : List Char → List Char → List Nat)
    (x : t_faust_ui_manager) (calls : List UICall) :
    (introspection_pass sscanf x calls).f_uis =
      written_records sscanf (faust_ui_manager_prepare_changes x) calls := by
  have h := run_inv_build sscanf calls _ _ (run_inv_prepare x)
  rw [List.nil_append] at h
  obtain ⟨h1, h2, h3⟩ := h
  unfold introspection_pass
  rw [finish_changes_uis _ (by rw [h1.length_eq, h2])]
  exact qsort_perm_range _ _ h1 h3

theorem pass_index_range (sscanf : List Char → List Char → List Nat)
    (x : t_faust_ui_manager) (calls : List UICall) :
    (introspection_pass sscanf x calls).f_uis.map (fun c => c.p_index) =
      List.range (introspection_pass sscanf x calls).f_uis.length := by
  have h := run_inv_build sscanf calls _ _ (run_inv_prepare x)
  rw [List.nil_append] at h
  rw [pass_uis_eq_written]
  exact h.2.2



/-! ## Theorems: lookup, values, dump -/

/-! ### Lookup -/

theorem get_loop_none (name : List Char) (l : List t_faust_ui) :
    get_loop name l = none ↔ ∀ c ∈ l, ¬ (c.p_name = name ∨ c.p_longname = name) := by
  induction l with
  | nil => simp [get_loop]
  | cons a l ih =>
    unfold get_loop
    split_ifs with h
    · constructor
      · intro h'
        exact absurd h' (by simp)
      · intro h'
        exact absurd h (h' a (List.mem_cons_self _ _))
    · simp only [Option.map_eq_none', ih, List.mem_cons, forall_eq_or_imp]
      exact ⟨fun h' => ⟨h, h'⟩, fun h' => h'.2⟩

theorem get_loop_some (name : List Char) (l : List t_faust_ui) (i : Nat)
    (h : get_loop name l = some i) :
    ∃ l1 c l2, l = l1 ++ c :: l2 ∧ l1.length = i ∧ (c.p_name = name ∨ c.p_longname = name) ∧
      ∀ d ∈ l1, ¬ (d.p_name = name ∨ d.p_longname = name) := by
  induction l generalizing i with
  | nil => simp [get_loop] at h
  | cons a l ih =>
    unfold get_loop at h
    split_ifs at h with hm
    · simp only [Option.some.injEq] at h
      exact ⟨[], a, l, rfl, by simp [← h], hm, by simp⟩
    · cases hg : get_loop name l with
      | none => rw [hg] at h; simp at h
      | some j =>
        rw [hg] at h
        simp only [Option.map_some', Option.some.injEq] at h
        obtain ⟨l1, c, l2, e1, e2, e3, e4⟩ := ih j hg
        refine ⟨a :: l1, c, l2, by rw [e1]; rfl, by simp [e2, h], e3, ?_⟩
        intro d hd
        rcases List.mem_cons.1 hd with rfl | hd
        · exact hm
        · exact e4 d hd

theorem get_loop_first (name : List Char) (l1 l2 : List t_faust_ui) (c : t_faust_ui)
    (hc : c.p_name = name ∨ c.p_longname = name)
    (h1 : ∀ d ∈ l1, ¬ (d.p_name = name ∨ d.p_longname = name)) :
    get_loop name (l1 ++ c :: l2) = some l1.length := by
  induction l1 with
  | nil => simp [get_loop, hc]
  | cons a l1 ih =>
    rw [List.cons_append, get_loop, if_neg (h1 a (List.mem_cons_self _ _)),
      ih (fun d hd => h1 d (List.mem_cons_of_mem _ hd))]
    rfl

/-! ### C4, C5, C6 -/

theorem written_records_length (sscanf : List Char → List Char → List Nat)
    (calls : List UICall) : ∀ x : t_faust_ui_manager,
    (written_records sscanf x calls).length = (calls.filter is_add_param).length := by
  induction calls with
  | nil => intro x; rfl
  | cons call calls ih =>
    intro x
    rw [written_records, List.length_append, ih]
    cases call <;> simp [call_record, is_add_param]
    all_goals omega

theorem written_records_long_names (sscanf : List Char → List Char → List Nat)
    (calls : List UICall) : ∀ x : t_faust_ui_manager,
    (written_records sscanf x calls).map (fun c => c.p_longname) =
      registered_long_names sscanf x calls := by
  induction calls with
  | nil => intro x; rfl
  | cons call calls ih =>
    intro x
    rw [written_records, registered_long_names, List.map_append, ih]
    congr 1
    cases call <;>
      simp [call_record, call_label, (add_param_record_fields _ _ _ _ _ _ _ _).1]

/-- C4. After `faust_ui_manager_finish_changes` every control carries a long name
that a call of `faust_ui_manager_add_param` computed during the pass; a control of
the registry before the pass whose long name was not computed again has no control
with that long name left; and the number of controls is the number of calls of
`faust_ui_manager_add_param` in the pass. -/
theorem C4_unregistered_removed (sscanf : List Char → List Char → List Nat)
    (x : t_faust_ui_manager) (calls : List UICall) :
    (∀ c ∈ (introspection_pass sscanf x calls).f_uis,
      c.p_longname ∈ registered_long_names sscanf (faust_ui_manager_prepare_changes x) calls) ∧
    (∀ c0 ∈ x.f_uis,
      c0.p_longname ∉ registered_long_names sscanf (faust_ui_manager_prepare_changes x) calls →
      ∀ c ∈ (introspection_pass sscanf x calls).f_uis, c.p_longname ≠ c0.p_longname) ∧
    (introspection_pass sscanf x calls).f_uis.length = (calls.filter is_add_param).length := by
  have h1 : ∀ c ∈ (introspection_pass sscanf x calls).f_uis,
      c.p_longname ∈
        registered_long_names sscanf (faust_ui_manager_prepare_changes x) calls := by
    intro c hc
    rw [pass_uis_eq_written] at hc
    rw [← written_records_long_names]
    exact List.mem_map_of_mem _ hc
  refine ⟨h1, ?_, ?_⟩
  · intro c0 _ hnot c hc e
    exact hnot (e ▸ h1 c hc)
  · rw [pass_uis_eq_written, written_records_length]


theorem pass_sorted (sscanf : List Char → List Char → List Nat)
    (x : t_faust_ui_manager) (calls : List UICall) :
    List.Pairwise (fun a b : t_faust_ui => a.p_index < b.p_index)
      (introspection_pass sscanf x calls).f_uis := by
  have := List.sorted_lt_range (introspection_pass sscanf x calls).f_uis.length
  rw [← pass_index_range, List.Sorted, List.pairwise_map] at this
  exact this

/-- C6. After a completed introspection pass `faust_ui_manager_get` returns a control
if and only if some control has the name as its short name or its long name, and the
control returned is the matching one with the smallest index. -/
theorem C6_lookup_first_match (sscanf : List Char → List Char → List Nat)
    (x : t_faust_ui_manager) (calls : List UICall) (name : List Char) :
    (faust_ui_manager_get (introspection_pass sscanf x calls) name ≠ none ↔
      ∃ c ∈ (introspection_pass sscanf x calls).f_uis,
        c.p_name = name ∨ c.p_longname = name) ∧
    (∀ i, faust_ui_manager_get (introspection_pass sscanf x calls) name = some i →
      ∃ c, (introspection_pass sscanf x calls).f_uis[i]? = some c ∧
        (c.p_name = name ∨ c.p_longname = name) ∧
        ∀ c' ∈ (introspection_pass sscanf x calls).f_uis,
          (c'.p_name = name ∨ c'.p_longname = name) → c' ≠ c → c.p_index < c'.p_index) := by
  constructor
  · unfold faust_ui_manager_get
    rw [Ne, get_loop_none]
    constructor
    · intro h
      by_contra hn
      exact h (fun c hc hm => hn ⟨c, hc, hm⟩)
    · rintro ⟨c, hc, hm⟩ h
      exact h c hc hm
  · intro i hi
    obtain ⟨l1, c, l2, e1, e2, e3, e4⟩ := get_loop_some name _ i hi
    have hs := pass_sorted sscanf x calls
    rw [e1] at hs ⊢
    refine ⟨c, by rw [← e2, List.getElem?_append_right (le_refl _)]; simp, e3, ?_⟩
    intro c' hc' hm' hne
    rcases List.mem_append.1 hc' with h | h
    · exact absurd hm' (e4 c' h)
    · rcases List.mem_cons.1 h with h | h
      · exact absurd h hne
      · have := (List.pairwise_append.1 hs).2.1
        exact (List.pairwise_cons.1 this).1 c' h

/-! ### C5, after the pass -/

theorem pass_long_names (sscanf : List Char → List Char → List Nat)
    (x : t_faust_ui_manager) (calls : List UICall) :
    (introspection_pass sscanf x calls).f_uis.map (fun c => c.p_longname) =
      registered_long_names sscanf (faust_ui_manager_prepare_changes x) calls := by
  rw [pass_uis_eq_written, written_records_long_names]

/-! ### C1, C2 -/

/-- C1. For a Number control with `p_min ≤ p_max` that the lookup finds,
`faust_ui_manager_set_value` succeeds and leaves the cell of the control equal to `f`
clamped into the range, and `faust_ui_manager_get_value` then returns that value;
2 on a control with range 0 to 1 leaves 1. -/
theorem C1_set_value_clamps (x : t_faust_ui_manager) (name : List Char) (f : ℚ) (i : Nat)
    (ui : t_faust_ui) (hget : faust_ui_manager_get x name = some i)
    (hui : x.f_uis[i]? = some ui) (hnum : ui.p_type = FAUST_UI_TYPE_NUMBER)
    (hle : ui.p_min ≤ ui.p_max) :
    (faust_ui_manager_set_value x name f).2 = 0 ∧
    (faust_ui_manager_set_value x name f).1.zone_mem ui.p_zone = max ui.p_min (min f ui.p_max) ∧
    faust_ui_manager_get_value (faust_ui_manager_set_value x name f).1 name =
      (some (max ui.p_min (min f ui.p_max)), 0) ∧
    (ui.p_max = 1 → f = 2 →
      (faust_ui_manager_set_value x name f).1.zone_mem ui.p_zone = 1) := by
  have hval : (if f < ui.p_min then ui.p_min else if f > ui.p_max then ui.p_max else f) =
      max ui.p_min (min f ui.p_max) := by
    split_ifs with h1 h2
    · rw [min_eq_left (le_trans h1.le hle), max_eq_left h1.le]
    · rw [min_eq_right h2.le, max_eq_right hle]
    · rw [min_eq_left (not_lt.1 h2), max_eq_right (not_lt.1 h1)]
  have hset : faust_ui_manager_set_value x name f =
      (set_zone x ui.p_zone (max ui.p_min (min f ui.p_max)) ui.p_uirecv, 0) := by
    unfold faust_ui_manager_set_value
    rw [hget]
    simp only [hui]
    rw [if_neg (by rw [hnum]; decide), if_pos hnum, hval]
  have hmem : (set_zone x ui.p_zone (max ui.p_min (min f ui.p_max)) ui.p_uirecv).zone_mem
      ui.p_zone = max ui.p_min (min f ui.p_max) := by
    simp [set_zone, write_zone]
  rw [hset]
  refine ⟨rfl, hmem, ?_, ?_⟩
  · unfold faust_ui_manager_get_value
    have hg : faust_ui_manager_get
        (set_zone x ui.p_zone (max ui.p_min (min f ui.p_max)) ui.p_uirecv) name = some i := hget
    rw [hg]
    have hu : (set_zone x ui.p_zone (max ui.p_min (min f ui.p_max)) ui.p_uirecv).f_uis[i]? =
        some ui := hui
    simp only [hu, hmem]
  · intro hmax hf
    rw [hmem, hmax, hf]
    rw [hmax] at hle
    rw [min_eq_right (by norm_num), max_eq_right hle]


theorem C1_set_value_clamps_witness :
    (faust_ui_manager_set_value vol_state "vol".toList 2).2 = 0 ∧
    (faust_ui_manager_set_value vol_state "vol".toList 2).1.zone_mem 1 = 1 ∧
    faust_ui_manager_get_value (faust_ui_manager_set_value vol_state "vol".toList 2).1
      "vol".toList = (some 1, 0) := by
  have h := C1_set_value_clamps vol_state "vol".toList 2 0
    { p_name := "vol".toList, p_longname := "vol".toList, p_uisym := none, p_uirecv := none,
      p_uival := 0, p_type := 2, p_zone := 1, p_min := 0, p_max := 1, p_step := 0,
      p_default := 0, p_saved := 0, p_kept := true, p_index := 0, p_tempv := 0,
      p_voice := 0, p_midi := [] }
    (by decide) (by decide) (by decide) (by decide)
  refine ⟨h.1, h.2.2.2 rfl rfl, ?_⟩
  have h3 := h.2.2.1
  have e : max (0 : ℚ) (min 2 1) = 1 := by decide
  simp only [e] at h3
  exact h3

theorem call_record_type (x : t_faust_ui_manager) (call : UICall) (c : t_faust_ui)
    (h : call_record x call = some c) :
    c.p_type = FAUST_UI_TYPE_BUTTON ∨ c.p_type = FAUST_UI_TYPE_TOGGLE ∨
      c.p_type = FAUST_UI_TYPE_NUMBER ∨ c.p_type = FAUST_UI_TYPE_BARGRAPH := by
  cases call with
  | addButton label zone =>
    simp only [call_record, Option.some.injEq] at h
    rw [← h, (add_param_record_fields _ _ _ _ _ _ _ _).2.2.2.2]
    exact Or.inl rfl
  | addToggle label zone =>
    simp only [call_record, Option.some.injEq] at h
    rw [← h, (add_param_record_fields _ _ _ _ _ _ _ _).2.2.2.2]
    exact Or.inr (Or.inl rfl)
  | addNumber label zone init min max step =>
    simp only [call_record, Option.some.injEq] at h
    rw [← h, (add_param_record_fields _ _ _ _ _ _ _ _).2.2.2.2]
    exact Or.inr (Or.inr (Or.inl rfl))
  | addBargraph label zone min max =>
    simp only [call_record, Option.some.injEq] at h
    rw [← h, (add_param_record_fields _ _ _ _ _ _ _ _).2.2.2.2]
    exact Or.inr (Or.inr (Or.inr rfl))
  | openBox label => simp [call_record] at h
  | closeBox => simp [call_record] at h
  | declare zone key value => simp [call_record] at h

theorem written_records_types (sscanf : List Char → List Char → List Nat)
    (calls : List UICall) : ∀ (x : t_faust_ui_manager), ∀ c ∈ written_records sscanf x calls,
    c.p_type = FAUST_UI_TYPE_BUTTON ∨ c.p_type = FAUST_UI_TYPE_TOGGLE ∨
      c.p_type = FAUST_UI_TYPE_NUMBER ∨ c.p_type = FAUST_UI_TYPE_BARGRAPH := by
  induction calls with
  | nil => intro x c hc; simp [written_records] at hc
  | cons call calls ih =>
    intro x c hc
    rw [written_records] at hc
    rcases List.mem_append.1 hc with h | h
    · exact call_record_type x call c (by
        cases hr : call_record x call with
        | none => rw [hr] at h; simp at h
        | some d =>
          rw [hr] at h
          simp only [Option.toList_some, List.mem_singleton] at h
          rw [h])
    · exact ih _ c h

/-- Every registry that an introspection pass leaves holds controls of the four kinds
only. -/
theorem pass_valid_types (sscanf : List Char → List Char → List Nat)
    (x : t_faust_ui_manager) (calls : List UICall) :
    valid_types (introspection_pass sscanf x calls) := by
  unfold valid_types
  rw [pass_uis_eq_written]
  exact written_records_types sscanf calls _

/-- C2. In a registry whose controls have the four kinds, `faust_ui_manager_set_value`
returns the failure status 1 if and only if no control has the name as its short or
long name, or the control found by the lookup is a Bargraph; a failing call changes
no cell (it leaves the whole state as it is), and every other call returns 0. -/
theorem C2_set_value_status (x : t_faust_ui_manager) (name : List Char) (f : ℚ)
    (htypes : valid_types x) :
    ((faust_ui_manager_set_value x name f).2 = 1 ↔
      ((∀ c ∈ x.f_uis, ¬ (c.p_name = name ∨ c.p_longname = name)) ∨
        ∃ i ui, faust_ui_manager_get x name = some i ∧ x.f_uis[i]? = some ui ∧
          ui.p_type = FAUST_UI_TYPE_BARGRAPH)) ∧
    ((faust_ui_manager_set_value x name f).2 = 1 →
      (faust_ui_manager_set_value x name f).1.zone_mem = x.zone_mem ∧
      (faust_ui_manager_set_value x name f).1.f_uis = x.f_uis ∧
      (faust_ui_manager_set_value x name f).1.gui_out = x.gui_out) ∧
    ((faust_ui_manager_set_value x name f).2 ≠ 1 →
      (faust_ui_manager_set_value x name f).2 = 0) := by
  cases hg : faust_ui_manager_get x name with
  | none =>
    have hn : ∀ c ∈ x.f_uis, ¬ (c.p_name = name ∨ c.p_longname = name) :=
      (get_loop_none name x.f_uis).1 hg
    have hs : faust_ui_manager_set_value x name f = (x, 1) := by
      unfold faust_ui_manager_set_value
      rw [hg]
    rw [hs]
    exact ⟨⟨fun _ => Or.inl hn, fun _ => rfl⟩, fun _ => ⟨rfl, rfl, rfl⟩, fun h => absurd rfl h⟩
  | some i =>
    obtain ⟨l1, ui, l2, e1, e2, e3, _⟩ := get_loop_some name x.f_uis i hg
    have hui : x.f_uis[i]? = some ui := by
      rw [e1, ← e2, List.getElem?_append_right (le_refl _)]
      simp
    have hmem : ui ∈ x.f_uis := by rw [e1]; simp
    have hno : ¬ ∀ c ∈ x.f_uis, ¬ (c.p_name = name ∨ c.p_longname = name) :=
      fun h => h ui hmem e3
    by_cases hb : ui.p_type = FAUST_UI_TYPE_BARGRAPH
    · have hs : faust_ui_manager_set_value x name f = (x, 1) := by
        unfold faust_ui_manager_set_value
        rw [hg]
        simp only [hui]
        rw [if_neg (by rw [hb]; decide), if_neg (by rw [hb]; decide)]
      rw [hs]
      exact ⟨⟨fun _ => Or.inr ⟨i, ui, rfl, hui, hb⟩, fun _ => rfl⟩,
        fun _ => ⟨rfl, rfl, rfl⟩, fun h => absurd rfl h⟩
    · have hs : (faust_ui_manager_set_value x name f).2 = 0 := by
        unfold faust_ui_manager_set_value
        rw [hg]
        simp only [hui]
        rcases htypes ui hmem with h | h | h | h
        · rw [if_pos (Or.inl h)]
        · rw [if_pos (Or.inr h)]
        · rw [if_neg (by rw [h]; decide), if_pos h]
        · exact absurd h hb
      rw [hs]
      refine ⟨⟨fun h => absurd h (by decide), ?_⟩, fun h => absurd h (by decide), fun _ => rfl⟩
      rintro (h | ⟨j, uj, hj, huj, hbj⟩)
      · exact absurd h hno
      · rw [Option.some.injEq] at hj
        subst hj
        rw [hui, Option.some.injEq] at huj
        subst huj
        exact absurd hbj hb

theorem C2_set_value_status_witness :
    valid_types meter_state ∧
    (faust_ui_manager_set_value meter_state "meter".toList 1).2 = 1 ∧
    (faust_ui_manager_set_value meter_state "level".toList 1).2 = 1 ∧
    (faust_ui_manager_set_value meter_state "meter".toList 1).1.zone_mem =
      meter_state.zone_mem := by
  have hv : valid_types meter_state :=
    pass_valid_types sscanf_none faust_ui_manager_new [.addBargraph "meter".toList 1 0 1]
  have h := C2_set_value_status meter_state "meter".toList 1 hv
  have h1 : (faust_ui_manager_set_value meter_state "meter".toList 1).2 = 1 := by decide
  exact ⟨hv, h1, by decide, (h.2.1 h1).1⟩

/-! ### C7 -/

theorem dump_loop_eq (mem : Nat → ℚ) (l : List t_faust_ui) :
    dump_loop mem l = (l.filter fun c => decide (c.p_voice = VOICE_NONE)).map (dump_record mem) := by
  induction l with
  | nil => rfl
  | cons a l ih =>
    unfold dump_loop
    by_cases h : a.p_voice = 0
    · rw [if_pos h, List.filter_cons_of_pos (by simpa [VOICE_NONE] using h), List.map_cons, ih]
      rfl
    · rw [if_neg h, List.filter_cons_of_neg (by simpa [VOICE_NONE] using h), ih]

/-- C7 (amended). After a completed introspection pass, unless a receiver symbol is
given that has nothing bound to it, `faust_ui_manager_dump` emits exactly one record of
seven fields (short name, long name, kind label, default, min, max, current value) for
each control whose voice role is None, in the order of the list, which is ascending
index order; it omits the other controls and returns the number of records. The kind
label is button, toggle, number or bargraph. With a receiver symbol that has nothing
bound it emits nothing and returns 0. A single Toggle "Gate" in group "Synth" gives the
record (Gate, Synth/Gate, toggle, 0, 0, 1, 0). -/
theorem C7_dump_records (sscanf : List Char → List Char → List Nat)
    (x : t_faust_ui_manager) (calls : List UICall) (outsym : Option Bool)
    (hout : outsym ≠ some false) :
    (faust_ui_manager_dump (introspection_pass sscanf x calls) outsym).1 =
      ((introspection_pass sscanf x calls).f_uis.filter
        fun c => decide (c.p_voice = VOICE_NONE)).map
        (dump_record (introspection_pass sscanf x calls).zone_mem) ∧
    (faust_ui_manager_dump (introspection_pass sscanf x calls) outsym).2 =
      (((introspection_pass sscanf x calls).f_uis.filter
        fun c => decide (c.p_voice = VOICE_NONE)).length : Int) ∧
    List.Pairwise (fun a b : t_faust_ui => a.p_index < b.p_index)
      (introspection_pass sscanf x calls).f_uis ∧
    faust_ui_manager_dump (introspection_pass sscanf x calls) (some false) = ([], 0) ∧
    (faust_ui_manager_get_parameter_char FAUST_UI_TYPE_BUTTON = "button".toList ∧
      faust_ui_manager_get_parameter_char FAUST_UI_TYPE_TOGGLE = "toggle".toList ∧
      faust_ui_manager_get_parameter_char FAUST_UI_TYPE_NUMBER = "number".toList ∧
      faust_ui_manager_get_parameter_char FAUST_UI_TYPE_BARGRAPH = "bargraph".toList) ∧
    faust_ui_manager_dump gate_toggle_state none =
      ([[.A_SYMBOL "Gate".toList, .A_SYMBOL "Synth/Gate".toList, .A_SYMBOL "toggle".toList,
        .A_FLOAT 0, .A_FLOAT 0, .A_FLOAT 1, .A_FLOAT 0]], 1) := by
  refine ⟨?_, ?_, pass_sorted sscanf x calls, rfl, by decide, by decide⟩
  · unfold faust_ui_manager_dump
    rw [if_neg hout, dump_loop_eq]
  · unfold faust_ui_manager_dump
    rw [if_neg hout, dump_loop_eq, List.length_map]

theorem C7_dump_records_witness :
    (faust_ui_manager_dump gate_toggle_state none).2 = 1 := by
  have h := (C7_dump_records sscanf_none faust_ui_manager_new
    [.openBox "Synth".toList, .addToggle "Gate".toList 1, .closeBox] none (by decide)).2.1
  have e : (((introspection_pass sscanf_none faust_ui_manager_new
      [.openBox "Synth".toList, .addToggle "Gate".toList 1, .closeBox]).f_uis.filter
      fun c => decide (c.p_voice = VOICE_NONE)).length : Int) = 1 := by decide
  rw [e] at h
  exact h

/-- C7, as stated, fails when a receiver symbol with nothing bound to it is passed:
the registry after the pass holds one control whose voice role is None, and
`faust_ui_manager_dump` emits no record. -/
theorem C7_counterexample_unbound_receiver :
    (gate_toggle_state.f_uis.filter fun c => decide (c.p_voice = VOICE_NONE)).length = 1 ∧
    faust_ui_manager_dump gate_toggle_state (some false) = ([], 0) := by
  decide

/-- C5, as stated, fails: a pass that adds the labels "a b" and "a-b" leaves two
controls with the long name "a-b". -/
theorem C5_counterexample_same_long_name :
    duplicate_state.f_uis.map (fun c => c.p_longname) = ["a-b".toList, "a-b".toList] ∧
    ¬ (duplicate_state.f_uis.map fun c => c.p_longname).Nodup := by
  have h : duplicate_state.f_uis.map (fun c => c.p_longname) = ["a-b".toList, "a-b".toList] := by
    decide
  refine ⟨h, ?_⟩
  rw [h]
  decide


/-! ## Theorems: uniqueness of long names -/

/-! ### The calls of a run, one at a time -/

theorem ui_call_add (sscanf : List Char → List Char → List Nat) (s : t_faust_ui_manager)
    (call : UICall) (label : List Char) (h : call_label call = some label) :
    ∃ (type : Int) (zone : Nat) (init min max step : ℚ),
      ui_call sscanf s call = faust_ui_manager_add_param s label type zone init min max step ∧
      call_record s call = some (add_param_record s label type zone init min max step) := by
  cases call <;> simp only [call_label, Option.some.injEq] at h <;>
    first
    | (subst h; exact ⟨_, _, _, _, _, _, rfl, rfl⟩)
    | exact absurd h (by simp)

theorem ui_call_other (sscanf : List Char → List Char → List Nat) (s : t_faust_ui_manager)
    (call : UICall) (h : call_label call = none) :
    (ui_call sscanf s call).f_uis = s.f_uis ∧ (ui_call sscanf s call).zone_mem = s.zone_mem ∧
    (ui_call sscanf s call).f_nuis = s.f_nuis ∧ call_record s call = none := by
  cases call with
  | openBox label => exact ⟨rfl, rfl, rfl, rfl⟩
  | closeBox =>
    obtain ⟨e1, e2, e3, _⟩ := close_box_uis s
    exact ⟨e1, e3, e2, rfl⟩
  | declare zone key value =>
    obtain ⟨e1, e2, e3, _⟩ := declare_uis sscanf s zone key value
    exact ⟨e1, e3, e2, rfl⟩
  | addButton label zone => simp [call_label] at h
  | addToggle label zone => simp [call_label] at h
  | addNumber label zone init min max step => simp [call_label] at h
  | addBargraph label zone min max => simp [call_label] at h

theorem add_param_reuse_none (x : t_faust_ui_manager) (lname : List Char)
    (h : add_param_reuse x lname = none) :
    (∀ c ∈ x.f_uis, ¬ (c.p_name = lname ∨ c.p_longname = lname)) ∨
    ∃ c ∈ x.f_uis, (c.p_name = lname ∨ c.p_longname = lname) ∧ c.p_kept = true := by
  unfold add_param_reuse at h
  cases hg : faust_ui_manager_get x lname with
  | none => exact Or.inl ((get_loop_none lname x.f_uis).1 hg)
  | some i =>
    right
    obtain ⟨l1, c, l2, e1, e2, e3, _⟩ := get_loop_some lname x.f_uis i hg
    have hui : x.f_uis[i]? = some c := by
      rw [e1, ← e2, List.getElem?_append_right (le_refl _)]
      simp
    rw [hg] at h
    simp only [hui] at h
    refine ⟨c, by rw [e1]; simp, e3, ?_⟩
    by_contra hk
    rw [if_pos (by simpa using hk)] at h
    exact absurd h (by simp)

theorem add_param_reuse_match (x : t_faust_ui_manager) (lname : List Char) (i : Nat)
    (c : t_faust_ui) (h : add_param_reuse x lname = some (i, c)) :
    c.p_name = lname ∨ c.p_longname = lname := by
  obtain ⟨hg, hc, _⟩ := add_param_reuse_some x lname i c h
  obtain ⟨l1, d, l2, e1, e2, e3, _⟩ := get_loop_some lname x.f_uis i hg
  have hui : x.f_uis[i]? = some d := by
    rw [e1, ← e2, List.getElem?_append_right (le_refl _)]
    simp
  rw [hui, Option.some.injEq] at hc
  exact hc ▸ e3

theorem add_param_record_name (x : t_faust_ui_manager) (label : List Char) (type : Int)
    (zone : Nat) (init min max step : ℚ) :
    (∀ i c, add_param_reuse x (faust_ui_manager_get_long_name x label) = some (i, c) →
      (add_param_record x label type zone init min max step).p_name = c.p_name ∧
      (add_param_record x label type zone init min max step).p_saved = c.p_saved) ∧
    (add_param_reuse x (faust_ui_manager_get_long_name x label) = none →
      (add_param_record x label type zone init min max step).p_name =
        faust_ui_manager_get_name x label ∧
      (add_param_record x label type zone init min max step).p_saved = init) := by
  constructor
  · intro i c h
    unfold add_param_record
    simp only [h]
    simp [attach_meta_fields, fill_ui]
  · intro h
    unfold add_param_record
    simp only [h]
    simp [attach_meta_fields, fill_ui]

theorem long_inv_add (Ls done : List (List Char)) (s : t_faust_ui_manager)
    (h : long_inv Ls done s) (label : List Char) (type : Int) (zone : Nat)
    (init min max step : ℚ) (hL : faust_ui_manager_get_long_name s label ∈ Ls)
    (hnew : faust_ui_manager_get_long_name s label ∉ done)
    (hshort : faust_ui_manager_get_name s label ∉ Ls) :
    long_inv Ls (done ++ [faust_ui_manager_get_long_name s label])
      (faust_ui_manager_add_param s label type zone init min max step) := by
  obtain ⟨ha, hb, hc⟩ := h
  obtain ⟨hln, hk, _⟩ := add_param_record_fields s label type zone init min max step
  obtain ⟨hn1, hn2⟩ := add_param_record_name s label type zone init min max step
  rcases add_param_uis s label type zone init min max step with
    ⟨l1, c, l2, e, hck, hr, e'⟩ | ⟨hr, e'⟩
  · -- a record is rewritten: it carried this long name already
    have hcm : c ∈ s.f_uis := by rw [e]; simp
    have hclong : c.p_longname = faust_ui_manager_get_long_name s label := by
      rcases add_param_reuse_match s _ _ c hr with h1 | h1
      · exact absurd hL (h1 ▸ hc c hcm)
      · exact h1
    refine ⟨?_, ?_, ?_⟩
    · rw [e', List.map_append, List.map_cons, hln, ← hclong]
      rw [e, List.map_append, List.map_cons] at ha
      exact ha
    · intro d hd hdk
      rw [e'] at hd
      rcases List.mem_append.1 hd with h1 | h1
      · exact List.mem_append_left _ (hb d (by rw [e]; exact List.mem_append_left _ h1) hdk)
      · rcases List.mem_cons.1 h1 with h1 | h1
        · rw [h1, hln]; simp
        · exact List.mem_append_left _ (hb d (by rw [e]; simp [h1]) hdk)
    · intro d hd
      rw [e'] at hd
      rcases List.mem_append.1 hd with h1 | h1
      · exact hc d (by rw [e]; exact List.mem_append_left _ h1)
      · rcases List.mem_cons.1 h1 with h1 | h1
        · rw [h1, (hn1 _ c hr).1]; exact hc c hcm
        · exact hc d (by rw [e]; simp [h1])
  · -- a new record: no record carries this long name
    have hfree : ∀ c ∈ s.f_uis, c.p_longname ≠ faust_ui_manager_get_long_name s label := by
      rcases add_param_reuse_none s _ hr with h1 | ⟨c, hcm, hm, hck⟩
      · intro c hcm e
        exact h1 c hcm (Or.inr e)
      · rcases hm with h1 | h1
        · exact absurd hL (h1 ▸ hc c hcm)
        · exact absurd (h1 ▸ hb c hcm hck) hnew
    refine ⟨?_, ?_, ?_⟩
    · rw [e', List.map_cons, List.nodup_cons, hln]
      refine ⟨?_, ha⟩
      intro hmem
      obtain ⟨c, hcm, hce⟩ := List.mem_map.1 hmem
      exact hfree c hcm hce
    · intro d hd hdk
      rw [e'] at hd
      rcases List.mem_cons.1 hd with h1 | h1
      · rw [h1, hln]; simp
      · exact List.mem_append_left _ (hb d h1 hdk)
    · intro d hd
      rw [e'] at hd
      rcases List.mem_cons.1 hd with h1 | h1
      · rw [h1, (hn2 hr).1]; exact hshort
      · exact hc d h1

theorem long_inv_build (sscanf : List Char → List Char → List Nat) (Ls : List (List Char))
    (calls : List UICall) : ∀ (s : t_faust_ui_manager) (done : List (List Char)),
    long_inv Ls done s →
    (∀ L ∈ registered_long_names sscanf s calls, L ∈ Ls) →
    (done ++ registered_long_names sscanf s calls).Nodup →
    (∀ n ∈ registered_short_names sscanf s calls, n ∉ Ls) →
    ∀ k, ((build_user_interface sscanf s (calls.take k)).f_uis.map fun c => c.p_longname).Nodup := by
  induction calls with
  | nil => intro s done h _ _ _ k; simpa [build_user_interface] using h.1
  | cons call calls ih =>
    intro s done h hL hN hS k
    cases k with
    | zero => simpa [build_user_interface] using h.1
    | succ k =>
      rw [List.take_succ_cons]
      show ((build_user_interface sscanf (ui_call sscanf s call) (calls.take k)).f_uis.map
        fun c => c.p_longname).Nodup
      rw [registered_long_names] at hL hN
      rw [registered_short_names] at hS
      cases hl : call_label call with
      | none =>
        rw [hl] at hL hN hS
        simp only [Option.map_none', Option.toList_none, List.nil_append] at hL hN hS
        obtain ⟨e1, _, _, _⟩ := ui_call_other sscanf s call hl
        have h' : long_inv Ls done (ui_call sscanf s call) := by
          unfold long_inv
          rw [e1]
          exact h
        exact ih _ done h' hL hN hS k
      | some label =>
        rw [hl] at hL hN hS
        simp only [Option.map_some', Option.toList_some, List.singleton_append] at hL hN hS
        obtain ⟨type, zone, init, min, max, step, e, _⟩ := ui_call_add sscanf s call label hl
        rw [e] at hL hN hS ⊢
        have hnew : faust_ui_manager_get_long_name s label ∉ done := by
          intro hmem
          have := (List.nodup_append.1 hN).2.2
          exact this hmem (List.mem_cons_self _ _)
        have h' := long_inv_add Ls done s h label type zone init min max step
          (hL _ (List.mem_cons_self _ _)) hnew (hS _ (List.mem_cons_self _ _))
        refine ih _ _ h' (fun L hm => hL L (List.mem_cons_of_mem _ hm)) ?_
          (fun n hm => hS n (List.mem_cons_of_mem _ hm)) k
        rw [List.append_assoc]
        exact hN

theorem write_ctl_fields (x : t_faust_ui_manager) (c : Option Nat) (v : ℚ) :
    (write_ctl x c v).f_uis = x.f_uis ∧ (write_ctl x c v).f_voices = x.f_voices ∧
    (write_ctl x c v).f_used = x.f_used ∧ (write_ctl x c v).f_free = x.f_free := by
  unfold write_ctl
  cases c with
  | none => exact ⟨rfl, rfl, rfl, rfl⟩
  | some i =>
    simp only
    cases x.f_uis[i]? with
    | none => exact ⟨rfl, rfl, rfl, rfl⟩
    | some ui => exact ⟨rfl, rfl, rfl, rfl⟩

theorem all_notes_off_gates_uis (used : List Nat) : ∀ x : t_faust_ui_manager,
    (used.foldl (fun y u => write_ctl y (voice_gate y u) 0) x).f_uis = x.f_uis := by
  induction used with
  | nil => intro x; rfl
  | cons u used ih =>
    intro x
    rw [List.foldl_cons, ih, (write_ctl_fields _ _ _).1]

theorem all_notes_off_uis (x : t_faust_ui_manager) :
    (faust_ui_manager_all_notes_off x).f_uis = x.f_uis := by
  unfold faust_ui_manager_all_notes_off
  exact all_notes_off_gates_uis x.f_used x

theorem prepare_changes_uis (x : t_faust_ui_manager) :
    (faust_ui_manager_prepare_changes x).f_uis =
      x.f_uis.map (prepare_ui (faust_ui_manager_all_notes_off x).zone_mem) := by
  rw [(prepare_changes_fields x).1, all_notes_off_uis]

/-- C5 (amended). After a completed introspection pass in which the calls of
`faust_ui_manager_add_param` compute pairwise different long names, no two controls
have the same long name, whatever the registry was before. During such a pass this
holds after every call as well, when it held before the pass and no long name
computed in the pass is the short name of a control, of the registry or of the pass. -/
theorem C5_long_names_unique (sscanf : List Char → List Char → List Nat)
    (x : t_faust_ui_manager) (calls : List UICall)
    (hR : (registered_long_names sscanf (faust_ui_manager_prepare_changes x) calls).Nodup) :
    ((introspection_pass sscanf x calls).f_uis.map fun c => c.p_longname).Nodup ∧
    ((x.f_uis.map fun c => c.p_longname).Nodup →
      (∀ L ∈ registered_long_names sscanf (faust_ui_manager_prepare_changes x) calls,
        (∀ c ∈ x.f_uis, c.p_name ≠ L) ∧
        L ∉ registered_short_names sscanf (faust_ui_manager_prepare_changes x) calls) →
      ∀ k, ((build_user_interface sscanf (faust_ui_manager_prepare_changes x)
        (calls.take k)).f_uis.map fun c => c.p_longname).Nodup) := by
  constructor
  · rw [pass_long_names]
    exact hR
  · intro hU hD k
    apply long_inv_build sscanf
      (registered_long_names sscanf (faust_ui_manager_prepare_changes x) calls) calls
      (faust_ui_manager_prepare_changes x) []
    · refine ⟨?_, ?_, ?_⟩
      · rw [prepare_changes_uis, List.map_map]
        exact hU
      · intro c hc hk
        rw [prepare_changes_uis] at hc
        obtain ⟨d, _, rfl⟩ := List.mem_map.1 hc
        simp [prepare_ui] at hk
      · intro c hc hmem
        rw [prepare_changes_uis] at hc
        obtain ⟨d, hd, rfl⟩ := List.mem_map.1 hc
        exact (hD _ hmem).1 d hd rfl
    · exact fun L h => h
    · rw [List.nil_append]
      exact hR
    · intro n hn hmem
      exact (hD n hmem).2 hn


theorem C5_long_names_unique_witness :
    ((introspection_pass sscanf_none faust_ui_manager_new two_controls).f_uis.map
      fun c => c.p_longname).Nodup :=
  (C5_long_names_unique sscanf_none faust_ui_manager_new two_controls (by decide)).1

/-! ## Theorems: values carried over a pass -/

theorem ui_call_add_zone (sscanf : List Char → List Char → List Nat) (s : t_faust_ui_manager)
    (call : UICall) (label : List Char) (h : call_label call = some label) :
    ∃ (type : Int) (zone : Nat) (init min max step : ℚ),
      ui_call sscanf s call = faust_ui_manager_add_param s label type zone init min max step ∧
      call_record s call = some (add_param_record s label type zone init min max step) ∧
      call_zone call = some zone := by
  cases call <;> simp only [call_label, Option.some.injEq] at h <;>
    first
    | (subst h; exact ⟨_, _, _, _, _, _, rfl, rfl, rfl⟩)
    | exact absurd h (by simp)

theorem lookup_stops_add (L : List Char) (c0 : t_faust_ui) (s : t_faust_ui_manager)
    (h : lookup_stops_at L c0 s) (hc0 : c0.p_longname = L)
    (label : List Char) (type : Int) (zone : Nat) (init min max step : ℚ)
    (hL1 : faust_ui_manager_get_long_name s label ≠ L)
    (hL2 : faust_ui_manager_get_long_name s label ≠ c0.p_name)
    (hS : faust_ui_manager_get_name s label ≠ L) :
    lookup_stops_at L c0 (faust_ui_manager_add_param s label type zone init min max step) := by
  obtain ⟨A, B, hAB, hA⟩ := h
  obtain ⟨hln, _, _⟩ := add_param_record_fields s label type zone init min max step
  obtain ⟨hn1, hn2⟩ := add_param_record_name s label type zone init min max step
  have hc0no : ¬ (c0.p_name = faust_ui_manager_get_long_name s label ∨
      c0.p_longname = faust_ui_manager_get_long_name s label) := by
    rintro (e | e)
    · exact hL2 e.symm
    · exact hL1 (e ▸ hc0)
  rcases add_param_uis s label type zone init min max step with
    ⟨l1, c, l2, e, _, hr, e'⟩ | ⟨hr, e'⟩
  · have hcm := add_param_reuse_match s _ _ c hr
    have hc2 : ∀ d : t_faust_ui, d.p_name ≠ L →
        (add_param_record s label type zone init min max step).p_name = d.p_name →
        (add_param_record s label type zone init min max step).p_name ≠ L ∧
        (add_param_record s label type zone init min max step).p_longname ≠ L := by
      intro d hd hnd
      exact ⟨hnd ▸ hd, hln ▸ hL1⟩
    rw [e] at hAB
    rcases List.append_eq_append_iff.1 hAB with ⟨a', hA', hrest⟩ | ⟨c', hl1, hrest⟩
    · cases a' with
      | nil =>
        simp only [List.nil_append, List.cons.injEq] at hrest
        exact absurd (hrest.1 ▸ hcm) hc0no
      | cons a a'' =>
        simp only [List.cons_append, List.cons.injEq] at hrest
        obtain ⟨rfl, rfl⟩ := hrest
        have hcA : c ∈ A := by rw [hA']; simp
        refine ⟨l1 ++ add_param_record s label type zone init min max step :: a'', B, ?_, ?_⟩
        · rw [e']; simp
        · intro d hd
          rcases List.mem_append.1 hd with h1 | h1
          · exact hA d (by rw [hA']; exact List.mem_append_left _ h1)
          · rcases List.mem_cons.1 h1 with h1 | h1
            · rw [h1]
              exact hc2 c (hA c hcA).1 (hn1 _ c hr).1
            · exact hA d (by rw [hA']; simp [h1])
    · cases c' with
      | nil =>
        simp only [List.nil_append, List.cons.injEq] at hrest
        exact absurd (hrest.1 ▸ hcm) (hrest.1 ▸ hc0no)
      | cons a c'' =>
        simp only [List.cons_append, List.cons.injEq] at hrest
        obtain ⟨rfl, rfl⟩ := hrest
        refine ⟨A, c'' ++ add_param_record s label type zone init min max step :: l2, ?_, hA⟩
        rw [e', hl1]; simp
  · refine ⟨add_param_record s label type zone init min max step :: A, B, ?_, ?_⟩
    · rw [e', hAB]; rfl
    · intro d hd
      rcases List.mem_cons.1 hd with h1 | h1
      · rw [h1]
        exact ⟨(hn2 hr).1 ▸ hS, hln ▸ hL1⟩
      · exact hA d h1

theorem lookup_stops_build (sscanf : List Char → List Char → List Nat) (L : List Char)
    (c0 : t_faust_ui) (hc0 : c0.p_longname = L) (calls : List UICall) :
    ∀ s : t_faust_ui_manager, lookup_stops_at L c0 s →
    (∀ L' ∈ registered_long_names sscanf s calls, L' ≠ L ∧ L' ≠ c0.p_name) →
    (∀ n ∈ registered_short_names sscanf s calls, n ≠ L) →
    lookup_stops_at L c0 (build_user_interface sscanf s calls) := by
  induction calls with
  | nil => intro s h _ _; exact h
  | cons call calls ih =>
    intro s h hL hS
    rw [registered_long_names] at hL
    rw [registered_short_names] at hS
    show lookup_stops_at L c0 (build_user_interface sscanf (ui_call sscanf s call) calls)
    cases hl : call_label call with
    | none =>
      rw [hl] at hL hS
      simp only [Option.map_none', Option.toList_none, List.nil_append] at hL hS
      obtain ⟨e1, _, _, _⟩ := ui_call_other sscanf s call hl
      refine ih _ ?_ hL hS
      unfold lookup_stops_at
      rw [e1]
      exact h
    | some label =>
      rw [hl] at hL hS
      simp only [Option.map_some', Option.toList_some, List.singleton_append] at hL hS
      obtain ⟨type, zone, init, min, max, step, e, _⟩ := ui_call_add sscanf s call label hl
      rw [e] at hL hS ⊢
      have h0 := hL _ (List.mem_cons_self _ _)
      exact ih _ (lookup_stops_add L c0 s h hc0 label type zone init min max step h0.1 h0.2
          (hS _ (List.mem_cons_self _ _)))
        (fun L' hm => hL L' (List.mem_cons_of_mem _ hm))
        (fun n hm => hS n (List.mem_cons_of_mem _ hm))

theorem lookup_stops_reuse (L : List Char) (c0 : t_faust_ui) (s : t_faust_ui_manager)
    (h : lookup_stops_at L c0 s) (hc0 : c0.p_longname = L) (hk : c0.p_kept = false) :
    ∃ i, add_param_reuse s L = some (i, c0) := by
  obtain ⟨A, B, hAB, hA⟩ := h
  refine ⟨A.length, ?_⟩
  have hg : faust_ui_manager_get s L = some A.length := by
    unfold faust_ui_manager_get
    rw [hAB]
    exact get_loop_first L A B c0 (Or.inr hc0)
      (fun d hd hm => hm.elim (hA d hd).1 (hA d hd).2)
  have hui : s.f_uis[A.length]? = some c0 := by
    rw [hAB, List.getElem?_append_right (le_refl _)]
    simp
  unfold add_param_reuse
  rw [hg]
  simp only [hui]
  rw [if_pos (by simp [hk])]

theorem add_param_zone_mem (x : t_faust_ui_manager) (label : List Char) (type : Int)
    (zone : Nat) (init min max step : ℚ) :
    (∀ z, z ≠ zone →
      (faust_ui_manager_add_param x label type zone init min max step).zone_mem z =
        x.zone_mem z) ∧
    (∀ i c, add_param_reuse x (faust_ui_manager_get_long_name x label) = some (i, c) →
      (faust_ui_manager_add_param x label type zone init min max step).zone_mem zone =
        c.p_tempv) := by
  constructor
  · intro z hz
    unfold faust_ui_manager_add_param
    simp only
    split <;> simp [write_zone, hz]
  · intro i c h
    unfold faust_ui_manager_add_param
    simp only [h]
    simp [write_zone]

theorem build_zone_mem (sscanf : List Char → List Char → List Nat) (z : Nat)
    (calls : List UICall) : ∀ s : t_faust_ui_manager,
    (∀ call ∈ calls, call_zone call ≠ some z) →
    (build_user_interface sscanf s calls).zone_mem z = s.zone_mem z := by
  induction calls with
  | nil => intro s _; rfl
  | cons call calls ih =>
    intro s h
    show (build_user_interface sscanf (ui_call sscanf s call) calls).zone_mem z = _
    rw [ih _ (fun c hc => h c (List.mem_cons_of_mem _ hc))]
    cases hl : call_label call with
    | none => rw [(ui_call_other sscanf s call hl).2.1]
    | some label =>
      obtain ⟨type, zone, init, min, max, step, e, _, hz⟩ :=
        ui_call_add_zone sscanf s call label hl
      rw [e]
      apply (add_param_zone_mem s label type zone init min max step).1
      intro e'
      exact h call (List.mem_cons_self _ _) (by rw [hz, e'])

theorem build_append (sscanf : List Char → List Char → List Nat) (s : t_faust_ui_manager)
    (l1 l2 : List UICall) :
    build_user_interface sscanf s (l1 ++ l2) =
      build_user_interface sscanf (build_user_interface sscanf s l1) l2 := by
  unfold build_user_interface
  rw [List.foldl_append]

theorem written_records_append (sscanf : List Char → List Char → List Nat)
    (l1 l2 : List UICall) : ∀ s : t_faust_ui_manager,
    written_records sscanf s (l1 ++ l2) =
      written_records sscanf s l1 ++
        written_records sscanf (build_user_interface sscanf s l1) l2 := by
  induction l1 with
  | nil => intro s; rfl
  | cons call l1 ih =>
    intro s
    rw [List.cons_append, written_records, written_records, ih, List.append_assoc]
    rfl


theorem attach_meta_midi (m : t_last_meta) (c : t_faust_ui) (type : Int) (zone : Nat)
    (init min max : ℚ) (hc : c.p_midi = []) :
    (attach_meta m c type zone init min max).p_midi =
      if m.zone = zone ∧ m.midi ≠ [] then
        m.midi.map fun b =>
          { msg := b.msg, num := b.num, chan := b.chan,
            val := midi_defaultval init min max type b.msg }
      else [] := by
  unfold attach_meta
  by_cases hz : m.zone = zone
  · by_cases hm : m.midi = []
    · simp only [hz, hm, List.length_nil, ne_eq, not_true_eq_false, if_false, if_true,
        and_false]
      split_ifs <;> simp [hc]
    · have hlen : m.midi.length ≠ 0 := by simpa using hm
      simp [hz, hlen, hm]
  · simp [hz, hc]

theorem add_param_record_midi (x : t_faust_ui_manager) (label : List Char) (type : Int)
    (zone : Nat) (init min max step : ℚ) :
    (add_param_record x label type zone init min max step).p_midi =
      pending_bindings x.last_meta (add_param_record x label type zone init min max step) := by
  have hf : (add_param_record x label type zone init min max step).p_zone = zone ∧
      (add_param_record x label type zone init min max step).p_default = init ∧
      (add_param_record x label type zone init min max step).p_min = min ∧
      (add_param_record x label type zone init min max step).p_max = max ∧
      (add_param_record x label type zone init min max step).p_type = type := by
    unfold add_param_record attach_meta
    simp only
    split <;> split_ifs <;> simp [fill_ui]
  unfold pending_bindings
  rw [hf.1, hf.2.1, hf.2.2.1, hf.2.2.2.1, hf.2.2.2.2]
  unfold add_param_record
  simp only
  split <;> exact attach_meta_midi _ _ _ _ _ _ _ rfl

theorem all_notes_off_gates_mem (z : Nat) (used : List Nat) :
    ∀ (x y : t_faust_ui_manager), y.f_uis = x.f_uis → y.f_voices = x.f_voices →
    (z ∉ used.filterMap fun u =>
      match voice_gate x u with
      | some i => (x.f_uis[i]?).map fun c => c.p_zone
      | none => none) →
    (used.foldl (fun y u => write_ctl y (voice_gate y u) 0) y).zone_mem z = y.zone_mem z := by
  induction used with
  | nil => intro x y _ _ _; rfl
  | cons u used ih =>
    intro x y h1 h2 hz
    rw [List.foldl_cons]
    obtain ⟨w1, w2, _, _⟩ := write_ctl_fields y (voice_gate y u) 0
    have hg : voice_gate y u = voice_gate x u := by
      unfold voice_gate
      rw [h2]
    rw [ih x _ (w1.trans h1) (w2.trans h2) (fun hm => hz (by
      rw [List.filterMap_cons]
      split
      · exact hm
      · exact List.mem_cons_of_mem _ hm))]
    rw [hg]
    unfold write_ctl
    cases hv : voice_gate x u with
    | none => rfl
    | some i =>
      simp only
      rw [h1]
      cases hc : x.f_uis[i]? with
      | none => rfl
      | some ui =>
        simp only [write_zone]
        rw [if_neg]
        intro e
        apply hz
        rw [List.filterMap_cons, hv]
        simp only [hc, Option.map_some']
        rw [e]
        exact List.mem_cons_self _ _

theorem all_notes_off_zone_mem (x : t_faust_ui_manager) (z : Nat)
    (hz : z ∉ sounding_gate_zones x) :
    (faust_ui_manager_all_notes_off x).zone_mem z = x.zone_mem z := by
  unfold faust_ui_manager_all_notes_off
  exact all_notes_off_gates_mem z x.f_used x x rfl rfl hz


theorem written_mem_long_name (sscanf : List Char → List Char → List Nat)
    (s : t_faust_ui_manager) (calls : List UICall) (c : t_faust_ui)
    (h : c ∈ written_records sscanf s calls) :
    c.p_longname ∈ registered_long_names sscanf s calls := by
  rw [← written_records_long_names]
  exact List.mem_map_of_mem _ h

/-- C3 (amended). Let `c0` be the record of the registry at which the lookup of its
long name stops, and let one call of the pass compute this long name, while no call
before it computes a long name equal to the long or the short name of `c0` or a short
name equal to its long name, no call after it computes this long name again, and no
call after it adds a control on the same zone. Then after the pass exactly one control
carries the long name; its saved value is the saved value of `c0`; the value of its
cell is the value that the cell of `c0` held when `faust_ui_manager_prepare_changes`
took its snapshot, which is the value at the start of the pass unless the cell is the
gate of a sounding voice (those are set to 0 first); and its MIDI bindings are the ones
pending in `last_meta` at its call, a list that `faust_ui_manager_prepare_changes`
empties at the start of the pass. -/
theorem C3_values_carried_over (sscanf : List Char → List Char → List Nat)
    (x : t_faust_ui_manager) (pre post : List t_faust_ui) (c0 : t_faust_ui)
    (calls1 calls2 : List UICall) (call : UICall) (label : List Char)
    (hx : x.f_uis = pre ++ c0 :: post)
    (hpre : ∀ c ∈ pre, c.p_name ≠ c0.p_longname ∧ c.p_longname ≠ c0.p_longname)
    (hcall : call_label call = some label)
    (hL : faust_ui_manager_get_long_name
      (build_user_interface sscanf (faust_ui_manager_prepare_changes x) calls1) label =
        c0.p_longname)
    (h1 : ∀ L' ∈ registered_long_names sscanf (faust_ui_manager_prepare_changes x) calls1,
      L' ≠ c0.p_longname ∧ L' ≠ c0.p_name)
    (h1s : ∀ n ∈ registered_short_names sscanf (faust_ui_manager_prepare_changes x) calls1,
      n ≠ c0.p_longname)
    (h2 : ∀ L' ∈ registered_long_names sscanf
      (ui_call sscanf
        (build_user_interface sscanf (faust_ui_manager_prepare_changes x) calls1) call) calls2,
      L' ≠ c0.p_longname)
    (h2z : ∀ call' ∈ calls2, call_zone call' ≠ call_zone call) :
    ∃ c ∈ (introspection_pass sscanf x (calls1 ++ call :: calls2)).f_uis,
      c.p_longname = c0.p_longname ∧
      (∀ c' ∈ (introspection_pass sscanf x (calls1 ++ call :: calls2)).f_uis,
        c'.p_longname = c0.p_longname → c' = c) ∧
      c.p_saved = c0.p_saved ∧
      call_zone call = some c.p_zone ∧
      (introspection_pass sscanf x (calls1 ++ call :: calls2)).zone_mem c.p_zone =
        (faust_ui_manager_all_notes_off x).zone_mem c0.p_zone ∧
      (c0.p_zone ∉ sounding_gate_zones x →
        (introspection_pass sscanf x (calls1 ++ call :: calls2)).zone_mem c.p_zone =
          x.zone_mem c0.p_zone) ∧
      c.p_midi = pending_bindings
        (build_user_interface sscanf (faust_ui_manager_prepare_changes x) calls1).last_meta c ∧
      (faust_ui_manager_prepare_changes x).last_meta.midi = [] := by
  -- the state after `prepare_changes`
  have hs0 : lookup_stops_at c0.p_longname
      (prepare_ui (faust_ui_manager_all_notes_off x).zone_mem c0)
      (faust_ui_manager_prepare_changes x) := by
    refine ⟨pre.map (prepare_ui (faust_ui_manager_all_notes_off x).zone_mem),
      post.map (prepare_ui (faust_ui_manager_all_notes_off x).zone_mem), ?_, ?_⟩
    · rw [prepare_changes_uis, hx, List.map_append, List.map_cons]
    · intro c hc
      obtain ⟨d, hd, rfl⟩ := List.mem_map.1 hc
      exact hpre d hd
  -- the state before the call
  have hs1 := lookup_stops_build sscanf c0.p_longname
    (prepare_ui (faust_ui_manager_all_notes_off x).zone_mem c0) rfl calls1
    (faust_ui_manager_prepare_changes x) hs0 h1 h1s
  obtain ⟨i, hr⟩ := lookup_stops_reuse c0.p_longname _ _ hs1 rfl rfl
  obtain ⟨type, zone, init, min, max, step, hcalleq, hrec, hzone⟩ :=
    ui_call_add_zone sscanf
      (build_user_interface sscanf (faust_ui_manager_prepare_changes x) calls1) call label hcall
  rw [← hL] at hr
  obtain ⟨hln, _, _, hpz, _⟩ := add_param_record_fields
    (build_user_interface sscanf (faust_ui_manager_prepare_changes x) calls1)
    label type zone init min max step
  have hsaved := ((add_param_record_name
    (build_user_interface sscanf (faust_ui_manager_prepare_changes x) calls1)
    label type zone init min max step).1 i _ hr).2
  have hmem2 := (add_param_zone_mem
    (build_user_interface sscanf (faust_ui_manager_prepare_changes x) calls1)
    label type zone init min max step).2 i _ hr
  -- the list and the cells after the pass
  have hlist : (introspection_pass sscanf x (calls1 ++ call :: calls2)).f_uis =
      written_records sscanf (faust_ui_manager_prepare_changes x) calls1 ++
        (add_param_record
          (build_user_interface sscanf (faust_ui_manager_prepare_changes x) calls1)
          label type zone init min max step ::
        written_records sscanf
          (ui_call sscanf
            (build_user_interface sscanf (faust_ui_manager_prepare_changes x) calls1) call)
          calls2) := by
    rw [pass_uis_eq_written, written_records_append, written_records, hrec]
    rfl
  have hcells : (introspection_pass sscanf x (calls1 ++ call :: calls2)).zone_mem zone =
      (faust_ui_manager_all_notes_off x).zone_mem c0.p_zone := by
    unfold introspection_pass
    rw [(finish_changes_fields _).1, build_append]
    show (build_user_interface sscanf
      (ui_call sscanf
        (build_user_interface sscanf (faust_ui_manager_prepare_changes x) calls1) call)
      calls2).zone_mem zone = _
    rw [build_zone_mem sscanf zone calls2 _ (fun c hc => hzone ▸ h2z c hc), hcalleq, hmem2]
    rfl
  refine ⟨_, ?_, hln.trans hL, ?_, hsaved, by rw [hzone, hpz], ?_, ?_,
    add_param_record_midi _ _ _ _ _ _ _ _, (prepare_changes_fields x).2.2.2.1⟩
  · rw [hlist]
    simp
  · intro c' hc' hlong
    rw [hlist] at hc'
    rcases List.mem_append.1 hc' with h | h
    · exact absurd hlong (h1 _ (written_mem_long_name sscanf _ _ c' h)).1
    · rcases List.mem_cons.1 h with h | h
      · exact h
      · exact absurd hlong (h2 _ (written_mem_long_name sscanf _ _ c' h))
  · rw [hpz]
    exact hcells
  · intro hgate
    rw [hpz, hcells]
    exact all_notes_off_zone_mem x c0.p_zone hgate


theorem C3_values_carried_over_witness :
    ∃ c ∈ (introspection_pass sscanf_none vol_moved_state
        [.declare 2 "midi".toList "start".toList, .addNumber "vol".toList 2 0 0 1 0]).f_uis,
      c.p_longname = "vol".toList ∧ c.p_saved = 0 ∧
      (introspection_pass sscanf_none vol_moved_state
        [.declare 2 "midi".toList "start".toList,
          .addNumber "vol".toList 2 0 0 1 0]).zone_mem c.p_zone = 1 := by
  obtain ⟨c, hc, h1, _, h3, _, _, h6, _⟩ := C3_values_carried_over sscanf_none vol_moved_state
    [] [] vol_record [.declare 2 "midi".toList "start".toList] []
    (.addNumber "vol".toList 2 0 0 1 0) "vol".toList (by decide) (by decide) (by decide)
    (by decide) (by decide) (by decide) (by decide) (by decide)
  exact ⟨c, hc, h1, h3, (h6 (by decide)).trans (by decide)⟩

/-- C3, as stated, fails for the gate of a sounding voice: the control "gate" is in
the registry with the live value 1 when the pass begins and the pass computes its long
name again, but after the pass its cell holds 0 (not 1, and not the initial value 5),
because `faust_ui_manager_prepare_changes` turns all notes off before it takes the
snapshot of the cells. -/
theorem C3_counterexample_sounding_gate :
    gate_sounding_state.f_uis.map (fun c => (c.p_longname, c.p_zone)) = [("gate".toList, 1)] ∧
    gate_sounding_state.zone_mem 1 = 1 ∧
    registered_long_names sscanf_none (faust_ui_manager_prepare_changes gate_sounding_state)
      gate_calls = ["gate".toList] ∧
    (introspection_pass sscanf_none gate_sounding_state gate_calls).f_uis.map
      (fun c => (c.p_longname, c.p_zone, c.p_default)) = [("gate".toList, 1, 5)] ∧
    (introspection_pass sscanf_none gate_sounding_state gate_calls).zone_mem 1 = 0 := by
  decide


/-! ## The shape of mangled names -/

theorem no_double_hyphen_snoc (name : List Char) (c : Char) (h : no_double_hyphen name)
    (hc : name.getLast? ≠ some '-' ∨ c ≠ '-') : no_double_hyphen (name ++ [c]) := by
  unfold no_double_hyphen at h ⊢
  rw [List.chain'_append]
  refine ⟨h, List.chain'_singleton c, ?_⟩
  intro x hx y hy
  simp only [List.head?_cons, Option.mem_def, Option.some.injEq] at hy
  subst hy
  rintro ⟨rfl, rfl⟩
  rcases hc with hc | hc
  · exact hc hx
  · exact hc rfl

theorem alnum_ne_hyphen (c : Char) (h : isalnum c = true) : c ≠ '-' := by
  rintro rfl
  exact absurd h (by decide)

/-- The loop of `mangle` keeps its invariant: the name written so far has no two
hyphens in a row and does not end with a hyphen. The result has no two hyphens in a
row, and it ends with a hyphen only when the loop broke off at the bound. -/
theorem mangle_loop_shape (label : List Char) : ∀ (name : List Char) (state : Bool),
    no_double_hyphen name → name.getLast? ≠ some '-' →
    no_double_hyphen (mangle_loop label name state) ∧
    ((mangle_loop label name state).getLast? = some '-' →
      (mangle_loop label name state).length = MAXFAUSTSTRING - 1) := by
  induction label with
  | nil =>
    intro name state h1 h2
    rw [mangle_loop]
    exact ⟨h1, fun h => absurd h h2⟩
  | cons a label ih =>
    intro name state h1 h2
    rw [mangle_loop]
    split_ifs with hlt halnum hstate hbreak
    · refine ⟨no_double_hyphen_snoc name '-' h1 (Or.inl h2), fun _ => ?_⟩
      simp only [List.length_append, List.length_singleton] at hbreak ⊢
      omega
    · have h3 := no_double_hyphen_snoc name '-' h1 (Or.inl h2)
      have h4 := no_double_hyphen_snoc (name ++ ['-']) a h3 (Or.inr (alnum_ne_hyphen a halnum))
      apply ih _ _ h4
      rw [List.getLast?_append]
      simpa using alnum_ne_hyphen a halnum
    · have h4 := no_double_hyphen_snoc name a h1 (Or.inr (alnum_ne_hyphen a halnum))
      apply ih _ _ h4
      rw [List.getLast?_append]
      simpa using alnum_ne_hyphen a halnum
    · exact ih name true h1 h2
    · exact ⟨h1, fun h => absurd h h2⟩

/-- With room for the whole label the loop never breaks off after a hyphen. -/
theorem mangle_loop_room (label : List Char) : ∀ (name : List Char) (state : Bool),
    name.getLast? ≠ some '-' →
    name.length + (if state then 1 else 0) + label.length ≤ MAXFAUSTSTRING - 1 →
    (mangle_loop label name state).getLast? ≠ some '-' := by
  induction label with
  | nil =>
    intro name state h2 _
    rw [mangle_loop]
    exact h2
  | cons a label ih =>
    intro name state h2 hlen
    rw [List.length_cons] at hlen
    rw [mangle_loop]
    split_ifs with hlt halnum hstate hbreak
    · exfalso
      simp only [List.length_append, List.length_singleton] at hbreak
      rw [if_pos hstate] at hlen
      omega
    · apply ih
      · rw [List.getLast?_append]
        simpa using alnum_ne_hyphen a halnum
      · rw [if_pos hstate] at hlen
        simp only [List.length_append, List.length_singleton, Bool.false_eq_true, if_false]
        omega
    · apply ih
      · rw [List.getLast?_append]
        simpa using alnum_ne_hyphen a halnum
      · simp only [List.length_append, List.length_singleton, Bool.false_eq_true, if_false]
        split_ifs at hlen
        omega
    · apply ih _ _ h2
      simp only [if_true]
      split_ifs at hlen <;> omega
    · exact h2

theorem mangle_loop_prefix (label : List Char) : ∀ (name : List Char) (state : Bool),
    ∃ t, mangle_loop label name state = name ++ t := by
  induction label with
  | nil => intro name state; exact ⟨[], by rw [mangle_loop, List.append_nil]⟩
  | cons a label ih =>
    intro name state
    rw [mangle_loop]
    split_ifs
    · exact ⟨['-'], rfl⟩
    · obtain ⟨t, ht⟩ := ih (name ++ ['-'] ++ [a]) false
      exact ⟨'-' :: a :: t, by rw [ht]; simp⟩
    · obtain ⟨t, ht⟩ := ih (name ++ [a]) false
      exact ⟨a :: t, by rw [ht]; simp⟩
    · exact ih name true
    · exact ⟨[], by rw [List.append_nil]⟩

/-- After a character that is not alphanumeric and with nothing written yet, the
result starts with a hyphen exactly when an alphanumeric character follows. -/
theorem mangle_loop_pending (label : List Char) :
    ((∃ d ∈ label, isalnum d = true) →
      (mangle_loop label [] true).head? = some '-') ∧
    ((∀ d ∈ label, isalnum d = false) → mangle_loop label [] true = []) := by
  induction label with
  | nil =>
    constructor
    · rintro ⟨d, hd, _⟩
      exact absurd hd (List.not_mem_nil d)
    · intro _
      rfl
  | cons a label ih =>
    constructor
    · rintro ⟨d, hd, hdal⟩
      rw [mangle_loop, if_pos (by simp [MAXFAUSTSTRING])]
      by_cases ha : isalnum a = true
      · rw [if_pos ha, if_pos rfl, if_neg (by simp [MAXFAUSTSTRING])]
        obtain ⟨t, ht⟩ := mangle_loop_prefix label ([] ++ ['-'] ++ [a]) false
        rw [ht]
        rfl
      · rw [if_neg ha]
        rcases List.mem_cons.1 hd with rfl | hd'
        · exact absurd hdal ha
        · exact ih.1 ⟨d, hd', hdal⟩
    · intro h
      exact mangle_loop_no_alnum (a :: label) [] true h

theorem mangle_cases (L : List Char) :
    (mangle_loop L [] false ≠ [] ∧ mangle L = mangle_loop L [] false) ∨
    (mangle_loop L [] false = [] ∧ mangle L = "0x00".toList) := by
  unfold mangle
  by_cases h : mangle_loop L [] false = []
  · right
    exact ⟨h, by simp only [h]; rfl⟩
  · left
    exact ⟨h, by simp only; rw [if_pos h]⟩

theorem mangle_no_double_hyphen (L : List Char) : no_double_hyphen (mangle L) := by
  rcases mangle_cases L with ⟨_, e⟩ | ⟨_, e⟩
  · rw [e]
    exact (mangle_loop_shape L [] false List.chain'_nil (by simp)).1
  · rw [e]
    show List.Chain' _ ['0', 'x', '0', '0']
    simp

theorem mangle_trailing_hyphen (L : List Char) (h : (mangle L).getLast? = some '-') :
    (mangle L).length = MAXFAUSTSTRING - 1 ∧ MAXFAUSTSTRING - 1 < L.length := by
  rcases mangle_cases L with ⟨_, e⟩ | ⟨_, e⟩
  · rw [e] at h ⊢
    refine ⟨(mangle_loop_shape L [] false List.chain'_nil (by simp)).2 h, ?_⟩
    by_contra hlen
    exact mangle_loop_room L [] false (by simp) (by
      simp only [List.length_nil, Bool.false_eq_true, if_false]
      omega) h
  · rw [e] at h
    exact absurd h (by decide)

theorem mangle_leading_hyphen (L : List Char) :
    (mangle L).head? = some '-' ↔
      ∃ c L', L = c :: L' ∧ isalnum c = false ∧ ∃ d ∈ L', isalnum d = true := by
  constructor
  · intro h
    rcases mangle_cases L with ⟨hne, e⟩ | ⟨_, e⟩
    · rw [e] at h
      cases L with
      | nil => exact absurd rfl hne
      | cons c L' =>
        refine ⟨c, L', rfl, ?_⟩
        rw [mangle_loop, if_pos (by simp [MAXFAUSTSTRING])] at h hne
        by_cases hc : isalnum c = true
        · exfalso
          rw [if_pos hc, if_neg (by simp)] at h
          obtain ⟨t, ht⟩ := mangle_loop_prefix L' ([] ++ [c]) false
          rw [ht] at h
          simp only [List.nil_append, List.singleton_append, List.head?_cons,
            Option.some.injEq] at h
          exact alnum_ne_hyphen c hc h
        · rw [if_neg hc] at h hne
          refine ⟨by simpa using hc, ?_⟩
          by_contra hno
          apply hne
          apply (mangle_loop_pending L').2
          intro d hd
          by_contra hd'
          exact hno ⟨d, hd, by simpa using hd'⟩
    · rw [e] at h
      exact absurd h (by decide)
  · rintro ⟨c, L', rfl, hc, hd⟩
    have hl : mangle_loop (c :: L') [] false = mangle_loop L' [] true := by
      rw [mangle_loop, if_pos (by simp [MAXFAUSTSTRING]), if_neg (by simp [hc])]
    have hh := (mangle_loop_pending L').1 hd
    rcases mangle_cases (c :: L') with ⟨_, e⟩ | ⟨hnil, _⟩
    · rw [e, hl]
      exact hh
    · rw [hl] at hnil
      rw [hnil] at hh
      exact absurd hh (by simp)

/-- A hyphen inside a list without two hyphens in a row has no hyphen next to it. -/
theorem hyphen_neighbours (pre post : List Char)
    (h : no_double_hyphen (pre ++ '-' :: post)) :
    pre.getLast? ≠ some '-' ∧ post.head? ≠ some '-' := by
  unfold no_double_hyphen at h
  rw [List.chain'_append] at h
  obtain ⟨_, h2, h3⟩ := h
  constructor
  · intro e
    exact h3 '-' e '-' (by simp) ⟨rfl, rfl⟩
  · intro e
    cases post with
    | nil => simp at e
    | cons b post =>
      simp only [List.head?_cons, Option.some.injEq] at e
      rw [List.chain'_cons] at h2
      exact h2.1 ⟨rfl, e⟩

/-- C11 (amended). `mangle L` never holds two hyphens in a row, so a hyphen that is
neither the first nor the last character stands between two alphanumeric characters.
It ends with a hyphen only when the output was cut at the bound of 4095 characters,
which takes a label of more than 4095 characters. It starts with a hyphen exactly
when `L` starts with a character that is not alphanumeric and has an alphanumeric
character after it. -/
theorem C11_mangle_hyphens (L : List Char) :
    no_double_hyphen (mangle L) ∧
    (∀ pre post, mangle L = pre ++ '-' :: post → pre ≠ [] → post ≠ [] →
      (∃ a, pre.getLast? = some a ∧ isalnum a = true) ∧
      (∃ b, post.head? = some b ∧ isalnum b = true)) ∧
    ((mangle L).getLast? = some '-' →
      (mangle L).length = 4095 ∧ 4095 < L.length) ∧
    ((mangle L).head? = some '-' ↔
      ∃ c L', L = c :: L' ∧ isalnum c = false ∧ ∃ d ∈ L', isalnum d = true) := by
  refine ⟨mangle_no_double_hyphen L, ?_, mangle_trailing_hyphen L, mangle_leading_hyphen L⟩
  intro pre post e hpre hpost
  have hd := mangle_no_double_hyphen L
  rw [e] at hd
  obtain ⟨h1, h2⟩ := hyphen_neighbours pre post hd
  have hch := mangle_chars L
  constructor
  · obtain ⟨a, ha⟩ : ∃ a, pre.getLast? = some a := by
      cases hp : pre.getLast? with
      | none => exact absurd (List.getLast?_eq_none_iff.1 hp) hpre
      | some a => exact ⟨a, rfl⟩
    refine ⟨a, ha, ?_⟩
    have hmem : a ∈ mangle L := by
      rw [e]
      exact List.mem_append_left _ (List.mem_of_getLast?_eq_some ha)
    rcases hch a hmem with h | h
    · exact h
    · exact absurd (h ▸ ha) h1
  · cases post with
    | nil => exact absurd rfl hpost
    | cons b post =>
      refine ⟨b, rfl, ?_⟩
      have hmem : b ∈ mangle L := by
        rw [e]
        simp
      rcases hch b hmem with h | h
      · exact h
      · exact absurd (by rw [h]; rfl) h2

theorem C11_mangle_hyphens_witness :
    no_double_hyphen (mangle "meter #1 (dB)".toList) ∧
    (mangle " abc".toList).head? = some '-' :=
  ⟨(C11_mangle_hyphens "meter #1 (dB)".toList).1,
    (C11_mangle_hyphens " abc".toList).2.2.2.2
      ⟨' ', "abc".toList, rfl, by decide, 'a', by decide, by decide⟩⟩

/-- C11, as stated, fails for a label that starts with a blank: the mangled name
starts with a hyphen. -/
theorem C11_counterexample_leading_hyphen :
    mangle " abc".toList = "-abc".toList ∧ (mangle " abc".toList).head? = some '-' := by
  decide

/-- Mangling a name of the mangled shape again gives the name back: from the state
without a pending hyphen the loop copies `M`, and from the state with a pending
hyphen it copies the hyphen and `M` when `M` starts with an alphanumeric character. -/
theorem mangle_loop_fixed (M : List Char) :
    (∀ c ∈ M, isalnum c = true ∨ c = '-') → no_double_hyphen M → M.getLast? ≠ some '-' →
    ∀ name : List Char,
      (name.length + M.length ≤ MAXFAUSTSTRING - 1 → mangle_loop M name false = name ++ M) ∧
      ((∃ a, M.head? = some a ∧ isalnum a = true) →
        name.length + 1 + M.length ≤ MAXFAUSTSTRING - 1 →
        mangle_loop M name true = name ++ '-' :: M) := by
  induction M with
  | nil =>
    intro _ _ _ name
    constructor
    · intro _
      rw [mangle_loop, List.append_nil]
    · rintro ⟨a, ha, _⟩
      simp at ha
  | cons c M ih =>
    intro hch hdd hlast name
    have hch' : ∀ d ∈ M, isalnum d = true ∨ d = '-' :=
      fun d hd => hch d (List.mem_cons_of_mem _ hd)
    have hdd' : no_double_hyphen M := by
      unfold no_double_hyphen at hdd ⊢
      exact hdd.tail
    have hlast' : M.getLast? ≠ some '-' := by
      intro e
      apply hlast
      cases M with
      | nil => simp at e
      | cons b M => rw [List.getLast?_cons_cons]; exact e
    have IH := ih hch' hdd' hlast'
    by_cases hc : isalnum c = true
    · constructor
      · intro hlen
        rw [List.length_cons] at hlen
        rw [mangle_loop, if_pos (by omega), if_pos hc, if_neg (by simp),
          (IH (name ++ [c])).1 (by simp only [List.length_append, List.length_singleton]; omega)]
        simp
      · intro _ hlen
        rw [List.length_cons] at hlen
        rw [mangle_loop, if_pos (by omega), if_pos hc, if_pos rfl,
          if_neg (by simp only [List.length_append, List.length_singleton]; omega),
          (IH (name ++ ['-'] ++ [c])).1 (by
            simp only [List.length_append, List.length_singleton]; omega)]
        simp
    · have hcd : c = '-' := (hch c (List.mem_cons_self _ _)).resolve_left hc
      subst hcd
      constructor
      · intro hlen
        rw [List.length_cons] at hlen
        -- the rest is not empty and starts with an alphanumeric character
        cases M with
        | nil => exact absurd rfl hlast
        | cons b M =>
          have hb : isalnum b = true := by
            rcases hch b (by simp) with h | h
            · exact h
            · exfalso
              unfold no_double_hyphen at hdd
              rw [List.chain'_cons] at hdd
              exact hdd.1 ⟨rfl, h⟩
          rw [mangle_loop, if_pos (by omega), if_neg hc,
            (IH name).2 ⟨b, rfl, hb⟩ (by omega)]
      · rintro ⟨a, ha, haal⟩
        simp only [List.head?_cons, Option.some.injEq] at ha
        exact absurd (ha ▸ haal) hc

/-- A mangled name that does not end with a hyphen is a fixed point of `mangle`. -/
theorem mangle_fixed (L : List Char) (h : (mangle L).getLast? ≠ some '-') :
    mangle (mangle L) = mangle L := by
  rcases mangle_cases L with ⟨hne, e⟩ | ⟨_, e⟩
  · have hlen := mangle_loop_length L [] false (by simp)
    have hfix := (mangle_loop_fixed (mangle L) (mangle_chars L) (mangle_no_double_hyphen L) h
      []).1 (by rw [e]; simpa using hlen)
    rw [List.nil_append] at hfix
    rcases mangle_cases (mangle L) with ⟨_, e2⟩ | ⟨hnil, _⟩
    · rw [e2, hfix]
    · rw [hfix, e] at hnil
      exact absurd hnil hne
  · rw [e]
    exact mangle_placeholder

/-- The loop of `mangle` copies a run of letters and digits while there is room. -/
theorem mangle_loop_alnum_run (A rest : List Char) : ∀ (name : List Char),
    (∀ c ∈ A, isalnum c = true) → name.length + A.length ≤ MAXFAUSTSTRING - 1 →
    mangle_loop (A ++ rest) name false = mangle_loop rest (name ++ A) false := by
  induction A with
  | nil => intro name _ _; simp
  | cons a A ih =>
    intro name h hlen
    rw [List.length_cons] at hlen
    rw [List.cons_append, mangle_loop, if_pos (by omega),
      if_pos (h a (List.mem_cons_self _ _)), if_neg (by simp),
      ih _ (fun c hc => h c (List.mem_cons_of_mem _ hc)) (by
        simp only [List.length_append, List.length_singleton]; omega)]
    simp

/-- A label of `n = 4094` letters, a blank and one more letter: the output is cut
after the hyphen. -/
theorem mangle_cut_hyphen (n : Nat) (hn : n = MAXFAUSTSTRING - 2) :
    mangle (List.replicate n 'a' ++ " b".toList) = List.replicate n 'a' ++ ['-'] ∧
    mangle (List.replicate n 'a' ++ ['-']) = List.replicate n 'a' := by
  have hn' : n = 4094 := hn
  have hal : ∀ c ∈ List.replicate n 'a', isalnum c = true := by
    intro c hc
    rw [List.eq_of_mem_replicate hc]
    decide
  have hne : ∀ t : List Char, List.replicate n 'a' ++ t ≠ [] := by
    intro t e
    have := congrArg List.length e
    rw [List.length_append, List.length_replicate, List.length_nil] at this
    omega
  have hlen : ([] ++ List.replicate n 'a' : List Char).length = n := by
    rw [List.nil_append, List.length_replicate]
  constructor
  · have h1 : mangle_loop (List.replicate n 'a' ++ " b".toList) [] false =
        List.replicate n 'a' ++ ['-'] := by
      rw [mangle_loop_alnum_run _ _ [] hal (by
        rw [List.length_nil, List.length_replicate]; simp only [MAXFAUSTSTRING]; omega)]
      show mangle_loop (' ' :: 'b' :: []) ([] ++ List.replicate n 'a') false = _
      rw [mangle_loop, if_pos (by rw [hlen]; simp only [MAXFAUSTSTRING]; omega),
        if_neg (by decide), mangle_loop,
        if_pos (by rw [hlen]; simp only [MAXFAUSTSTRING]; omega), if_pos (by decide),
        if_pos rfl, if_pos (by
          rw [List.length_append, hlen, List.length_singleton]
          simp only [MAXFAUSTSTRING]; omega), List.nil_append]
    unfold mangle
    simp only [h1]
    rw [if_pos (hne _)]
  · have h2 : mangle_loop (List.replicate n 'a' ++ ['-']) [] false = List.replicate n 'a' := by
      rw [mangle_loop_alnum_run _ _ [] hal (by
        rw [List.length_nil, List.length_replicate]; simp only [MAXFAUSTSTRING]; omega)]
      rw [mangle_loop, if_pos (by rw [hlen]; simp only [MAXFAUSTSTRING]; omega),
        if_neg (by decide), mangle_loop, List.nil_append]
    unfold mangle
    simp only [h2]
    rw [if_pos]
    have := hne []
    rwa [List.append_nil] at this

/-- C12 (amended). `mangle (mangle L) = mangle L` for every label `L` whose mangled
name does not end with a hyphen: for every label of at most 4095 characters, and for
every label whose mangled name has fewer than 4095 characters (the placeholder "0x00"
among them). -/
theorem C12_mangle_idempotent (L : List Char) :
    ((mangle L).getLast? ≠ some '-' → mangle (mangle L) = mangle L) ∧
    (L.length ≤ 4095 → mangle (mangle L) = mangle L) ∧
    ((mangle L).length < 4095 → mangle (mangle L) = mangle L) ∧
    mangle (mangle "!?".toList) = "0x00".toList := by
  refine ⟨mangle_fixed L, ?_, ?_, by decide⟩
  · intro hlen
    apply mangle_fixed
    intro h
    have := (mangle_trailing_hyphen L h).2
    simp only [MAXFAUSTSTRING] at this
    omega
  · intro hlen
    apply mangle_fixed
    intro h
    have := (mangle_trailing_hyphen L h).1
    simp only [MAXFAUSTSTRING] at this
    omega

theorem C12_mangle_idempotent_witness :
    mangle (mangle "meter #1 (dB)".toList) = mangle "meter #1 (dB)".toList :=
  (C12_mangle_idempotent "meter #1 (dB)".toList).2.1 (by decide)

/-- C12, as stated, fails for a label that is cut after a hyphen: 4094 letters, a
blank and a letter mangle to the 4094 letters and a hyphen, and mangling that again
drops the hyphen. -/
theorem C12_counterexample_cut_after_hyphen :
    mangle (List.replicate 4094 'a' ++ " b".toList) = List.replicate 4094 'a' ++ ['-'] ∧
    mangle (mangle (List.replicate 4094 'a' ++ " b".toList)) = List.replicate 4094 'a' ∧
    mangle (mangle (List.replicate 4094 'a' ++ " b".toList)) ≠
      mangle (List.replicate 4094 'a' ++ " b".toList) := by
  obtain ⟨h1, h2⟩ := mangle_cut_hyphen 4094 rfl
  refine ⟨h1, by rw [h1, h2], ?_⟩
  rw [h1, h2]
  intro e
  have := congrArg List.length e
  rw [List.length_append, List.length_replicate, List.length_singleton] at this
  omega

/-! ## Raw values and control values -/

theorem c_round_dist (q : ℚ) : |((c_round q : Int) : ℚ) - q| ≤ 1 / 2 := by
  unfold c_round
  split_ifs with h
  · have h1 := Int.floor_le (q + 1 / 2)
    have h2 := Int.lt_floor_add_one (q + 1 / 2)
    rw [abs_le]
    constructor <;> linarith
  · have h1 := Int.le_ceil (q - 1 / 2)
    have h2 := Int.ceil_lt_add_one (q - 1 / 2)
    rw [abs_le]
    constructor <;> linarith

theorem c_round_int (n : Int) : c_round (n : ℚ) = n := by
  unfold c_round
  split_ifs with h
  · rw [Int.floor_eq_iff]
    constructor <;> linarith
  · rw [Int.ceil_eq_iff]
    constructor <;> linarith

theorem c_round_mono (a b : ℚ) (h : a ≤ b) : c_round a ≤ c_round b := by
  unfold c_round
  split_ifs with ha hb hb
  · exact Int.floor_mono (by linarith)
  · exact absurd (le_trans ha h) hb
  · have h1 : ⌈a - 1 / 2⌉ ≤ 0 := by
      rw [Int.ceil_le]
      push_neg at ha
      have : (((0 : Int)) : ℚ) = 0 := by norm_num
      rw [this]
      linarith
    have h2 : 0 ≤ ⌊b + 1 / 2⌋ := by
      rw [Int.le_floor]
      have : (((0 : Int)) : ℚ) = 0 := by norm_num
      rw [this]
      linarith
    exact le_trans h1 h2
  · exact Int.ceil_mono (by linarith)

/-- The rounded value is a nearest integer. -/
theorem c_round_nearest (q : ℚ) (j : Int) :
    |((c_round q : Int) : ℚ) - q| ≤ |(j : ℚ) - q| := by
  by_cases hj : j = c_round q
  · rw [hj]
  · have h1 := c_round_dist q
    have h2 : (1 : ℚ) ≤ |(j : ℚ) - (c_round q : ℚ)| := by
      have : (1 : Int) ≤ |j - c_round q| := Int.one_le_abs (sub_ne_zero.2 hj)
      have h3 : ((1 : Int) : ℚ) ≤ ((|j - c_round q| : Int) : ℚ) := by exact_mod_cast this
      simpa using h3
    have h3 : |(j : ℚ) - (c_round q : ℚ)| ≤ |(j : ℚ) - q| + |q - (c_round q : ℚ)| := by
      have := abs_sub_le (j : ℚ) q (c_round q : ℚ)
      exact this
    rw [abs_sub_comm q] at h3
    linarith

/-! ### `translate` -/

theorem snapped_raw_range (val min max : Int) (h : min < max) :
    min ≤ snapped_raw val min max ∧ snapped_raw val min max ≤ max := by
  unfold snapped_raw
  simp only
  split_ifs <;> constructor <;> omega

/-- The scaled raw value lies between 0 and 1. -/
theorem raw_unit (val min max : Int) (h : min < max) :
    0 ≤ ((snapped_raw val min max - min : Int) : ℚ) / ((max - min : Int) : ℚ) ∧
    ((snapped_raw val min max - min : Int) : ℚ) / ((max - min : Int) : ℚ) ≤ 1 := by
  obtain ⟨h1, h2⟩ := snapped_raw_range val min max h
  have hd : (0 : ℚ) < ((max - min : Int) : ℚ) := by
    have : (0 : Int) < max - min := by omega
    exact_mod_cast this
  have hn : (0 : ℚ) ≤ ((snapped_raw val min max - min : Int) : ℚ) := by
    have : (0 : Int) ≤ snapped_raw val min max - min := by omega
    exact_mod_cast this
  have hle : ((snapped_raw val min max - min : Int) : ℚ) ≤ ((max - min : Int) : ℚ) := by
    have : snapped_raw val min max - min ≤ max - min := by omega
    exact_mod_cast this
  exact ⟨div_nonneg hn hd.le, (div_le_one hd).2 hle⟩

/-- The function `translate`, with its steps named. -/
theorem translate_eq (val min max p_type : Int) (p_min p_max p_step : ℚ) :
    translate val min max p_type p_min p_max p_step =
      if p_type = FAUST_UI_TYPE_BUTTON ∨ p_type = FAUST_UI_TYPE_TOGGLE then
        if snapped_raw val min max > min then 1 else 0
      else if (if p_min > p_max then -p_step else p_step) ≠ 0 then
        Min.min p_min p_max + (if p_min > p_max then -p_step else p_step) *
          (c_round (((snapped_raw val min max - min : Int) : ℚ) / ((max - min : Int) : ℚ) *
            (Max.max p_min p_max - Min.min p_min p_max) /
            (if p_min > p_max then -p_step else p_step)) : ℚ)
      else Min.min p_min p_max +
        ((snapped_raw val min max - min : Int) : ℚ) / ((max - min : Int) : ℚ) *
          (Max.max p_min p_max - Min.min p_min p_max) := by
  have hlo : (if p_min > p_max then p_max else p_min) = Min.min p_min p_max := by
    split_ifs with h
    · exact (min_eq_right h.le).symm
    · exact (min_eq_left (not_lt.1 h)).symm
  have hhi : (if p_min > p_max then p_min else p_max) = Max.max p_min p_max := by
    split_ifs with h
    · exact (max_eq_left h.le).symm
    · exact (max_eq_right (not_lt.1 h)).symm
  unfold translate snapped_raw
  simp only [hlo, hhi]
theorem number_not_switch :
    ¬ (FAUST_UI_TYPE_NUMBER = FAUST_UI_TYPE_BUTTON ∨
      FAUST_UI_TYPE_NUMBER = FAUST_UI_TYPE_TOGGLE) := by decide

/-- The value of `translate` for a Number without a step. -/
theorem translate_number_nostep (raw rawMin rawMax : Int) (p_min p_max : ℚ) :
    translate raw rawMin rawMax FAUST_UI_TYPE_NUMBER p_min p_max 0 =
      Min.min p_min p_max +
        ((snapped_raw raw rawMin rawMax - rawMin : Int) : ℚ) / ((rawMax - rawMin : Int) : ℚ) *
          (Max.max p_min p_max - Min.min p_min p_max) := by
  rw [translate_eq, if_neg number_not_switch, if_neg]
  split_ifs <;> simp

/-- Rounding to a multiple of the step moves a value by at most half a step. -/
theorem step_round_dist (s w : ℚ) (hs : s ≠ 0) :
    |s * ((c_round (w / s) : Int) : ℚ) - w| ≤ |s| / 2 := by
  have h := c_round_dist (w / s)
  have e : s * ((c_round (w / s) : Int) : ℚ) - w = s * (((c_round (w / s) : Int) : ℚ) - w / s) := by
    rw [mul_sub, mul_div_cancel₀ w hs]
  rw [e, abs_mul]
  have hpos : 0 ≤ |s| := abs_nonneg s
  calc |s| * |((c_round (w / s) : Int) : ℚ) - w / s| ≤ |s| * (1 / 2) :=
        mul_le_mul_of_nonneg_left h hpos
    _ = |s| / 2 := by ring

/-- Rounding to a multiple of the step stays inside a range that is a whole number of
steps wide. -/
theorem step_round_range (s w R : ℚ) (m : Int) (hs : s ≠ 0) (hR : R = (m : ℚ) * s)
    (hw0 : 0 ≤ w) (hwR : w ≤ R) :
    0 ≤ s * ((c_round (w / s) : Int) : ℚ) ∧ s * ((c_round (w / s) : Int) : ℚ) ≤ R := by
  rcases lt_or_gt_of_ne hs with hneg | hpos
  · -- a negative step: the quotient runs from `m` up to 0
    have h1 : w / s ≤ 0 := div_nonpos_of_nonneg_of_nonpos hw0 hneg.le
    have h2 : (m : ℚ) ≤ w / s := by
      rw [le_div_iff_of_neg hneg, ← hR]
      exact hwR
    have r1 : c_round (w / s) ≤ 0 := by
      have := c_round_mono _ _ h1
      have e0 : c_round (0 : ℚ) = 0 := by
        have := c_round_int 0
        simpa using this
      rwa [e0] at this
    have r2 : m ≤ c_round (w / s) := by
      have := c_round_mono _ _ h2
      rwa [c_round_int] at this
    have r1' : ((c_round (w / s) : Int) : ℚ) ≤ 0 := by exact_mod_cast r1
    have r2' : (m : ℚ) ≤ ((c_round (w / s) : Int) : ℚ) := by exact_mod_cast r2
    constructor
    · exact mul_nonneg_of_nonpos_of_nonpos hneg.le r1'
    · rw [hR, mul_comm (m : ℚ) s]
      exact mul_le_mul_of_nonpos_left r2' hneg.le
  · have h1 : 0 ≤ w / s := div_nonneg hw0 hpos.le
    have h2 : w / s ≤ (m : ℚ) := by
      rw [div_le_iff₀ hpos, ← hR]
      exact hwR
    have r1 : 0 ≤ c_round (w / s) := by
      have := c_round_mono _ _ h1
      have e0 : c_round (0 : ℚ) = 0 := by
        have := c_round_int 0
        simpa using this
      rwa [e0] at this
    have r2 : c_round (w / s) ≤ m := by
      have := c_round_mono _ _ h2
      rwa [c_round_int] at this
    have r1' : (0 : ℚ) ≤ ((c_round (w / s) : Int) : ℚ) := by exact_mod_cast r1
    have r2' : ((c_round (w / s) : Int) : ℚ) ≤ (m : ℚ) := by exact_mod_cast r2
    constructor
    · exact mul_nonneg hpos.le r1'
    · rw [hR, mul_comm (m : ℚ) s]
      exact mul_le_mul_of_nonneg_left r2' hpos.le

theorem scaled_range (val min max : Int) (h : min < max) (p_min p_max : ℚ) :
    0 ≤ ((snapped_raw val min max - min : Int) : ℚ) / ((max - min : Int) : ℚ) *
        (Max.max p_min p_max - Min.min p_min p_max) ∧
    ((snapped_raw val min max - min : Int) : ℚ) / ((max - min : Int) : ℚ) *
        (Max.max p_min p_max - Min.min p_min p_max) ≤ Max.max p_min p_max - Min.min p_min p_max := by
  obtain ⟨h0, h1⟩ := raw_unit val min max h
  have hR : 0 ≤ Max.max p_min p_max - Min.min p_min p_max := by
    have := min_le_max (a := p_min) (b := p_max)
    linarith
  constructor
  · exact mul_nonneg h0 hR
  · calc _ ≤ 1 * (Max.max p_min p_max - Min.min p_min p_max) :=
          mul_le_mul_of_nonneg_right h1 hR
      _ = _ := one_mul _

/-- C13 (amended). For a raw range `rawMin < rawMax`: for a Button or a Toggle
`translate` returns 0 or 1, whatever the range of the control; for the other kinds the
value lies in the closed interval from `min p_min p_max` to `max p_min p_max` when the
step is 0 or the width of the interval is a whole number of steps, and for any other
step it lies within half a step of that interval. -/
theorem C13_translate_range (raw rawMin rawMax p_type : Int) (p_min p_max p_step : ℚ)
    (hraw : rawMin < rawMax) :
    ((p_type = FAUST_UI_TYPE_BUTTON ∨ p_type = FAUST_UI_TYPE_TOGGLE) →
      translate raw rawMin rawMax p_type p_min p_max p_step = 0 ∨
      translate raw rawMin rawMax p_type p_min p_max p_step = 1) ∧
    (¬ (p_type = FAUST_UI_TYPE_BUTTON ∨ p_type = FAUST_UI_TYPE_TOGGLE) →
      (p_step = 0 ∨ ∃ n : Int, Max.max p_min p_max - Min.min p_min p_max = (n : ℚ) * p_step) →
      Min.min p_min p_max ≤ translate raw rawMin rawMax p_type p_min p_max p_step ∧
      translate raw rawMin rawMax p_type p_min p_max p_step ≤ Max.max p_min p_max) ∧
    (¬ (p_type = FAUST_UI_TYPE_BUTTON ∨ p_type = FAUST_UI_TYPE_TOGGLE) →
      Min.min p_min p_max - |p_step| / 2 ≤
        translate raw rawMin rawMax p_type p_min p_max p_step ∧
      translate raw rawMin rawMax p_type p_min p_max p_step ≤
        Max.max p_min p_max + |p_step| / 2) := by
  obtain ⟨hw0, hwR⟩ := scaled_range raw rawMin rawMax hraw p_min p_max
  have habs0 : 0 ≤ |p_step| / 2 := by positivity
  have hsabs : |(if p_min > p_max then -p_step else p_step)| = |p_step| := by
    split_ifs
    · exact abs_neg p_step
    · rfl
  have hs0 : (if p_min > p_max then -p_step else p_step) ≠ 0 ↔ p_step ≠ 0 := by
    split_ifs
    · exact neg_ne_zero
    · exact Iff.rfl
  refine ⟨?_, ?_, ?_⟩
  · intro hb
    rw [translate_eq, if_pos hb]
    split_ifs
    · exact Or.inr rfl
    · exact Or.inl rfl
  · intro hb hstep
    rw [translate_eq, if_neg hb]
    by_cases hz : p_step = 0
    · rw [if_neg (fun h => (hs0.1 h) hz)]
      constructor <;> linarith
    · rw [if_pos (hs0.2 hz)]
      obtain ⟨n, hn⟩ := hstep.resolve_left hz
      have hm : ∃ m : Int, Max.max p_min p_max - Min.min p_min p_max =
          (m : ℚ) * (if p_min > p_max then -p_step else p_step) := by
        split_ifs
        · exact ⟨-n, by rw [hn]; push_cast; ring⟩
        · exact ⟨n, hn⟩
      obtain ⟨m, hm⟩ := hm
      obtain ⟨r0, r1⟩ := step_round_range _ _ _ m (hs0.2 hz) hm hw0 hwR
      constructor <;> linarith
  · intro hb
    rw [translate_eq, if_neg hb]
    by_cases hz : p_step = 0
    · rw [if_neg (fun h => (hs0.1 h) hz)]
      constructor <;> linarith
    · rw [if_pos (hs0.2 hz)]
      have hd := step_round_dist (if p_min > p_max then -p_step else p_step)
        (((snapped_raw raw rawMin rawMax - rawMin : Int) : ℚ) / ((rawMax - rawMin : Int) : ℚ) *
          (Max.max p_min p_max - Min.min p_min p_max)) (hs0.2 hz)
      rw [hsabs, abs_le] at hd
      constructor <;> linarith

theorem C13_translate_range_witness :
    Min.min (0 : ℚ) 10 ≤ translate 64 0 128 FAUST_UI_TYPE_NUMBER 0 10 5 ∧
    translate 64 0 128 FAUST_UI_TYPE_NUMBER 0 10 5 ≤ Max.max (0 : ℚ) 10 :=
  (C13_translate_range 64 0 128 FAUST_UI_TYPE_NUMBER 0 10 5 (by decide)).2.1 (by decide)
    (Or.inr ⟨2, by norm_num⟩)

theorem c_round_five_halves : c_round (5 / 2) = 3 := by
  unfold c_round
  rw [if_pos (by norm_num), Int.floor_eq_iff]
  constructor <;> norm_num

/-- C13, as stated, fails for a Button, whose range is 0 to 0 and whose value is 1
for a raw value above the bottom, and for a Number whose range is not a whole number
of steps wide: with range 0 to 10 and step 4 the top raw value gives 12. -/
theorem C13_counterexample_button_and_step :
    translate 1 0 128 FAUST_UI_TYPE_BUTTON 0 0 0 = 1 ∧
    ¬ (translate 1 0 128 FAUST_UI_TYPE_BUTTON 0 0 0 ≤ Max.max (0 : ℚ) 0) ∧
    translate 128 0 128 FAUST_UI_TYPE_NUMBER 0 10 4 = 12 ∧
    ¬ (translate 128 0 128 FAUST_UI_TYPE_NUMBER 0 10 4 ≤ Max.max (0 : ℚ) 10) := by
  have h1 : translate 1 0 128 FAUST_UI_TYPE_BUTTON 0 0 0 = 1 := by decide
  have h2 : translate 128 0 128 FAUST_UI_TYPE_NUMBER 0 10 4 = 12 := by
    rw [translate_eq, if_neg (by decide)]
    have hs : snapped_raw 128 0 128 = 128 := by decide
    simp only [hs]
    have e : (((128 - 0 : Int) : ℚ) / ((128 - 0 : Int) : ℚ) * (Max.max (0 : ℚ) 10 - Min.min 0 10) /
        (if (0 : ℚ) > 10 then -4 else 4)) = 5 / 2 := by norm_num
    rw [e, c_round_five_halves]
    norm_num
  refine ⟨h1, ?_, h2, ?_⟩
  · rw [h1]; norm_num
  · rw [h2]; norm_num

/-- C15. For a Number control and a raw range `rawMin < rawMax`, let `v` be the
clamped and top-snapped raw value scaled into 0 to 1. With a step that is not 0,
`translate` returns the smaller bound plus `k` steps for an integer `k`, where `k`
steps is a multiple of the step nearest to `v` times the width of the range, at most
half a step away; with the step 0 it returns the smaller bound plus `v` times the
width. -/
theorem C15_translate_step (raw rawMin rawMax : Int) (p_min p_max p_step : ℚ)
    (hraw : rawMin < rawMax) :
    (p_step ≠ 0 →
      ∃ k : Int,
        translate raw rawMin rawMax FAUST_UI_TYPE_NUMBER p_min p_max p_step =
          Min.min p_min p_max + (k : ℚ) * p_step ∧
        |(k : ℚ) * p_step -
          ((snapped_raw raw rawMin rawMax - rawMin : Int) : ℚ) / ((rawMax - rawMin : Int) : ℚ) *
            (Max.max p_min p_max - Min.min p_min p_max)| ≤ |p_step| / 2 ∧
        ∀ j : Int,
          |(k : ℚ) * p_step -
            ((snapped_raw raw rawMin rawMax - rawMin : Int) : ℚ) /
              ((rawMax - rawMin : Int) : ℚ) *
              (Max.max p_min p_max - Min.min p_min p_max)| ≤
          |(j : ℚ) * p_step -
            ((snapped_raw raw rawMin rawMax - rawMin : Int) : ℚ) /
              ((rawMax - rawMin : Int) : ℚ) *
              (Max.max p_min p_max - Min.min p_min p_max)|) ∧
    (p_step = 0 →
      translate raw rawMin rawMax FAUST_UI_TYPE_NUMBER p_min p_max p_step =
        Min.min p_min p_max +
          ((snapped_raw raw rawMin rawMax - rawMin : Int) : ℚ) / ((rawMax - rawMin : Int) : ℚ) *
            (Max.max p_min p_max - Min.min p_min p_max)) ∧
    rawMin ≤ snapped_raw raw rawMin rawMax ∧ snapped_raw raw rawMin rawMax ≤ rawMax := by
  refine ⟨?_, ?_, snapped_raw_range raw rawMin rawMax hraw⟩
  · intro hz
    -- the multiples of a step `s` around `w`
    have key : ∀ s w : ℚ, s ≠ 0 → ∀ j : Int,
        |s * ((c_round (w / s) : Int) : ℚ) - w| ≤ |s * (j : ℚ) - w| := by
      intro s w hs j
      have e1 : s * ((c_round (w / s) : Int) : ℚ) - w =
          s * (((c_round (w / s) : Int) : ℚ) - w / s) := by
        rw [mul_sub, mul_div_cancel₀ w hs]
      have e2 : s * (j : ℚ) - w = s * ((j : ℚ) - w / s) := by
        rw [mul_sub, mul_div_cancel₀ w hs]
      rw [e1, e2, abs_mul, abs_mul]
      exact mul_le_mul_of_nonneg_left (c_round_nearest (w / s) j) (abs_nonneg s)
    have dist : ∀ s w : ℚ, s ≠ 0 → |s * ((c_round (w / s) : Int) : ℚ) - w| ≤ |s| / 2 := by
      intro s w hs
      have h := c_round_dist (w / s)
      have e1 : s * ((c_round (w / s) : Int) : ℚ) - w =
          s * (((c_round (w / s) : Int) : ℚ) - w / s) := by
        rw [mul_sub, mul_div_cancel₀ w hs]
      rw [e1, abs_mul]
      calc |s| * |((c_round (w / s) : Int) : ℚ) - w / s| ≤ |s| * (1 / 2) :=
            mul_le_mul_of_nonneg_left h (abs_nonneg s)
        _ = |s| / 2 := by ring
    rw [translate_eq, if_neg number_not_switch]
    generalize ((snapped_raw raw rawMin rawMax - rawMin : Int) : ℚ) /
      ((rawMax - rawMin : Int) : ℚ) * (Max.max p_min p_max - Min.min p_min p_max) = w
    by_cases hinv : p_min > p_max
    · simp only [if_pos hinv]
      rw [if_pos (neg_ne_zero.2 hz)]
      have e : ∀ c : Int, ((-c : Int) : ℚ) * p_step = -p_step * (c : ℚ) := by
        intro c
        push_cast
        ring
      refine ⟨-c_round (w / -p_step), ?_, ?_, ?_⟩
      · rw [e]
      · have := dist (-p_step) w (neg_ne_zero.2 hz)
        rw [abs_neg] at this
        rw [e]
        exact this
      · intro j
        have := key (-p_step) w (neg_ne_zero.2 hz) (-j)
        have e2 : -p_step * ((-j : Int) : ℚ) = (j : ℚ) * p_step := by
          push_cast
          ring
        rw [e2] at this
        rw [e]
        exact this
    · simp only [if_neg hinv]
      rw [if_pos hz]
      refine ⟨c_round (w / p_step), ?_, ?_, ?_⟩
      · rw [mul_comm]
      · rw [mul_comm]
        exact dist p_step w hz
      · intro j
        rw [mul_comm, mul_comm (j : ℚ)]
        exact key p_step w hz j
  · intro hz
    rw [hz]
    exact translate_number_nostep raw rawMin rawMax p_min p_max

theorem C15_translate_step_witness :
    translate 64 0 128 FAUST_UI_TYPE_NUMBER 0 10 0 =
      Min.min (0 : ℚ) 10 + ((snapped_raw 64 0 128 - 0 : Int) : ℚ) / ((128 - 0 : Int) : ℚ) *
        (Max.max (0 : ℚ) 10 - Min.min 0 10) :=
  (C15_translate_step 64 0 128 0 10 0 (by decide)).2.1 rfl

/-! ### `rtranslate` -/

/-- C16. For a raw range `rawMin < rawMax`, `rtranslate` returns `rawMin` when the
bounds of the control are equal; otherwise it returns the scaled value, rounded, and
clamped into `rawMin` to `rawMax - 1`. The result always lies in that range: 0 to 127
for 7-bit values and 0 to 16383 for pitch-wheel values. -/
theorem C16_rtranslate_range (z p_min p_max : ℚ) (rawMin rawMax : Int)
    (hraw : rawMin < rawMax) :
    (p_min = p_max → rtranslate z p_min p_max rawMin rawMax = rawMin) ∧
    (p_min ≠ p_max → rtranslate z p_min p_max rawMin rawMax =
      Max.max rawMin (Min.min (rawMax - 1)
        (c_round ((z - p_min) / (p_max - p_min) * ((rawMax - rawMin : Int) : ℚ))))) ∧
    rawMin ≤ rtranslate z p_min p_max rawMin rawMax ∧
    rtranslate z p_min p_max rawMin rawMax ≤ rawMax - 1 ∧
    (0 ≤ rtranslate z p_min p_max 0 128 ∧ rtranslate z p_min p_max 0 128 ≤ 127) ∧
    (0 ≤ rtranslate z p_min p_max 0 16384 ∧ rtranslate z p_min p_max 0 16384 ≤ 16383) := by
  have range : ∀ lo hi : Int, lo < hi →
      lo ≤ rtranslate z p_min p_max lo hi ∧ rtranslate z p_min p_max lo hi ≤ hi - 1 := by
    intro lo hi h
    unfold rtranslate
    simp only
    split_ifs <;> constructor <;> omega
  refine ⟨?_, ?_, (range rawMin rawMax hraw).1, (range rawMin rawMax hraw).2, ?_, ?_⟩
  · intro h
    unfold rtranslate
    rw [if_pos h]
  · intro h
    unfold rtranslate
    rw [if_neg h]
    simp only
    split_ifs with h1 h2 h3
    · omega
    · rw [min_eq_right (by omega), max_eq_left (by omega)]
    · rw [min_eq_left (by omega), max_eq_right (by omega)]
    · rw [min_eq_right (by omega), max_eq_right (by omega)]
  · have := range 0 128 (by decide)
    exact ⟨this.1, by omega⟩
  · have := range 0 16384 (by decide)
    exact ⟨this.1, by omega⟩

theorem C16_rtranslate_range_witness :
    rtranslate 5 3 3 0 128 = 0 ∧ rtranslate 5 0 1 0 128 ≤ 127 :=
  ⟨(C16_rtranslate_range 5 3 3 0 128 (by decide)).1 rfl,
    (C16_rtranslate_range 5 0 1 0 128 (by decide)).2.2.2.1⟩

/-- C17 (amended). For a Number range with `p_min < p_max`, the step 0, a raw range
from 0 to `N` (128 and 16384 among them) and a raw value from 0 to `N - 1`,
`rtranslate` gives back the raw value that `translate` was given. -/
theorem C17_round_trip (N raw : Int) (p_min p_max : ℚ) (hlt : p_min < p_max)
    (h0 : 0 ≤ raw) (h1 : raw ≤ N - 1) :
    rtranslate (translate raw 0 N FAUST_UI_TYPE_NUMBER p_min p_max 0) p_min p_max 0 N = raw ∧
    |rtranslate (translate raw 0 N FAUST_UI_TYPE_NUMBER p_min p_max 0) p_min p_max 0 N - raw|
      ≤ 1 := by
  have hN : (0 : Int) < N := by omega
  have hNq : ((N : Int) : ℚ) ≠ 0 := by
    have : N ≠ 0 := by omega
    exact_mod_cast this
  have hw : p_max - p_min ≠ 0 := by
    have : 0 < p_max - p_min := by linarith
    exact this.ne'
  have hsc : (translate raw 0 N FAUST_UI_TYPE_NUMBER p_min p_max 0 - p_min) / (p_max - p_min) *
      ((N - 0 : Int) : ℚ) = ((snapped_raw raw 0 N : Int) : ℚ) := by
    rw [translate_number_nostep, min_eq_left hlt.le, max_eq_right hlt.le, sub_zero, sub_zero,
      add_sub_cancel_left, mul_div_assoc, div_self hw, mul_one, div_mul_cancel₀ _ hNq]
  have main : rtranslate (translate raw 0 N FAUST_UI_TYPE_NUMBER p_min p_max 0)
      p_min p_max 0 N = raw := by
    unfold rtranslate
    rw [if_neg hlt.ne, hsc]
    simp only [c_round_int]
    unfold snapped_raw
    simp only
    split_ifs <;> omega
  refine ⟨main, ?_⟩
  rw [main, sub_self]
  decide

theorem C17_round_trip_witness :
    rtranslate (translate 127 0 128 FAUST_UI_TYPE_NUMBER 0 10 0) 0 10 0 128 = 127 :=
  (C17_round_trip 128 127 0 10 (by norm_num) (by decide) (by decide)).1

/-- C17, as stated, fails for a range with `p_min > p_max`: `translate` swaps the
bounds and `rtranslate` does not, so the raw value 0 comes back as 127. -/
theorem C17_counterexample_inverted_range :
    translate 0 0 128 FAUST_UI_TYPE_NUMBER 1 0 0 = 0 ∧
    rtranslate (translate 0 0 128 FAUST_UI_TYPE_NUMBER 1 0 0) 1 0 0 128 = 127 ∧
    ¬ |rtranslate (translate 0 0 128 FAUST_UI_TYPE_NUMBER 1 0 0) 1 0 0 128 - 0| ≤ 1 := by
  have h1 : translate 0 0 128 FAUST_UI_TYPE_NUMBER 1 0 0 = 0 := by
    rw [translate_number_nostep]
    have hs : snapped_raw 0 0 128 = 0 := by decide
    rw [hs]
    norm_num
  have h2 : rtranslate 0 1 0 0 128 = 127 := by
    unfold rtranslate
    rw [if_neg (by norm_num)]
    have e : ((0 : ℚ) - 1) / (0 - 1) * ((128 - 0 : Int) : ℚ) = ((128 : Int) : ℚ) := by norm_num
    simp only [e, c_round_int]
    decide
  refine ⟨h1, by rw [h1, h2], ?_⟩
  rw [h1, h2]
  decide

/-! ## Incoming MIDI messages -/

theorem midi_find_range (s : List Char) (k : Nat) (i : Int) :
    i ≤ midi_find s k i ∧ midi_find s k i ≤ i + k ∧
    (midi_find s k i < i + k → midi_sym_s (midi_find s k i) = s) ∧
    (∀ j, i ≤ j → j < midi_find s k i → midi_sym_s j ≠ s) := by
  induction k generalizing i with
  | zero =>
    refine ⟨le_refl _, by simp [midi_find], ?_, ?_⟩
    · intro h
      simp [midi_find] at h
    · intro j h1 h2
      simp only [midi_find] at h2
      omega
  | succ k ih =>
    rw [midi_find]
    by_cases h : s = midi_sym_s i
    · rw [if_pos h]
      refine ⟨le_refl _, by push_cast; omega, fun _ => h.symm, ?_⟩
      intro j h1 h2
      omega
    · rw [if_neg h]
      obtain ⟨a, b, c, d⟩ := ih (i + 1)
      refine ⟨by omega, by push_cast; omega, ?_, ?_⟩
      · intro h1
        exact c (by push_cast at h1; omega)
      · intro j h1 h2
        by_cases hj : j = i
        · rw [hj]
          exact fun e => h e.symm
        · exact d j (by omega) h2

theorem midi_find_eq (i : Int) (h1 : 1 ≤ i) (h2 : i ≤ 11) :
    midi_find (midi_sym_s i) 11 1 = i := by
  interval_cases i <;> decide

theorem midi_find_none (s : List Char) (h : ∀ i : Int, 1 ≤ i → i ≤ 11 → midi_sym_s i ≠ s) :
    midi_find s 11 1 = 12 := by
  obtain ⟨a, b, c, _⟩ := midi_find_range s 11 1
  by_contra hne
  have hlt : midi_find s 11 1 < 1 + (11 : Nat) := by
    push_cast at b ⊢
    omega
  exact h _ a (by push_cast at hlt; omega) (c hlt)

theorem midi_argc_range (i : Int) : 0 ≤ midi_argc i ∧ midi_argc i ≤ 2 := by
  unfold midi_argc
  split_ifs <;> decide

/-- The result of `faust_ui_manager_get_midi` for a message of the catalogue. -/
theorem get_midi_eq (mtof : Int → ℚ) (x : t_faust_ui_manager) (i : Int)
    (argv : List t_atom) (midichan : Int) (h1 : 1 ≤ i) (h2 : i ≤ 11) :
    faust_ui_manager_get_midi mtof x (midi_sym_s i) argv midichan =
      if (argv.length : Int) < midi_argc i then (x, MIDI_NONE)
      else if midi_argc i > 0 ∧ atom_float argv[0]? = none then (x, MIDI_NONE)
      else if midi_argc i > 1 ∧ atom_float argv[1]? = none then (x, MIDI_NONE)
      else if passes_filter midichan (message_channel argv i) then
        (midi_dispatch mtof x i
          (if midi_argc i > 0 then c_int ((atom_float argv[0]?).getD 0) else 0)
          (if midi_argc i > 1 then c_int ((atom_float argv[1]?).getD 0) else 0)
          (message_channel argv i), i)
      else (x, i) := by
  unfold faust_ui_manager_get_midi
  simp only [midi_find_eq i h1 h2]
  rw [if_pos (by unfold N_MIDI; omega)]
  by_cases c1 : (argv.length : Int) < midi_argc i
  · rw [if_pos c1, if_pos c1]
  rw [if_neg c1, if_neg c1]
  by_cases c2 : midi_argc i > 0 ∧ atom_float argv[0]? = none
  · rw [if_pos c2, if_pos c2]
  rw [if_neg c2, if_neg c2]
  by_cases c3 : midi_argc i > 1 ∧ atom_float argv[1]? = none
  · rw [if_pos c3, if_pos c3]
  rw [if_neg c3, if_neg c3]
  generalize midi_dispatch mtof x i
    (if midi_argc i > 0 then c_int ((atom_float argv[0]?).getD 0) else 0)
    (if midi_argc i > 1 then c_int ((atom_float argv[1]?).getD 0) else 0) = D
  have hneg : ∀ P : Prop, ¬ ((-1 : Int) ≥ 0 ∧ P) := fun P h => absurd h.1 (by decide)
  unfold message_channel passes_filter
  by_cases c4 : (argv.length : Int) > midi_argc i
  · simp only [if_pos c4]
    cases hf : atom_float argv[(midi_argc i).toNat]? with
    | none =>
      simp only
      rw [if_pos (hneg _)]
    | some f =>
      simp only
      by_cases c5 : c_int f ≥ 1
      · simp only [if_pos c5]
        by_cases c6 : midichan ≥ 0 ∧ c_int f - 1 ≠ midichan
        · rw [if_pos c6, if_neg (fun hn => hn ⟨by omega, Or.inl c6⟩)]
        · rw [if_neg c6]
          by_cases c7 : midichan < -1 ∧ c_int f - 1 = 9
          · rw [if_pos c7, if_neg (fun hn => hn ⟨by omega, Or.inr c7⟩)]
          · rw [if_neg c7, if_pos]
            rintro ⟨_, h | h⟩
            · exact c6 h
            · exact c7 h
      · simp only [if_neg c5]
        rw [if_pos (hneg _)]
  · simp only [if_neg c4]
    rw [if_pos (hneg _)]

theorem midi_argc_two (i : Int) (hi : midi_argc i = 2) :
    i = 1 ∨ i = 2 ∨ i = 3 ∨ i = 4 ∨ i = 5 := by
  unfold midi_argc at hi
  split_ifs at hi <;> omega

/-- One step of the binding scan for a message with two arguments. -/
theorem midi_apply_two (i num chan : Int) (c : t_faust_ui) (st : t_faust_ui_manager × Int)
    (b : t_faust_midi_ui) (hi : midi_argc i = 2) :
    midi_apply i num chan c st b =
      if b.msg = i ∧ (b.chan < 0 ∨ b.chan = chan) ∧ c.p_type ≠ FAUST_UI_TYPE_BARGRAPH then
        if b.num = num then
          ({ st.1 with
              zone_mem := write_zone st.1.zone_mem c.p_zone
                (translate st.2 0 128 c.p_type c.p_min c.p_max c.p_step),
              gui_out := gui_update st.1.gui_out
                (translate st.2 0 128 c.p_type c.p_min c.p_max c.p_step) c.p_uirecv }, st.2)
        else st
      else st := by
  have h9 : i ≠ MIDI_START := by
    rcases midi_argc_two i hi with h | h | h | h | h <;> rw [h] <;> decide
  have h10 : i ≠ MIDI_STOP := by
    rcases midi_argc_two i hi with h | h | h | h | h <;> rw [h] <;> decide
  have h11 : i ≠ MIDI_CLOCK := by
    rcases midi_argc_two i hi with h | h | h | h | h <;> rw [h] <;> decide
  have h8 : i ≠ MIDI_PITCHWHEEL := by
    rcases midi_argc_two i hi with h | h | h | h | h <;> rw [h] <;> decide
  have h1 : ¬ midi_argc i = 1 := by
    rw [hi]
    decide
  unfold midi_apply
  simp only [if_neg h9, if_neg h10, if_neg h11, if_neg h8, if_neg h1]

/-- The scan of the bindings of one control, for a message with two arguments: the
value of the message is kept, and the cell of the control is written when a binding
applies. -/
theorem midi_bindings_two (i num chan : Int) (c : t_faust_ui) (hi : midi_argc i = 2)
    (bs : List t_faust_midi_ui) (st : t_faust_ui_manager × Int) :
    (bs.foldl (midi_apply i num chan c) st).2 = st.2 ∧
    (bs.foldl (midi_apply i num chan c) st).1.f_uis = st.1.f_uis ∧
    (∀ z, z ≠ c.p_zone →
      (bs.foldl (midi_apply i num chan c) st).1.zone_mem z = st.1.zone_mem z) ∧
    ((c.p_type ≠ FAUST_UI_TYPE_BARGRAPH ∧
        ∃ b ∈ bs, b.msg = i ∧ b.num = num ∧ (b.chan < 0 ∨ b.chan = chan)) →
      (bs.foldl (midi_apply i num chan c) st).1.zone_mem c.p_zone =
        translate st.2 0 128 c.p_type c.p_min c.p_max c.p_step) ∧
    (¬ (c.p_type ≠ FAUST_UI_TYPE_BARGRAPH ∧
        ∃ b ∈ bs, b.msg = i ∧ b.num = num ∧ (b.chan < 0 ∨ b.chan = chan)) →
      (bs.foldl (midi_apply i num chan c) st).1.zone_mem c.p_zone =
        st.1.zone_mem c.p_zone) := by
  induction bs generalizing st with
  | nil =>
    refine ⟨rfl, rfl, fun _ _ => rfl, ?_, fun _ => rfl⟩
    rintro ⟨_, b, hb, _⟩
    simp at hb
  | cons b bs ih =>
    rw [List.foldl_cons]
    obtain ⟨i1, i2, i3, i4, i5⟩ := ih (midi_apply i num chan c st b)
    have hstep := midi_apply_two i num chan c st b hi
    by_cases hm : (b.msg = i ∧ (b.chan < 0 ∨ b.chan = chan) ∧
        c.p_type ≠ FAUST_UI_TYPE_BARGRAPH) ∧ b.num = num
    · rw [if_pos hm.1, if_pos hm.2] at hstep
      have hex : c.p_type ≠ FAUST_UI_TYPE_BARGRAPH ∧
          ∃ b' ∈ b :: bs, b'.msg = i ∧ b'.num = num ∧ (b'.chan < 0 ∨ b'.chan = chan) :=
        ⟨hm.1.2.2, b, List.mem_cons_self _ _, hm.1.1, hm.2, hm.1.2.1⟩
      have hz : (midi_apply i num chan c st b).1.zone_mem c.p_zone =
          translate st.2 0 128 c.p_type c.p_min c.p_max c.p_step := by
        rw [hstep]
        simp [write_zone]
      have h2 : (midi_apply i num chan c st b).2 = st.2 := by rw [hstep]
      refine ⟨i1.trans h2, i2.trans (by rw [hstep]), ?_, ?_, fun hn => absurd hex hn⟩
      · intro z hz'
        rw [i3 z hz', hstep]
        simp [write_zone, hz']
      · intro _
        by_cases hrest : c.p_type ≠ FAUST_UI_TYPE_BARGRAPH ∧
            ∃ b ∈ bs, b.msg = i ∧ b.num = num ∧ (b.chan < 0 ∨ b.chan = chan)
        · rw [i4 hrest, h2]
        · rw [i5 hrest, hz]
    · have hstep2 : midi_apply i num chan c st b = st := by
        rw [hstep]
        by_cases h1 : b.msg = i ∧ (b.chan < 0 ∨ b.chan = chan) ∧
            c.p_type ≠ FAUST_UI_TYPE_BARGRAPH
        · rw [if_pos h1, if_neg (fun h => hm ⟨h1, h⟩)]
        · rw [if_neg h1]
      rw [hstep2] at i1 i2 i3 i4 i5 ⊢
      have hiff : (c.p_type ≠ FAUST_UI_TYPE_BARGRAPH ∧
          ∃ b' ∈ b :: bs, b'.msg = i ∧ b'.num = num ∧ (b'.chan < 0 ∨ b'.chan = chan)) ↔
          (c.p_type ≠ FAUST_UI_TYPE_BARGRAPH ∧
          ∃ b' ∈ bs, b'.msg = i ∧ b'.num = num ∧ (b'.chan < 0 ∨ b'.chan = chan)) := by
        constructor
        · rintro ⟨ht, b', hb', h1, h2, h3⟩
          rcases List.mem_cons.1 hb' with e | e
          · exact absurd ⟨⟨e ▸ h1, e ▸ h3, ht⟩, e ▸ h2⟩ hm
          · exact ⟨ht, b', e, h1, h2, h3⟩
        · rintro ⟨ht, b', hb', h⟩
          exact ⟨ht, b', List.mem_cons_of_mem _ hb', h⟩
      exact ⟨i1, i2, i3, fun h => i4 (hiff.1 h), fun h => i5 (fun h2 => h (hiff.2 h2))⟩

/-- The binding scan for a message with two arguments: a cell that is not the cell of
a control with a binding that applies keeps its value. -/
theorem midi_scan_two_frame (i num chan : Int) (hi : midi_argc i = 2) (uis : List t_faust_ui)
    (st : t_faust_ui_manager × Int) :
    (midi_scan i num chan uis st).2 = st.2 ∧
    ∀ z, (∀ c ∈ uis, binding_applies i num chan c → c.p_zone ≠ z) →
      (midi_scan i num chan uis st).1.zone_mem z = st.1.zone_mem z := by
  unfold midi_scan
  induction uis generalizing st with
  | nil => exact ⟨rfl, fun _ _ => rfl⟩
  | cons d rest ih =>
    rw [List.foldl_cons]
    obtain ⟨j1, j2⟩ := ih (d.p_midi.foldl (midi_apply i num chan d) st)
    obtain ⟨k1, _, k3, _, k5⟩ := midi_bindings_two i num chan d hi d.p_midi st
    refine ⟨j1.trans k1, ?_⟩
    intro z hz
    rw [j2 z (fun c hc => hz c (List.mem_cons_of_mem _ hc))]
    by_cases hzd : z = d.p_zone
    · rw [hzd]
      apply k5
      intro happ
      exact hz d (List.mem_cons_self _ _) happ hzd.symm
    · exact k3 z hzd

/-- The binding scan for a message with two arguments, over controls with cells of
their own: the cell of a control with a binding that applies holds the translated
value of the message. -/
theorem midi_scan_two_applied (i num chan : Int) (hi : midi_argc i = 2)
    (uis : List t_faust_ui) (st : t_faust_ui_manager × Int)
    (hzones : uis.Pairwise fun c d => c.p_zone ≠ d.p_zone) :
    ∀ c ∈ uis, binding_applies i num chan c →
      (midi_scan i num chan uis st).1.zone_mem c.p_zone =
        translate st.2 0 128 c.p_type c.p_min c.p_max c.p_step := by
  induction uis generalizing st with
  | nil =>
    intro c hc
    simp at hc
  | cons d rest ih =>
    intro c hc happ
    obtain ⟨hd, hrest⟩ := List.pairwise_cons.1 hzones
    obtain ⟨k1, _, _, k4, _⟩ := midi_bindings_two i num chan d hi d.p_midi st
    have hscan : midi_scan i num chan (d :: rest) st =
        midi_scan i num chan rest (d.p_midi.foldl (midi_apply i num chan d) st) := by
      unfold midi_scan
      rw [List.foldl_cons]
    rw [hscan]
    rcases List.mem_cons.1 hc with e | e
    · rw [e]
      rw [(midi_scan_two_frame i num chan hi rest _).2 d.p_zone
        (fun c' hc' _ => (hd c' hc').symm)]
      exact k4 (e ▸ happ)
    · rw [ih _ hrest c e happ, k1]

theorem write_ctl_f_uis (x : t_faust_ui_manager) (c : Option Nat) (v : ℚ) :
    (write_ctl x c v).f_uis = x.f_uis := (write_ctl_fields x c v).1

theorem voices_noteon_f_uis (mtof : Int → ℚ) (x : t_faust_ui_manager) (num val chan : Int) :
    (voices_noteon mtof x num val chan).f_uis = x.f_uis := by
  unfold voices_noteon
  simp only
  by_cases hf : x.f_free = []
  · rw [if_pos hf]
    cases hu : x.f_used with
    | nil => rfl
    | cons u used =>
      simp only
      split
      · rw [write_ctl_f_uis, write_ctl_f_uis, write_ctl_f_uis]
      · rfl
  · rw [if_neg hf]
    simp only
    split
    · rfl
    · split
      · rw [write_ctl_f_uis, write_ctl_f_uis, write_ctl_f_uis]
      · rfl

theorem voices_noteoff_f_uis (x : t_faust_ui_manager) (num chan : Int) :
    (voices_noteoff x num chan).f_uis = x.f_uis := by
  unfold voices_noteoff
  split
  · simp only
    rw [write_ctl_f_uis]
  · rfl

theorem midi_voices_f_uis (mtof : Int → ℚ) (x : t_faust_ui_manager) (i num val chan : Int) :
    (midi_voices mtof x i num val chan).f_uis = x.f_uis := by
  unfold midi_voices
  split_ifs
  · exact voices_noteon_f_uis mtof x num val chan
  · exact voices_noteoff_f_uis x num chan
  · rfl

theorem atom_float_none (argv : List t_atom) (j : Nat) (hj : j < argv.length) :
    atom_float argv[j]? = none ↔ ∃ a, argv[j]? = some a ∧ ∀ f, a ≠ .A_FLOAT f := by
  rw [List.getElem?_eq_getElem hj]
  constructor
  · intro h
    refine ⟨argv[j], rfl, ?_⟩
    intro f e
    rw [e] at h
    simp [atom_float] at h
  · rintro ⟨a, ha, hf⟩
    simp only [Option.some.injEq] at ha
    rw [ha]
    cases a with
    | A_FLOAT f => exact absurd rfl (hf f)
    | A_SYMBOL s => rfl

/-- C18. The function `faust_ui_manager_get_midi` returns `MIDI_NONE` exactly when
the name of the message is none of the eleven names of the catalogue, or the message
has fewer arguments than `midi_argc` requires, or one of the required arguments is
not a float. When it returns `MIDI_NONE` the registry, with its control values and its
voices, is left as it was; otherwise it returns the index of the message in the
catalogue. -/
theorem C18_get_midi_none (mtof : Int → ℚ) (x : t_faust_ui_manager) (s : List Char)
    (argv : List t_atom) (midichan : Int) :
    ((faust_ui_manager_get_midi mtof x s argv midichan).2 = MIDI_NONE ↔
      ((∀ i : Int, 1 ≤ i → i ≤ 11 → midi_sym_s i ≠ s) ∨
        ∃ i : Int, 1 ≤ i ∧ i ≤ 11 ∧ midi_sym_s i = s ∧
          ((argv.length : Int) < midi_argc i ∨
            ∃ j : Nat, (j : Int) < midi_argc i ∧
              ∃ a, argv[j]? = some a ∧ ∀ f, a ≠ .A_FLOAT f))) ∧
    ((faust_ui_manager_get_midi mtof x s argv midichan).2 = MIDI_NONE →
      (faust_ui_manager_get_midi mtof x s argv midichan).1 = x) ∧
    ((faust_ui_manager_get_midi mtof x s argv midichan).2 ≠ MIDI_NONE →
      1 ≤ (faust_ui_manager_get_midi mtof x s argv midichan).2 ∧
      (faust_ui_manager_get_midi mtof x s argv midichan).2 ≤ 11 ∧
      midi_sym_s (faust_ui_manager_get_midi mtof x s argv midichan).2 = s) := by
  by_cases hcat : ∀ i : Int, 1 ≤ i → i ≤ 11 → midi_sym_s i ≠ s
  · -- not a name of the catalogue
    have hr : faust_ui_manager_get_midi mtof x s argv midichan = (x, MIDI_NONE) := by
      unfold faust_ui_manager_get_midi
      simp only [midi_find_none s hcat]
      rw [if_neg (by decide)]
    rw [hr]
    exact ⟨⟨fun _ => Or.inl hcat, fun _ => rfl⟩, fun _ => rfl, fun h => absurd rfl h⟩
  · push_neg at hcat
    obtain ⟨i, h1, h2, hs⟩ := hcat
    have harg := midi_argc_range i
    have hi0 : i ≠ MIDI_NONE := by
      unfold MIDI_NONE
      omega
    -- the bad-argument condition of the statement, for the index `i`
    have hbad : ((argv.length : Int) < midi_argc i ∨
        ∃ j : Nat, (j : Int) < midi_argc i ∧ ∃ a, argv[j]? = some a ∧ ∀ f, a ≠ .A_FLOAT f) ↔
        ((argv.length : Int) < midi_argc i ∨
          (midi_argc i > 0 ∧ atom_float argv[0]? = none) ∨
          (midi_argc i > 1 ∧ atom_float argv[1]? = none)) := by
      by_cases c1 : (argv.length : Int) < midi_argc i
      · exact ⟨fun _ => Or.inl c1, fun _ => Or.inl c1⟩
      constructor
      · rintro (h | ⟨j, hj, hex⟩)
        · exact Or.inl h
        · have hjl : j < argv.length := by omega
          have hn := (atom_float_none argv j hjl).2 hex
          have hj01 : j = 0 ∨ j = 1 := by omega
          rcases hj01 with e | e
          · subst e
            exact Or.inr (Or.inl ⟨by omega, hn⟩)
          · subst e
            exact Or.inr (Or.inr ⟨by omega, hn⟩)
      · rintro (h | ⟨h, hn⟩ | ⟨h, hn⟩)
        · exact Or.inl h
        · exact Or.inr ⟨0, by omega, (atom_float_none argv 0 (by omega)).1 hn⟩
        · exact Or.inr ⟨1, by omega, (atom_float_none argv 1 (by omega)).1 hn⟩
    have huniq : ∀ k : Int, 1 ≤ k → k ≤ 11 → midi_sym_s k = s → k = i := by
      intro k k1 k2 ks
      rw [← midi_find_eq k k1 k2, ← midi_find_eq i h1 h2, ks, hs]
    have hr := get_midi_eq mtof x i argv midichan h1 h2
    rw [hs] at hr
    rw [hr]
    by_cases c1 : (argv.length : Int) < midi_argc i
    · rw [if_pos c1]
      exact ⟨⟨fun _ => Or.inr ⟨i, h1, h2, hs, Or.inl c1⟩, fun _ => rfl⟩, fun _ => rfl,
        fun h => absurd rfl h⟩
    rw [if_neg c1]
    by_cases c2 : midi_argc i > 0 ∧ atom_float argv[0]? = none
    · rw [if_pos c2]
      exact ⟨⟨fun _ => Or.inr ⟨i, h1, h2, hs, hbad.2 (Or.inr (Or.inl c2))⟩, fun _ => rfl⟩,
        fun _ => rfl, fun h => absurd rfl h⟩
    rw [if_neg c2]
    by_cases c3 : midi_argc i > 1 ∧ atom_float argv[1]? = none
    · rw [if_pos c3]
      exact ⟨⟨fun _ => Or.inr ⟨i, h1, h2, hs, hbad.2 (Or.inr (Or.inr c3))⟩, fun _ => rfl⟩,
        fun _ => rfl, fun h => absurd rfl h⟩
    rw [if_neg c3]
    have hgood : ¬ ((∀ k : Int, 1 ≤ k → k ≤ 11 → midi_sym_s k ≠ s) ∨
        ∃ k : Int, 1 ≤ k ∧ k ≤ 11 ∧ midi_sym_s k = s ∧
          ((argv.length : Int) < midi_argc k ∨
            ∃ j : Nat, (j : Int) < midi_argc k ∧
              ∃ a, argv[j]? = some a ∧ ∀ f, a ≠ .A_FLOAT f)) := by
      rintro (h | ⟨k, k1, k2, ks, hb⟩)
      · exact h i h1 h2 hs
      · rw [huniq k k1 k2 ks] at hb
        rcases hbad.1 hb with h | h | h
        · exact c1 h
        · exact c2 h
        · exact c3 h
    by_cases c4 : passes_filter midichan (message_channel argv i)
    · rw [if_pos c4]
      exact ⟨⟨fun h => absurd h hi0, fun h => absurd h hgood⟩, fun h => absurd h hi0,
        fun _ => ⟨h1, h2, hs⟩⟩
    · rw [if_neg c4]
      exact ⟨⟨fun h => absurd h hi0, fun h => absurd h hgood⟩, fun h => absurd h hi0,
        fun _ => ⟨h1, h2, hs⟩⟩

theorem C18_get_midi_none_witness :
    (faust_ui_manager_get_midi (fun _ => 440) ctrl_state "ctl".toList
      [.A_FLOAT 64, .A_SYMBOL "x".toList] (-1)).1 = ctrl_state :=
  (C18_get_midi_none (fun _ => 440) ctrl_state "ctl".toList
    [.A_FLOAT 64, .A_SYMBOL "x".toList] (-1)).2.1 (by decide)

/-- C19. A message of the catalogue with its required float arguments and a trailing
float channel `f` that truncates to `c` with `c ≥ 1` is swallowed when the filter
`midichan` is at least 0 and differs from `c - 1`, and when `midichan` is below -1 and
`c - 1` is 9: `faust_ui_manager_get_midi` returns the index of the message, which is not
`MIDI_NONE`, and leaves the registry, with its control values and voice chains, as it
was. -/
theorem C19_channel_filter (mtof : Int → ℚ) (x : t_faust_ui_manager) (i : Int)
    (argv : List t_atom) (midichan : Int) (f : ℚ)
    (h1 : 1 ≤ i) (h2 : i ≤ 11)
    (hreq : ∀ j : Nat, (j : Int) < midi_argc i → ∃ g, argv[j]? = some (.A_FLOAT g))
    (hchan : argv[(midi_argc i).toNat]? = some (.A_FLOAT f))
    (hc : 1 ≤ c_int f)
    (hfilter : (0 ≤ midichan ∧ c_int f - 1 ≠ midichan) ∨ (midichan < -1 ∧ c_int f - 1 = 9)) :
    faust_ui_manager_get_midi mtof x (midi_sym_s i) argv midichan = (x, i) ∧
    i ≠ MIDI_NONE ∧
    (faust_ui_manager_get_midi mtof x (midi_sym_s i) argv midichan).1.zone_mem = x.zone_mem ∧
    (faust_ui_manager_get_midi mtof x (midi_sym_s i) argv midichan).1.f_free = x.f_free ∧
    (faust_ui_manager_get_midi mtof x (midi_sym_s i) argv midichan).1.f_used = x.f_used := by
  have harg := midi_argc_range i
  have hlen : (midi_argc i).toNat < argv.length := by
    by_contra hn
    rw [List.getElem?_eq_none (by omega)] at hchan
    exact absurd hchan (by simp)
  have c1 : ¬ (argv.length : Int) < midi_argc i := by omega
  have c2 : ¬ (midi_argc i > 0 ∧ atom_float argv[0]? = none) := by
    rintro ⟨h, hn⟩
    obtain ⟨g, hg⟩ := hreq 0 (by omega)
    rw [hg] at hn
    simp [atom_float] at hn
  have c3 : ¬ (midi_argc i > 1 ∧ atom_float argv[1]? = none) := by
    rintro ⟨h, hn⟩
    obtain ⟨g, hg⟩ := hreq 1 (by omega)
    rw [hg] at hn
    simp [atom_float] at hn
  have hmc : message_channel argv i = c_int f - 1 := by
    unfold message_channel
    rw [if_pos (by omega), hchan]
    simp only [atom_float]
    rw [if_pos hc]
  have c4 : ¬ passes_filter midichan (message_channel argv i) := by
    rw [hmc]
    unfold passes_filter
    intro hn
    exact hn ⟨by omega, hfilter⟩
  have hr : faust_ui_manager_get_midi mtof x (midi_sym_s i) argv midichan = (x, i) := by
    rw [get_midi_eq mtof x i argv midichan h1 h2, if_neg c1, if_neg c2, if_neg c3, if_neg c4]
  refine ⟨hr, ?_, ?_, ?_, ?_⟩
  · unfold MIDI_NONE
    omega
  · rw [hr]
  · rw [hr]
  · rw [hr]

theorem C19_channel_filter_witness :
    faust_ui_manager_get_midi (fun _ => 440) ctrl_state (midi_sym_s 1)
      [.A_FLOAT 64, .A_FLOAT 7, .A_FLOAT 5] 0 = (ctrl_state, 1) :=
  (C19_channel_filter (fun _ => 440) ctrl_state 1 [.A_FLOAT 64, .A_FLOAT 7, .A_FLOAT 5] 0 5
    (by decide) (by decide)
    (by
      intro j hj
      have hj2 : j < 2 := by
        have : midi_argc 1 = 2 := by decide
        omega
      interval_cases j
      · exact ⟨64, rfl⟩
      · exact ⟨7, rfl⟩)
    rfl (by decide) (Or.inl (by decide))).1

/-- C20 (amended). Take a message with two arguments (ctl, noteon, noteoff, note,
polytouch) that passes the channel filter, and a registry whose controls have cells of
their own. A binding of that message type is applied only if its stored number equals
the number of the message (second field for ctl and polytouch, first field for the
note messages) and its channel is negative or equals the channel of the message: every
control that is not a Bargraph and has such a binding gets the value
`translate value 0 128 kind min max step`, and a control without such a binding keeps
the value it has after the note was routed to the voices (the value it had before, when
the message is not a note or there are no voices). -/
theorem C20_two_argument_match (mtof : Int → ℚ) (x : t_faust_ui_manager) (i : Int)
    (a b : ℚ) (rest : List t_atom) (midichan num val : Int)
    (hi : i = MIDI_CTRL ∨ i = MIDI_KEYON ∨ i = MIDI_KEYOFF ∨ i = MIDI_KEY ∨ i = MIDI_KEYPRESS)
    (hnum : num = if i = MIDI_CTRL ∨ i = MIDI_KEYPRESS then c_int b else c_int a)
    (hval : val = if i = MIDI_CTRL ∨ i = MIDI_KEYPRESS then c_int a else c_int b)
    (hpass : passes_filter midichan (message_channel (.A_FLOAT a :: .A_FLOAT b :: rest) i))
    (hzones : x.f_uis.Pairwise fun c d => c.p_zone ≠ d.p_zone) :
    (faust_ui_manager_get_midi mtof x (midi_sym_s i)
      (.A_FLOAT a :: .A_FLOAT b :: rest) midichan).2 = i ∧
    (∀ c ∈ x.f_uis,
      binding_applies i num (message_channel (.A_FLOAT a :: .A_FLOAT b :: rest) i) c →
      (faust_ui_manager_get_midi mtof x (midi_sym_s i)
        (.A_FLOAT a :: .A_FLOAT b :: rest) midichan).1.zone_mem c.p_zone =
        translate val 0 128 c.p_type c.p_min c.p_max c.p_step) ∧
    (∀ c ∈ x.f_uis,
      ¬ binding_applies i num (message_channel (.A_FLOAT a :: .A_FLOAT b :: rest) i) c →
      (faust_ui_manager_get_midi mtof x (midi_sym_s i)
        (.A_FLOAT a :: .A_FLOAT b :: rest) midichan).1.zone_mem c.p_zone =
        (midi_voices mtof x i num val
          (message_channel (.A_FLOAT a :: .A_FLOAT b :: rest) i)).zone_mem c.p_zone) ∧
    ((i ≠ MIDI_KEY ∨ x.f_voices = []) →
      midi_voices mtof x i num val
        (message_channel (.A_FLOAT a :: .A_FLOAT b :: rest) i) = x) := by
  have h1 : 1 ≤ i := by
    rcases hi with h | h | h | h | h <;> rw [h] <;> decide
  have h2 : i ≤ 11 := by
    rcases hi with h | h | h | h | h <;> rw [h] <;> decide
  have hargc : midi_argc i = 2 := by
    rcases hi with h | h | h | h | h <;> rw [h] <;> decide
  have hswap : (i = MIDI_KEY ∨ i = MIDI_KEYON ∨ i = MIDI_KEYOFF) ↔
      ¬ (i = MIDI_CTRL ∨ i = MIDI_KEYPRESS) := by
    rcases hi with h | h | h | h | h <;> rw [h] <;> decide
  have hr := get_midi_eq mtof x i (.A_FLOAT a :: .A_FLOAT b :: rest) midichan h1 h2
  rw [if_neg, if_neg, if_neg, if_pos hpass] at hr
  rotate_left
  · rw [hargc]
    simp [atom_float]
  · rw [hargc]
    simp [atom_float]
  · rw [hargc]
    simp only [List.length_cons]
    push_cast
    omega
  rw [hargc] at hr
  simp only [gt_iff_lt, show (0 : Int) < 2 by decide, show (1 : Int) < 2 by decide, if_true,
    List.getElem?_cons_zero, List.getElem?_cons_succ, atom_float, Option.getD_some] at hr
  have hd : midi_dispatch mtof x i (c_int a) (c_int b)
      (message_channel (.A_FLOAT a :: .A_FLOAT b :: rest) i) =
      (midi_scan i num (message_channel (.A_FLOAT a :: .A_FLOAT b :: rest) i) x.f_uis
        (midi_voices mtof x i num val
          (message_channel (.A_FLOAT a :: .A_FLOAT b :: rest) i), val)).1 := by
    unfold midi_dispatch
    simp only
    by_cases hsw : i = MIDI_KEY ∨ i = MIDI_KEYON ∨ i = MIDI_KEYOFF
    · rw [if_neg (hswap.1 hsw)] at hnum hval
      simp only [if_pos hsw]
      rw [← hnum, ← hval, midi_voices_f_uis]
    · have hc : i = MIDI_CTRL ∨ i = MIDI_KEYPRESS := by
        by_contra hn
        exact hsw (hswap.2 hn)
      rw [if_pos hc] at hnum hval
      simp only [if_neg hsw]
      rw [← hnum, ← hval, midi_voices_f_uis]
  rw [hr]
  simp only
  rw [hd]
  refine ⟨trivial, ?_, ?_, ?_⟩
  · intro c hc happ
    exact midi_scan_two_applied i num _ hargc x.f_uis _ hzones c hc happ
  · intro c hc happ
    apply (midi_scan_two_frame i num _ hargc x.f_uis _).2
    intro d hd' happd hz
    by_cases hdc : d = c
    · rw [hdc] at happd
      exact happ happd
    · obtain ⟨k, hk⟩ := List.getElem_of_mem hd'
      obtain ⟨hk, hkd⟩ := hk
      obtain ⟨l, hl, hlc⟩ := List.getElem_of_mem hc
      have hkl : k ≠ l := by
        intro e
        subst e
        exact hdc (hkd.symm.trans hlc)
      rcases Nat.lt_or_gt_of_ne hkl with h | h
      · have := List.pairwise_iff_getElem.1 hzones k l hk hl h
        rw [hkd, hlc] at this
        exact this hz
      · have := List.pairwise_iff_getElem.1 hzones l k hl hk h
        rw [hkd, hlc] at this
        exact this hz.symm
  · intro h
    unfold midi_voices
    rw [if_neg]
    rintro ⟨hv, hk⟩
    rcases h with h | h
    · exact h hk
    · exact hv h

theorem C20_two_argument_match_witness :
    (faust_ui_manager_get_midi (fun _ => 440) ctrl_state (midi_sym_s MIDI_CTRL)
      [.A_FLOAT 64, .A_FLOAT 7, .A_FLOAT 4] (-1)).2 = MIDI_CTRL ∧
    ∀ c ∈ ctrl_state.f_uis,
      binding_applies MIDI_CTRL 7
        (message_channel [.A_FLOAT 64, .A_FLOAT 7, .A_FLOAT 4] MIDI_CTRL) c →
      (faust_ui_manager_get_midi (fun _ => 440) ctrl_state (midi_sym_s MIDI_CTRL)
        [.A_FLOAT 64, .A_FLOAT 7, .A_FLOAT 4] (-1)).1.zone_mem c.p_zone =
        translate 64 0 128 c.p_type c.p_min c.p_max c.p_step :=
  ⟨(C20_two_argument_match (fun _ => 440) ctrl_state MIDI_CTRL 64 7 [.A_FLOAT 4] (-1) 7 64
      (Or.inl rfl) (by decide) (by decide) (by decide) (by decide)).1,
    (C20_two_argument_match (fun _ => 440) ctrl_state MIDI_CTRL 64 7 [.A_FLOAT 4] (-1) 7 64
      (Or.inl rfl) (by decide) (by decide) (by decide) (by decide)).2.1⟩

/-- C20, as stated, fails for a binding with a channel: the control "vol" is bound
to controller 7 on channel 3, the message `ctl 64 7 5` (controller 7, channel 4 counted
from 0) passes the filter, the number of the binding equals the number of the
message, and "vol" keeps the value 0 instead of `translate 64 0 128 kind 0 127 0`. -/
theorem C20_counterexample_binding_channel :
    (ctrl_state.f_uis.map fun c => (c.p_name, c.p_zone, c.p_type, c.p_midi)) =
      [("vol".toList, 1, FAUST_UI_TYPE_NUMBER,
          [{ msg := MIDI_CTRL, num := 7, chan := 3, val := -1 }]),
        ("pan".toList, 2, FAUST_UI_TYPE_NUMBER,
          [{ msg := MIDI_CTRL, num := 7, chan := -1, val := -1 }])] ∧
    (faust_ui_manager_get_midi (fun _ => 440) ctrl_state "ctl".toList
      [.A_FLOAT 64, .A_FLOAT 7, .A_FLOAT 5] (-1)).2 = MIDI_CTRL ∧
    (faust_ui_manager_get_midi (fun _ => 440) ctrl_state "ctl".toList
      [.A_FLOAT 64, .A_FLOAT 7, .A_FLOAT 5] (-1)).1.zone_mem 1 = 0 ∧
    translate 64 0 128 FAUST_UI_TYPE_NUMBER 0 127 0 = 127 / 2 ∧
    (faust_ui_manager_get_midi (fun _ => 440) ctrl_state "ctl".toList
      [.A_FLOAT 64, .A_FLOAT 7, .A_FLOAT 5] (-1)).1.zone_mem 1 ≠
      translate 64 0 128 FAUST_UI_TYPE_NUMBER 0 127 0 := by
  have ht : translate 64 0 128 FAUST_UI_TYPE_NUMBER 0 127 0 = 127 / 2 := by
    rw [translate_number_nostep]
    have hs : snapped_raw 64 0 128 = 64 := by decide
    rw [hs]
    norm_num
  have hz : (faust_ui_manager_get_midi (fun _ => 440) ctrl_state "ctl".toList
      [.A_FLOAT 64, .A_FLOAT 7, .A_FLOAT 5] (-1)).1.zone_mem 1 = 0 := by decide
  refine ⟨by decide, by decide, hz, ht, ?_⟩
  rw [hz, ht]
  norm_num

/-! ## Program changes and outgoing messages -/

/-- C21. At the program change `pgm 2` with two Toggle controls bound to program
changes, the first control gets `translate (2 - 1) 0 128 ..`, which is 1, and the second
gets 0: `val` is decremented once for every matching binding of the scan. -/
theorem C21_pgm_decrements_twice :
    (pgm_state.f_uis.map fun c => (c.p_name, c.p_type, c.p_zone, c.p_midi.map fun b => b.msg)) =
      [("a".toList, FAUST_UI_TYPE_TOGGLE, 1, [MIDI_PGM]),
        ("b".toList, FAUST_UI_TYPE_TOGGLE, 2, [MIDI_PGM])] ∧
    (faust_ui_manager_get_midi (fun _ => 440) pgm_state "pgm".toList [.A_FLOAT 2] (-1)).2 =
      MIDI_PGM ∧
    translate (2 - 1) 0 128 FAUST_UI_TYPE_TOGGLE 0 1 1 = 1 ∧
    (faust_ui_manager_get_midi (fun _ => 440) pgm_state "pgm".toList
      [.A_FLOAT 2] (-1)).1.zone_mem 1 = 1 ∧
    (faust_ui_manager_get_midi (fun _ => 440) pgm_state "pgm".toList
      [.A_FLOAT 2] (-1)).1.zone_mem 2 = 0 := by
  decide

/-! ### Outgoing messages -/

theorem midiout_switch_congr (mem mem1 : Nat → ℚ) (c c1 : t_faust_ui) (b b1 : t_faust_midi_ui)
    (hz : mem1 c1.p_zone = mem c.p_zone) (hmin : c1.p_min = c.p_min) (hmax : c1.p_max = c.p_max)
    (hmsg : b1.msg = b.msg) (hnum : b1.num = b.num) (hchan : b1.chan = b.chan) :
    midiout_switch mem1 c1 b1 = midiout_switch mem c b := by
  unfold midiout_switch
  rw [hz, hmin, hmax, hmsg, hnum, hchan]

theorem midiout_binding_fields (mem : Nat → ℚ) (midichan : Int) (c : t_faust_ui)
    (b : t_faust_midi_ui) :
    (midiout_binding mem midichan c b).1.msg = b.msg ∧
    (midiout_binding mem midichan c b).1.num = b.num ∧
    (midiout_binding mem midichan c b).1.chan = b.chan := by
  unfold midiout_binding
  split
  · split_ifs <;> exact ⟨rfl, rfl, rfl⟩
  · exact ⟨rfl, rfl, rfl⟩

/-- What one binding sends and stores. -/
theorem midiout_binding_cases (mem : Nat → ℚ) (midichan : Int) (c : t_faust_ui)
    (b : t_faust_midi_ui) :
    ((midiout_binding mem midichan c b).2 ≠ none →
      (midiout_switch mem c b).val ≠ b.val ∧
      (midiout_binding mem midichan c b).1 = { b with val := (midiout_switch mem c b).val }) ∧
    ((midiout_binding mem midichan c b).2 = none → (midiout_binding mem midichan c b).1 = b) := by
  unfold midiout_binding
  split
  · split_ifs with h
    · exact ⟨fun _ => ⟨h, rfl⟩, fun h2 => absurd h2 (by simp)⟩
    · exact ⟨fun h2 => absurd rfl h2, fun _ => rfl⟩
  · exact ⟨fun h2 => absurd rfl h2, fun _ => rfl⟩

/-- A binding that was just processed sends nothing when it is processed again with
the same value in the cell. -/
theorem midiout_binding_again (mem mem1 : Nat → ℚ) (midichan midichan1 : Int)
    (c c1 : t_faust_ui) (b : t_faust_midi_ui)
    (hz : mem1 c1.p_zone = mem c.p_zone) (hmin : c1.p_min = c.p_min)
    (hmax : c1.p_max = c.p_max) :
    midiout_binding mem1 midichan1 c1 (midiout_binding mem midichan c b).1 =
      ((midiout_binding mem midichan c b).1, none) := by
  obtain ⟨f1, f2, f3⟩ := midiout_binding_fields mem midichan c b
  have hsw := midiout_switch_congr mem mem1 c c1 b (midiout_binding mem midichan c b).1
    hz hmin hmax f1 f2 f3
  have hval : (midiout_switch mem c b).s ≠ none →
      (midiout_binding mem midichan c b).1.val = (midiout_switch mem c b).val := by
    intro hs
    unfold midiout_binding
    split
    · split_ifs with h
      · rfl
      · simp only
        by_contra hne
        exact h (fun e => hne e.symm)
    · rename_i hnone
      exact absurd hnone hs
  rw [midiout_binding, hsw]
  cases hs : (midiout_switch mem c b).s with
  | none => rfl
  | some s =>
    simp only
    rw [if_neg]
    rw [hval (by rw [hs]; simp)]
    exact fun h => h rfl

theorem midiout_control_fields (mem : Nat → ℚ) (midichan : Int) (c : t_faust_ui) :
    (midiout_control mem midichan c).1.p_type = c.p_type ∧
    (midiout_control mem midichan c).1.p_zone = c.p_zone ∧
    (midiout_control mem midichan c).1.p_min = c.p_min ∧
    (midiout_control mem midichan c).1.p_max = c.p_max := by
  unfold midiout_control
  split_ifs <;> exact ⟨rfl, rfl, rfl, rfl⟩

/-- A control that was just processed sends nothing when it is processed again with
the same value in its cell. -/
theorem midiout_control_again (mem mem1 : Nat → ℚ) (midichan midichan1 : Int)
    (c : t_faust_ui)
    (hz : c.p_type = FAUST_UI_TYPE_BARGRAPH → mem1 c.p_zone = mem c.p_zone) :
    midiout_control mem1 midichan1 (midiout_control mem midichan c).1 =
      ((midiout_control mem midichan c).1, []) := by
  obtain ⟨g1, g2, g3, g4⟩ := midiout_control_fields mem midichan c
  by_cases ht : c.p_type = FAUST_UI_TYPE_BARGRAPH
  · have hc : midiout_control mem midichan c =
        ({ c with p_midi := c.p_midi.map fun b => (midiout_binding mem midichan c b).1 },
          c.p_midi.filterMap fun b => (midiout_binding mem midichan c b).2) := by
      unfold midiout_control
      rw [if_pos ht]
    have hstep : ∀ b, midiout_binding mem1 midichan1 (midiout_control mem midichan c).1
        (midiout_binding mem midichan c b).1 = ((midiout_binding mem midichan c b).1, none) :=
      fun b => midiout_binding_again mem mem1 midichan midichan1 c _ b
        (by rw [g2]; exact hz ht) g3 g4
    rw [midiout_control, if_pos (g1.trans ht)]
    have hm : (midiout_control mem midichan c).1.p_midi =
        c.p_midi.map fun b => (midiout_binding mem midichan c b).1 := by rw [hc]
    congr 1
    · rw [hm, List.map_map]
      have : ((fun b => (midiout_binding mem1 midichan1 (midiout_control mem midichan c).1 b).1) ∘
          fun b => (midiout_binding mem midichan c b).1) =
          fun b => (midiout_binding mem midichan c b).1 := by
        funext b
        simp only [Function.comp]
        rw [hstep b]
      rw [this]
      rw [hc]
    · rw [hm, List.filterMap_map]
      rw [List.filterMap_eq_nil_iff]
      intro b _
      simp only [Function.comp]
      rw [hstep b]
  · have hc : midiout_control mem midichan c = (c, []) := by
      unfold midiout_control
      rw [if_neg ht]
    rw [hc]
    show midiout_control mem1 midichan1 c = (c, [])
    unfold midiout_control
    rw [if_neg ht]

/-- C22 (counterexample). A call of `faust_ui_manager_midiout` with neither a receiver
symbol nor an outlet sends nothing and stores nothing, so the call after it, made with
an outlet and with no cell changed in between, still sends the start message. -/
theorem C22_counterexample_no_destination :
    (faust_ui_manager_midiout (dsp_write start_state 1 1) 0 none false).outlet = [] ∧
    (faust_ui_manager_midiout (dsp_write start_state 1 1) 0 none false).recv = [] ∧
    (faust_ui_manager_midiout (dsp_write start_state 1 1) 0 none false).x.f_uis =
      (dsp_write start_state 1 1).f_uis ∧
    (faust_ui_manager_midiout (dsp_write start_state 1 1) 0 none false).x.zone_mem 1 = 1 ∧
    (faust_ui_manager_midiout
      (faust_ui_manager_midiout (dsp_write start_state 1 1) 0 none false).x
      0 none true).outlet = [("start".toList, [])] := by
  refine ⟨by decide, by decide, rfl, by decide, by decide⟩

/-- C22 (amended). In `faust_ui_manager_midiout` a binding sends a message only when the
raw value just computed differs from the value stored in the binding, and then stores
the new value; when it sends nothing the binding is left as it was. Every message of a
call comes from a binding of a Bargraph. A call with neither a receiver symbol nor an
outlet returns the manager as it was and sends nothing. A second call, whatever its
channel and its destinations, after no cell of a Bargraph has changed, sends no
message at all, when the first call had a receiver symbol or an outlet, or the second
call has neither. -/
theorem C22_midiout_only_changes (x y : t_faust_ui_manager) (midichan midichan1 : Int)
    (midirecv midirecv1 : Option Bool) (out out1 : Bool)
    (huis : y.f_uis = (faust_ui_manager_midiout x midichan midirecv out).x.f_uis)
    (hval : ∀ c ∈ x.f_uis, c.p_type = FAUST_UI_TYPE_BARGRAPH →
      y.zone_mem c.p_zone = x.zone_mem c.p_zone) :
    (∀ c b,
      ((midiout_binding x.zone_mem midichan c b).2 ≠ none →
        (midiout_switch x.zone_mem c b).val ≠ b.val ∧
        (midiout_binding x.zone_mem midichan c b).1 =
          { b with val := (midiout_switch x.zone_mem c b).val }) ∧
      ((midiout_binding x.zone_mem midichan c b).2 = none →
        (midiout_binding x.zone_mem midichan c b).1 = b)) ∧
    (∀ m, m ∈ (faust_ui_manager_midiout x midichan midirecv out).outlet ∨
        m ∈ (faust_ui_manager_midiout x midichan midirecv out).recv →
      ∃ c ∈ x.f_uis, c.p_type = FAUST_UI_TYPE_BARGRAPH ∧
        ∃ b ∈ c.p_midi, (midiout_binding x.zone_mem midichan c b).2 = some m) ∧
    ((faust_ui_manager_midiout x midichan none false).x = x ∧
      (faust_ui_manager_midiout x midichan none false).outlet = [] ∧
      (faust_ui_manager_midiout x midichan none false).recv = []) ∧
    (¬ (midirecv = none ∧ out = false) ∨ (midirecv1 = none ∧ out1 = false) →
      (faust_ui_manager_midiout y midichan1 midirecv1 out1).outlet = [] ∧
      (faust_ui_manager_midiout y midichan1 midirecv1 out1).recv = [] ∧
      (faust_ui_manager_midiout y midichan1 midirecv1 out1).x.f_uis = y.f_uis) := by
  refine ⟨fun c b => midiout_binding_cases x.zone_mem midichan c b, ?_, ?_, ?_⟩
  · have hmsgs : ∀ m ∈ (x.f_uis.map fun c => (midiout_control x.zone_mem midichan c).2).flatten,
        ∃ c ∈ x.f_uis, c.p_type = FAUST_UI_TYPE_BARGRAPH ∧
          ∃ b ∈ c.p_midi, (midiout_binding x.zone_mem midichan c b).2 = some m := by
      intro m hm
      rw [List.mem_flatten] at hm
      obtain ⟨l, hl, hml⟩ := hm
      rw [List.mem_map] at hl
      obtain ⟨c, hc, rfl⟩ := hl
      unfold midiout_control at hml
      by_cases ht : c.p_type = FAUST_UI_TYPE_BARGRAPH
      · rw [if_pos ht] at hml
        simp only [List.mem_filterMap] at hml
        obtain ⟨b, hb, hbm⟩ := hml
        exact ⟨c, hc, ht, b, hb, hbm⟩
      · rw [if_neg ht] at hml
        simp at hml
    intro m hm
    unfold faust_ui_manager_midiout at hm
    by_cases hd : midirecv = none ∧ out = false
    · rw [if_pos hd] at hm
      simp at hm
    · rw [if_neg hd] at hm
      simp only at hm
      rcases hm with h | h
      · split_ifs at h
        · exact hmsgs m h
        · simp at h
      · split_ifs at h
        · exact hmsgs m h
        · simp at h
  · unfold faust_ui_manager_midiout
    rw [if_pos ⟨rfl, rfl⟩]
    exact ⟨rfl, rfl, rfl⟩
  · intro hdest
    by_cases hd1 : midirecv1 = none ∧ out1 = false
    · unfold faust_ui_manager_midiout
      rw [if_pos hd1]
      exact ⟨rfl, rfl, rfl⟩
    · have hd : ¬ (midirecv = none ∧ out = false) := by
        rcases hdest with h | h
        · exact h
        · exact absurd h hd1
      have hx : (faust_ui_manager_midiout x midichan midirecv out).x.f_uis =
          x.f_uis.map fun c => (midiout_control x.zone_mem midichan c).1 := by
        unfold faust_ui_manager_midiout
        rw [if_neg hd]
      rw [hx] at huis
      have hagain : ∀ c ∈ x.f_uis,
          midiout_control y.zone_mem midichan1 (midiout_control x.zone_mem midichan c).1 =
            ((midiout_control x.zone_mem midichan c).1, []) :=
        fun c hc => midiout_control_again x.zone_mem y.zone_mem midichan midichan1 c
          (hval c hc)
      have hnil : (y.f_uis.map fun c => (midiout_control y.zone_mem midichan1 c).2).flatten
          = [] := by
        rw [List.flatten_eq_nil_iff]
        intro l hl
        rw [huis, List.map_map, List.mem_map] at hl
        obtain ⟨c, hc, rfl⟩ := hl
        simp only [Function.comp]
        rw [hagain c hc]
      have hsame : (y.f_uis.map fun c => (midiout_control y.zone_mem midichan1 c).1)
          = y.f_uis := by
        rw [huis, List.map_map]
        apply List.map_congr_left
        intro c hc
        simp only [Function.comp]
        rw [hagain c hc]
      unfold faust_ui_manager_midiout
      rw [if_neg hd1]
      simp only [hnil, hsame, ite_self, and_self]

theorem C22_midiout_only_changes_witness :
    (faust_ui_manager_midiout (dsp_write start_state 1 1) 0 (some true) false).recv =
      [("start".toList, [])] ∧
    (faust_ui_manager_midiout
      (faust_ui_manager_midiout (dsp_write start_state 1 1) 0 (some true) false).x
      0 none true).outlet = [] :=
  ⟨by decide,
    ((C22_midiout_only_changes (dsp_write start_state 1 1)
      (faust_ui_manager_midiout (dsp_write start_state 1 1) 0 (some true) false).x
      0 0 (some true) none false true rfl (fun _ _ _ => rfl)).2.2.2
        (Or.inl (by decide))).1⟩

/-- C23. A Bargraph bound to the start message, its cell going 1, 0, 1 over three
calls of `faust_ui_manager_midiout`: the first call sends start, and the third call,
a rising edge again, sends nothing, because the second call did not store the 0. -/
theorem C23_start_fires_once :
    (start_state.f_uis.map fun c =>
      (c.p_name, c.p_type, c.p_zone, c.p_midi.map fun b => (b.msg, b.val))) =
      [("run".toList, FAUST_UI_TYPE_BARGRAPH, 1, [(MIDI_START, 0)])] ∧
    (start_state.f_uis.map fun c => c.p_min) = [0] ∧
    (faust_ui_manager_midiout (dsp_write start_state 1 1) 0 none true).outlet =
      [("start".toList, [])] ∧
    (faust_ui_manager_midiout (dsp_write
      (faust_ui_manager_midiout (dsp_write start_state 1 1) 0 none true).x 1 0)
        0 none true).outlet = [] ∧
    (faust_ui_manager_midiout (dsp_write
      (faust_ui_manager_midiout (dsp_write
        (faust_ui_manager_midiout (dsp_write start_state 1 1) 0 none true).x 1 0)
          0 none true).x 1 1) 0 none true).outlet = [] := by
  decide

/-! ## Voices -/

/-! ### The voice chains -/

theorem write_ctl_nvoices (x : t_faust_ui_manager) (c : Option Nat) (v : ℚ) :
    (write_ctl x c v).f_nvoices = x.f_nvoices := by
  unfold write_ctl
  cases c with
  | none => rfl
  | some i =>
    simp only
    cases x.f_uis[i]? <;> rfl

theorem modify_voice_length (tab : List t_faust_voice) (i : Nat)
    (f : t_faust_voice → t_faust_voice) : (modify_voice tab i f).length = tab.length := by
  unfold modify_voice
  cases tab[i]? with
  | none => rfl
  | some v => simp

theorem modify_voice_get (tab : List t_faust_voice) (i j : Nat)
    (f : t_faust_voice → t_faust_voice) :
    (modify_voice tab i f)[j]? = if i = j then (tab[j]?).map f else tab[j]? := by
  unfold modify_voice
  cases h : tab[i]? with
  | none =>
    simp only
    split_ifs with e
    · rw [← e, h]
      rfl
    · rfl
  | some v =>
    simp only
    rw [List.getElem?_set]
    split_ifs with e hlt
    · rw [← e, h]
      rfl
    · exfalso
      rw [List.getElem?_eq_some_iff] at h
      obtain ⟨hl, _⟩ := h
      exact hlt hl
    · rfl

/-- The chains and the table after `voices_noteon` takes the head of the free chain. -/
theorem voices_noteon_take (mtof : Int → ℚ) (x : t_faust_ui_manager) (num val chan : Int)
    (v : Nat) (free : List Nat) (h : x.f_free = v :: free) :
    (voices_noteon mtof x num val chan).f_free = free ∧
    (voices_noteon mtof x num val chan).f_used = x.f_used ++ [v] ∧
    (voices_noteon mtof x num val chan).f_voices =
      modify_voice x.f_voices v (fun r => { r with num := num }) ∧
    (voices_noteon mtof x num val chan).f_nvoices = x.f_nvoices := by
  unfold voices_noteon
  simp only
  rw [if_neg (by rw [h]; simp)]
  simp only [h]
  split
  · simp only [(write_ctl_fields _ _ _).2.1, (write_ctl_fields _ _ _).2.2.1,
      (write_ctl_fields _ _ _).2.2.2, write_ctl_nvoices, and_self]
  · exact ⟨rfl, rfl, rfl, rfl⟩

/-- The chains and the table after `voices_noteon` steals the head of the used
chain. -/
theorem voices_noteon_steal (mtof : Int → ℚ) (x : t_faust_ui_manager) (num val chan : Int)
    (u : Nat) (used : List Nat) (h : x.f_free = []) (hu : x.f_used = u :: used) :
    (voices_noteon mtof x num val chan).f_free = [] ∧
    (voices_noteon mtof x num val chan).f_used = used ++ [u] ∧
    (voices_noteon mtof x num val chan).f_voices =
      modify_voice x.f_voices u (fun r => { r with num := num }) ∧
    (voices_noteon mtof x num val chan).f_nvoices = x.f_nvoices := by
  unfold voices_noteon
  simp only
  rw [if_pos h]
  simp only [hu]
  split
  · simp only [(write_ctl_fields _ _ _).2.1, (write_ctl_fields _ _ _).2.2.1,
      (write_ctl_fields _ _ _).2.2.2, write_ctl_nvoices, and_self]
  · exact ⟨rfl, rfl, rfl, rfl⟩

theorem voices_noteon_idle (mtof : Int → ℚ) (x : t_faust_ui_manager) (num val chan : Int)
    (h : x.f_free = []) (hu : x.f_used = []) : voices_noteon mtof x num val chan = x := by
  unfold voices_noteon
  simp only
  rw [if_pos h]
  simp only [hu]

theorem unlink_used_perm (tab : List t_faust_voice) (num : Int) (used : List Nat) (u : Nat)
    (rest : List Nat) (h : unlink_used tab num used = some (u, rest)) :
    used.Perm (u :: rest) ∧ ∃ r, tab[u]? = some r ∧ r.num = num := by
  induction used generalizing rest with
  | nil => simp [unlink_used] at h
  | cons a used ih =>
    rw [unlink_used] at h
    cases ha : tab[a]? with
    | none =>
      rw [ha] at h
      simp only at h
      cases hr : unlink_used tab num used with
      | none => rw [hr] at h; simp at h
      | some p =>
        rw [hr] at h
        simp only [Option.map_some', Option.some.injEq, Prod.mk.injEq] at h
        obtain ⟨h1, h2⟩ := h
        obtain ⟨i1, i2⟩ := ih p.2 (by rw [hr, ← h1])
        rw [← h2]
        exact ⟨(List.Perm.cons a i1).trans (List.Perm.swap u a p.2), i2⟩
    | some r =>
      rw [ha] at h
      simp only at h
      by_cases hn : r.num ≠ num
      · rw [if_pos hn] at h
        cases hr : unlink_used tab num used with
        | none => rw [hr] at h; simp at h
        | some p =>
          rw [hr] at h
          simp only [Option.map_some', Option.some.injEq, Prod.mk.injEq] at h
          obtain ⟨h1, h2⟩ := h
          obtain ⟨i1, i2⟩ := ih p.2 (by rw [hr, ← h1])
          rw [← h2]
          exact ⟨(List.Perm.cons a i1).trans (List.Perm.swap u a p.2), i2⟩
      · rw [if_neg hn] at h
        simp only [Option.some.injEq, Prod.mk.injEq] at h
        obtain ⟨h1, h2⟩ := h
        rw [← h1, ← h2]
        exact ⟨List.Perm.refl _, r, ha, not_not.1 hn⟩

/-- The chains and the table after `voices_noteoff`. -/
theorem voices_noteoff_fields (x : t_faust_ui_manager) (num chan : Int) :
    (voices_noteoff x num chan).f_voices = x.f_voices ∧
    (voices_noteoff x num chan).f_nvoices = x.f_nvoices ∧
    (voices_noteoff x num chan).f_uis = x.f_uis ∧
    ((unlink_used x.f_voices num x.f_used = none ∧ voices_noteoff x num chan = x) ∨
      ∃ u rest, unlink_used x.f_voices num x.f_used = some (u, rest) ∧
        (voices_noteoff x num chan).f_used = rest ∧
        (voices_noteoff x num chan).f_free = x.f_free ++ [u]) := by
  unfold voices_noteoff
  cases h : unlink_used x.f_voices num x.f_used with
  | none => exact ⟨rfl, rfl, rfl, Or.inl ⟨rfl, rfl⟩⟩
  | some p =>
    obtain ⟨u, rest⟩ := p
    simp only
    obtain ⟨w1, w2, w3, w4⟩ := write_ctl_fields
      { x with f_used := rest, f_free := x.f_free ++ [u] }
      (voice_gate { x with f_used := rest, f_free := x.f_free ++ [u] } u) 0
    refine ⟨w2, write_ctl_nvoices _ _ _, w1, Or.inr ⟨u, rest, rfl, w3, w4⟩⟩

theorem all_notes_off_gates_fields (used : List Nat) : ∀ x : t_faust_ui_manager,
    (used.foldl (fun y u => write_ctl y (voice_gate y u) 0) x).f_voices = x.f_voices ∧
    (used.foldl (fun y u => write_ctl y (voice_gate y u) 0) x).f_nvoices = x.f_nvoices ∧
    (used.foldl (fun y u => write_ctl y (voice_gate y u) 0) x).f_free = x.f_free ∧
    (used.foldl (fun y u => write_ctl y (voice_gate y u) 0) x).f_used = x.f_used := by
  induction used with
  | nil => exact fun _ => ⟨rfl, rfl, rfl, rfl⟩
  | cons u used ih =>
    intro x
    rw [List.foldl_cons]
    obtain ⟨i1, i2, i3, i4⟩ := ih (write_ctl x (voice_gate x u) 0)
    obtain ⟨_, w2, w3, w4⟩ := write_ctl_fields x (voice_gate x u) 0
    exact ⟨i1.trans w2, i2.trans (write_ctl_nvoices _ _ _), i3.trans w4, i4.trans w3⟩

/-- The chains after `faust_ui_manager_all_notes_off`. -/
theorem all_notes_off_chains (x : t_faust_ui_manager) :
    (faust_ui_manager_all_notes_off x).f_free = x.f_free ++ x.f_used ∧
    (faust_ui_manager_all_notes_off x).f_used = [] ∧
    (faust_ui_manager_all_notes_off x).f_voices = x.f_voices ∧
    (faust_ui_manager_all_notes_off x).f_nvoices = x.f_nvoices := by
  obtain ⟨i1, i2, i3, i4⟩ := all_notes_off_gates_fields x.f_used x
  unfold faust_ui_manager_all_notes_off
  exact ⟨by simp only [i3, i4], rfl, i1, i2⟩

theorem populate_step_length (st : List t_faust_voice × Nat × Nat × Nat) (pc : Nat × t_faust_ui) :
    (populate_step st pc).1.length = st.1.length := by
  unfold populate_step
  split_ifs <;> simp only [modify_voice_length]

theorem populate_length (l : List (Nat × t_faust_ui)) :
    ∀ st : List t_faust_voice × Nat × Nat × Nat,
    (l.foldl populate_step st).1.length = st.1.length := by
  induction l with
  | nil => exact fun _ => rfl
  | cons pc l ih =>
    intro st
    rw [List.foldl_cons, ih, populate_step_length]

/-- The pool that `faust_new_voices` builds: every voice is free. -/
theorem new_voices_pool (x : t_faust_ui_manager) (h : (faust_new_voices x).f_voices ≠ []) :
    (faust_new_voices x).f_free = List.range (faust_new_voices x).f_nvoices ∧
    (faust_new_voices x).f_used = [] ∧
    (faust_new_voices x).f_voices.length = (faust_new_voices x).f_nvoices ∧
    0 < (faust_new_voices x).f_nvoices := by
  have hfree : (if x.f_voices ≠ [] then faust_free_voices x else x).f_voices = [] := by
    split_ifs with hv
    · unfold faust_free_voices
      rw [if_pos hv]
    · exact not_not.1 hv
  unfold faust_new_voices at h ⊢
  simp only at h ⊢
  generalize (if x.f_voices ≠ [] then faust_free_voices x else x) = x1 at h hfree ⊢
  generalize (if (count_voices x1.f_uis).1 ≠ 0 then (count_voices x1.f_uis).1
    else if (count_voices x1.f_uis).2.1 ≠ 0 then (count_voices x1.f_uis).2.1
    else (count_voices x1.f_uis).2.2) = n at h ⊢
  by_cases h1 : n ≠ 0
  · rw [if_pos h1] at h ⊢
    split_ifs at h ⊢ with h2
    · exact absurd hfree h
    · simp only [populate_length, List.length_replicate, true_and]
      exact Nat.pos_of_ne_zero h1
  · rw [if_neg h1] at h
    exact absurd hfree h

theorem perm_move_last (v : Nat) (l1 l2 : List Nat) :
    (l1 ++ (l2 ++ [v])).Perm (v :: l1 ++ l2) := by
  rw [← List.append_assoc]
  exact List.perm_append_singleton v (l1 ++ l2)

theorem pool_partition_op (mtof : Int → ℚ) (x : t_faust_ui_manager) (op : VoiceOp)
    (h : pool_partition x) :
    pool_partition (voice_op mtof x op) ∧
    (voice_op mtof x op).f_nvoices = x.f_nvoices := by
  obtain ⟨hl, hp⟩ := h
  cases op with
  | noteon num val chan =>
    simp only [voice_op]
    cases hf : x.f_free with
    | nil =>
      cases hu : x.f_used with
      | nil =>
        rw [voices_noteon_idle mtof x num val chan hf hu]
        exact ⟨⟨hl, hp⟩, rfl⟩
      | cons u used =>
        obtain ⟨a, b, c, d⟩ := voices_noteon_steal mtof x num val chan u used hf hu
        refine ⟨⟨?_, ?_⟩, d⟩
        · rw [c, d, modify_voice_length, hl]
        · rw [a, b, d]
          rw [hf, hu] at hp
          exact (perm_move_last u [] used).trans hp
    | cons v free =>
      obtain ⟨a, b, c, d⟩ := voices_noteon_take mtof x num val chan v free hf
      refine ⟨⟨?_, ?_⟩, d⟩
      · rw [c, d, modify_voice_length, hl]
      · rw [a, b, d]
        rw [hf] at hp
        exact (perm_move_last v free x.f_used).trans hp
  | noteoff num chan =>
    simp only [voice_op]
    obtain ⟨a, b, _, d⟩ := voices_noteoff_fields x num chan
    rcases d with ⟨_, e⟩ | ⟨u, rest, hun, e1, e2⟩
    · rw [e]
      exact ⟨⟨hl, hp⟩, rfl⟩
    · refine ⟨⟨by rw [a, b, hl], ?_⟩, b⟩
      rw [e1, e2, b]
      refine List.Perm.trans ?_ hp
      have hperm := (unlink_used_perm x.f_voices num x.f_used u rest hun).1
      rw [List.append_assoc, List.singleton_append]
      exact List.Perm.append_left _ hperm.symm
  | allNotesOff =>
    simp only [voice_op]
    obtain ⟨a, b, c, d⟩ := all_notes_off_chains x
    refine ⟨⟨by rw [c, d, hl], ?_⟩, d⟩
    rw [a, b, d, List.append_nil]
    exact hp

theorem pool_partition_ops (mtof : Int → ℚ) (ops : List VoiceOp) :
    ∀ x : t_faust_ui_manager, pool_partition x →
    pool_partition (ops.foldl (voice_op mtof) x) ∧
    (ops.foldl (voice_op mtof) x).f_nvoices = x.f_nvoices := by
  induction ops with
  | nil => exact fun x h => ⟨h, rfl⟩
  | cons op ops ih =>
    intro x h
    rw [List.foldl_cons]
    obtain ⟨h1, h2⟩ := pool_partition_op mtof x op h
    obtain ⟨i1, i2⟩ := ih _ h1
    exact ⟨i1, i2.trans h2⟩

/-- C24. Starting from the pool that `faust_new_voices` builds, after every sequence
of `voices_noteon`, `voices_noteoff` and `faust_ui_manager_all_notes_off` the free
chain and the used chain have no duplicates, share no voice, and hold every voice of
the pool, that is every slot below `f_nvoices`, exactly once between them. -/
theorem C24_voice_partition (mtof : Int → ℚ) (x0 x : t_faust_ui_manager) (ops : List VoiceOp)
    (hbuilt : (faust_new_voices x0).f_voices ≠ [])
    (hx : x = ops.foldl (voice_op mtof) (faust_new_voices x0)) :
    x.f_free.Nodup ∧ x.f_used.Nodup ∧ x.f_free.Disjoint x.f_used ∧
    (∀ v, v < x.f_nvoices ↔ (v ∈ x.f_free ∨ v ∈ x.f_used)) ∧
    (x.f_free ++ x.f_used).Perm (List.range x.f_nvoices) ∧
    x.f_nvoices = (faust_new_voices x0).f_nvoices ∧
    x.f_voices.length = x.f_nvoices := by
  obtain ⟨p1, p2, p3, _⟩ := new_voices_pool x0 hbuilt
  have hstart : pool_partition (faust_new_voices x0) := by
    refine ⟨p3, ?_⟩
    rw [p1, p2, List.append_nil]
  obtain ⟨⟨hl, hp⟩, hn⟩ := pool_partition_ops mtof ops (faust_new_voices x0) hstart
  rw [← hx] at hl hp hn
  have hnd : (x.f_free ++ x.f_used).Nodup := hp.nodup_iff.2 (List.nodup_range _)
  rw [List.nodup_append] at hnd
  refine ⟨hnd.1, hnd.2.1, hnd.2.2, ?_, hp, hn, hl⟩
  intro v
  rw [← List.mem_append, hp.mem_iff, List.mem_range]

theorem C24_voice_partition_witness :
    (voices_noteoff (voices_noteon (fun _ => 440) (faust_new_voices two_voice_state) 60 100 0)
      60 0).f_free.Disjoint
    (voices_noteoff (voices_noteon (fun _ => 440) (faust_new_voices two_voice_state) 60 100 0)
      60 0).f_used :=
  (C24_voice_partition (fun _ => 440) two_voice_state _ [.noteon 60 100 0, .noteoff 60 0]
    (by decide) rfl).2.2.1

theorem noteons_succ (mtof : Int → ℚ) (chan : Int) (x : t_faust_ui_manager)
    (notes : List (Int × Int)) (m : Nat) (k : Int × Int) (hk : notes[m]? = some k) :
    noteons mtof chan x (notes.take (m + 1)) =
      voices_noteon mtof (noteons mtof chan x (notes.take m)) k.1 k.2 chan := by
  unfold noteons
  rw [List.take_succ, hk, List.foldl_append]
  rfl

/-- The first `m` note-ons into a pool of `n` free voices take the voices 0 to
`m - 1`, in this order. -/
theorem noteons_fill (mtof : Int → ℚ) (chan : Int) (x : t_faust_ui_manager)
    (notes : List (Int × Int)) (n : Nat)
    (hfree : x.f_free = List.range n) (hused : x.f_used = [])
    (hlen : x.f_voices.length = n) (m : Nat) (hm : m ≤ n) (hnotes : m ≤ notes.length) :
    (noteons mtof chan x (notes.take m)).f_used = List.range m ∧
    (noteons mtof chan x (notes.take m)).f_free = List.range' m (n - m) ∧
    (noteons mtof chan x (notes.take m)).f_voices.length = n ∧
    (noteons mtof chan x (notes.take m)).f_nvoices = x.f_nvoices ∧
    ∀ i, i < m →
      ((noteons mtof chan x (notes.take m)).f_voices[i]?).map (fun r => r.num) =
        (notes[i]?).map fun k => k.1 := by
  induction m with
  | zero =>
    have e : noteons mtof chan x (notes.take 0) = x := rfl
    rw [e]
    refine ⟨hused, ?_, hlen, rfl, fun i hi => absurd hi (Nat.not_lt_zero i)⟩
    rw [hfree, List.range_eq_range', Nat.sub_zero]
  | succ m ih =>
    obtain ⟨i1, i2, i3, i4, i5⟩ := ih (by omega) (by omega)
    obtain ⟨k, hk⟩ : ∃ k, notes[m]? = some k :=
      ⟨notes[m], List.getElem?_eq_getElem (by omega)⟩
    rw [noteons_succ mtof chan x notes m k hk]
    have hsplit : List.range' m (n - m) = m :: List.range' (m + 1) (n - (m + 1)) := by
      have : n - m = (n - (m + 1)) + 1 := by omega
      rw [this, List.range'_succ]
    rw [hsplit] at i2
    obtain ⟨a, b, c, d⟩ := voices_noteon_take mtof _ k.1 k.2 chan m _ i2
    refine ⟨?_, a, ?_, d.trans i4, ?_⟩
    · rw [b, i1, List.range_succ]
    · rw [c, modify_voice_length, i3]
    · intro i hi
      rw [c, modify_voice_get]
      by_cases e : m = i
      · rw [if_pos e, ← e, hk]
        have hlt : m < (noteons mtof chan x (notes.take m)).f_voices.length := by omega
        rw [List.getElem?_eq_getElem hlt]
        rfl
      · rw [if_neg e]
        exact i5 i (by omega)

theorem filterMap_eq_map_of_some {α β : Type} (g : α → Option β) (h : α → β) (l : List α)
    (hg : ∀ a ∈ l, g a = some (h a)) : l.filterMap g = l.map h := by
  induction l with
  | nil => rfl
  | cons a l ih =>
    rw [List.filterMap_cons, hg a (List.mem_cons_self _ _), List.map_cons,
      ih (fun b hb => hg b (List.mem_cons_of_mem _ hb))]

theorem tail_eq_map_range (ks : List Int) (n : Nat) (hlen : ks.length = n + 1) :
    ks.tail = (List.range' 1 n).map fun i => ks.getD i 0 := by
  apply List.ext_getElem
  · simp [hlen]
  · intro i h1 h2
    simp only [List.getElem_tail, List.getElem_map, List.getElem_range']
    rw [List.getD_eq_getElem?_getD, List.getElem?_eq_getElem (by simp at h1; omega)]
    simp [Nat.add_comm]

/-- C25. With voice stealing, as compiled: in a pool of `n ≥ 1` voices fresh from
`faust_new_voices`, the first `n` of `n + 1` note-ons take the voices 0 to `n - 1`, one
each, and the last one, finding the free chain empty, steals the head of the used
chain, voice 0, which plays the first note. Afterwards the free chain is empty and the
used chain holds, oldest first, the notes from the second to the last. -/
theorem C25_voice_stealing (mtof : Int → ℚ) (chan : Int) (x0 : t_faust_ui_manager)
    (notes : List (Int × Int)) (n : Nat)
    (hbuilt : (faust_new_voices x0).f_voices ≠ [])
    (hn : n = (faust_new_voices x0).f_nvoices) (hlen : notes.length = n + 1) :
    1 ≤ n ∧
    (∀ m, m ≤ n →
      (noteons mtof chan (faust_new_voices x0) (notes.take m)).f_used = List.range m ∧
      (noteons mtof chan (faust_new_voices x0) (notes.take m)).f_free =
        List.range' m (n - m)) ∧
    ((noteons mtof chan (faust_new_voices x0) (notes.take n)).f_voices[0]?).map
      (fun r => r.num) = (notes[0]?).map (fun k => k.1) ∧
    (noteons mtof chan (faust_new_voices x0) notes).f_free = [] ∧
    (noteons mtof chan (faust_new_voices x0) notes).f_used = List.range' 1 (n - 1) ++ [0] ∧
    ((noteons mtof chan (faust_new_voices x0) notes).f_voices[0]?).map
      (fun r => r.num) = (notes[n]?).map (fun k => k.1) ∧
    used_notes (noteons mtof chan (faust_new_voices x0) notes) =
      (notes.map fun k => k.1).tail := by
  obtain ⟨p1, p2, p3, p4⟩ := new_voices_pool x0 hbuilt
  rw [← hn] at p1 p3 p4
  have hfill := fun m hm hm2 =>
    noteons_fill mtof chan (faust_new_voices x0) notes n p1 p2 p3 m hm hm2
  obtain ⟨f1, f2, f3, _, f5⟩ := hfill n (le_refl n) (by omega)
  obtain ⟨k, hk⟩ : ∃ k, notes[n]? = some k :=
    ⟨notes[n], List.getElem?_eq_getElem (by omega)⟩
  have hall : noteons mtof chan (faust_new_voices x0) notes =
      voices_noteon mtof (noteons mtof chan (faust_new_voices x0) (notes.take n))
        k.1 k.2 chan := by
    rw [← noteons_succ mtof chan _ notes n k hk, List.take_of_length_le (by omega)]
  have hfree0 : (noteons mtof chan (faust_new_voices x0) (notes.take n)).f_free = [] := by
    rw [f2, Nat.sub_self]
    rfl
  have hused0 : (noteons mtof chan (faust_new_voices x0) (notes.take n)).f_used =
      0 :: List.range' 1 (n - 1) := by
    rw [f1, List.range_eq_range']
    have : n = (n - 1) + 1 := by omega
    conv_lhs => rw [this, List.range'_succ]
  obtain ⟨a, b, c, _⟩ := voices_noteon_steal mtof _ k.1 k.2 chan 0 _ hfree0 hused0
  have hzero : 0 < (noteons mtof chan (faust_new_voices x0) (notes.take n)).f_voices.length := by
    omega
  have hv0 : ((noteons mtof chan (faust_new_voices x0) notes).f_voices[0]?).map
      (fun r => r.num) = (notes[n]?).map (fun k => k.1) := by
    rw [hall, c, modify_voice_get, if_pos rfl, hk, List.getElem?_eq_getElem hzero]
    rfl
  refine ⟨p4, fun m hm => ⟨(hfill m hm (by omega)).1, (hfill m hm (by omega)).2.1⟩,
    f5 0 p4, by rw [hall, a], by rw [hall, b], hv0, ?_⟩
  -- the notes on the used chain
  have hks : (notes.map fun k => k.1).length = n + 1 := by rw [List.length_map, hlen]
  have hrange : List.range' 1 n = List.range' 1 (n - 1) ++ [n] := by
    have : n = (n - 1) + 1 := by omega
    conv_lhs => rw [this, List.range'_concat]
    simp only [Nat.add_comm 1, Nat.one_mul]
    rw [← this]
  rw [tail_eq_map_range _ n hks, hrange, List.map_append]
  unfold used_notes
  rw [hall, b, List.filterMap_append]
  congr 1
  · apply filterMap_eq_map_of_some
    intro i hi
    rw [List.mem_range'_1] at hi
    rw [c, modify_voice_get, if_neg (by omega), f5 i (by omega)]
    rw [List.getD_eq_getElem?_getD, List.getElem?_map]
    rw [List.getElem?_eq_getElem (show i < notes.length by omega)]
    rfl
  · rw [← hall]
    simp only [List.filterMap_cons, List.filterMap_nil, List.map_cons, List.map_nil]
    rw [hv0, hk]
    simp only [Option.map_some']
    rw [List.getD_eq_getElem?_getD, List.getElem?_map, hk]
    rfl

theorem C25_voice_stealing_witness :
    used_notes (noteons (fun _ => 440) 0 (faust_new_voices two_voice_state)
      [(60, 100), (62, 100), (64, 100)]) = [62, 64] :=
  (C25_voice_stealing (fun _ => 440) 0 two_voice_state [(60, 100), (62, 100), (64, 100)] 2
    (by decide) (by decide) rfl).2.2.2.2.2.2

/-- The search of `voices_noteoff` stops at the voice at the end of the used chain
when no voice in front of it plays the note. -/
theorem unlink_used_last (tab : List t_faust_voice) (num : Int) (v : Nat) (r : t_faust_voice)
    (hv : tab[v]? = some r) (hr : r.num = num) (used : List Nat)
    (hused : ∀ u ∈ used, ∀ q, tab[u]? = some q → q.num ≠ num) :
    unlink_used tab num (used ++ [v]) = some (v, used) := by
  induction used with
  | nil =>
    rw [List.nil_append, unlink_used, hv]
    simp only
    rw [if_neg (fun h => h hr)]
  | cons a used ih =>
    have iha := ih (fun u hu => hused u (List.mem_cons_of_mem _ hu))
    rw [List.cons_append, unlink_used, iha]
    cases ha : tab[a]? with
    | none => rfl
    | some q =>
      simp only
      rw [if_pos (hused a (List.mem_cons_self _ _) q ha)]
      rfl

/-- C26 (amended). When the free chain is not empty and no voice on the used chain
plays the note `num`, `voices_noteon` for `num` followed by `voices_noteoff` for `num`
leaves the used chain as it was and the free chain with the same voices, its head moved
to its end. -/
theorem C26_noteon_noteoff (mtof : Int → ℚ) (x : t_faust_ui_manager) (num val chan : Int)
    (v : Nat) (free : List Nat) (hfree : x.f_free = v :: free)
    (hv : v < x.f_voices.length) (hvu : v ∉ x.f_used)
    (hplay : ∀ u ∈ x.f_used, ∀ q, x.f_voices[u]? = some q → q.num ≠ num) :
    (voices_noteoff (voices_noteon mtof x num val chan) num chan).f_used = x.f_used ∧
    (voices_noteoff (voices_noteon mtof x num val chan) num chan).f_free = free ++ [v] ∧
    (voices_noteoff (voices_noteon mtof x num val chan) num chan).f_free.Perm x.f_free ∧
    (∀ u, u ∈ (voices_noteoff (voices_noteon mtof x num val chan) num chan).f_free ↔
      u ∈ x.f_free) := by
  obtain ⟨a, b, c, _⟩ := voices_noteon_take mtof x num val chan v free hfree
  have hfound : unlink_used (voices_noteon mtof x num val chan).f_voices num
      (voices_noteon mtof x num val chan).f_used = some (v, x.f_used) := by
    rw [b, c]
    apply unlink_used_last _ num v { x.f_voices[v] with num := num }
    · rw [modify_voice_get, if_pos rfl, List.getElem?_eq_getElem hv]
      rfl
    · rfl
    · intro u hu q hq
      have hne : ¬ v = u := fun e => hvu (by rw [e]; exact hu)
      rw [modify_voice_get, if_neg hne] at hq
      exact hplay u hu q hq
  obtain ⟨_, _, _, d⟩ := voices_noteoff_fields (voices_noteon mtof x num val chan) num chan
  rcases d with ⟨hnone, _⟩ | ⟨u, rest, hsome, e1, e2⟩
  · rw [hfound] at hnone
    exact absurd hnone (by simp)
  · rw [hfound] at hsome
    simp only [Option.some.injEq, Prod.mk.injEq] at hsome
    obtain ⟨hu, hrest⟩ := hsome
    have hf : (voices_noteoff (voices_noteon mtof x num val chan) num chan).f_free =
        free ++ [v] := by rw [e2, a, hu]
    have hperm : (free ++ [v]).Perm x.f_free := by
      rw [hfree]
      exact List.perm_append_singleton v free
    refine ⟨by rw [e1, hrest], hf, by rw [hf]; exact hperm, ?_⟩
    intro w
    rw [hf]
    exact hperm.mem_iff

theorem C26_noteon_noteoff_witness :
    (voices_noteoff (voices_noteon (fun _ => 440) two_voice_state 60 100 0) 60 0).f_used =
      two_voice_state.f_used ∧
    (voices_noteoff (voices_noteon (fun _ => 440) two_voice_state 60 100 0) 60 0).f_free =
      [1, 0] :=
  ⟨(C26_noteon_noteoff (fun _ => 440) two_voice_state 60 100 0 0 [1] (by decide) (by decide)
      (by decide) (by decide)).1,
    (C26_noteon_noteoff (fun _ => 440) two_voice_state 60 100 0 0 [1] (by decide) (by decide)
      (by decide) (by decide)).2.1⟩

/-- C26, as stated, fails in two ways in a pool of two voices. When voice 0 already
plays note 60, a second note-on for 60 takes voice 1 and the note-off releases voice
0, the first voice that plays 60. When both voices sound, the note-on for 64 steals
voice 0 and the note-off frees it, so a voice that was used ends up free. -/
theorem C26_counterexample_same_note_and_steal :
    (voices_noteon (fun _ => 440) two_voice_state 60 100 0).f_free = [1] ∧
    (voices_noteon (fun _ => 440) two_voice_state 60 100 0).f_used = [0] ∧
    (voices_noteoff (voices_noteon (fun _ => 440)
      (voices_noteon (fun _ => 440) two_voice_state 60 100 0) 60 100 0) 60 0).f_free = [0] ∧
    (voices_noteoff (voices_noteon (fun _ => 440)
      (voices_noteon (fun _ => 440) two_voice_state 60 100 0) 60 100 0) 60 0).f_used = [1] ∧
    (voices_noteon (fun _ => 440)
      (voices_noteon (fun _ => 440) two_voice_state 60 100 0) 62 100 0).f_free = [] ∧
    (voices_noteon (fun _ => 440)
      (voices_noteon (fun _ => 440) two_voice_state 60 100 0) 62 100 0).f_used = [0, 1] ∧
    (voices_noteoff (voices_noteon (fun _ => 440) (voices_noteon (fun _ => 440)
      (voices_noteon (fun _ => 440) two_voice_state 60 100 0) 62 100 0) 64 100 0)
        64 0).f_free = [0] ∧
    (voices_noteoff (voices_noteon (fun _ => 440) (voices_noteon (fun _ => 440)
      (voices_noteon (fun _ => 440) two_voice_state 60 100 0) 62 100 0) 64 100 0)
        64 0).f_used = [1] := by
  decide

/-! ### All notes off -/

/-- The loop of `faust_ui_manager_all_notes_off` leaves 0 in the gate cell of every
voice of the chain. -/
theorem all_notes_off_gates_zero (z : Nat) (used : List Nat) :
    ∀ (x y : t_faust_ui_manager), y.f_uis = x.f_uis → y.f_voices = x.f_voices →
    (z ∈ used.filterMap fun u =>
      match voice_gate x u with
      | some i => (x.f_uis[i]?).map fun c => c.p_zone
      | none => none) →
    (used.foldl (fun y u => write_ctl y (voice_gate y u) 0) y).zone_mem z = 0 := by
  induction used with
  | nil =>
    intro x y _ _ hz
    simp at hz
  | cons u used ih =>
    intro x y hu hv hz
    rw [List.foldl_cons]
    obtain ⟨w1, w2, _, _⟩ := write_ctl_fields y (voice_gate y u) 0
    by_cases hrest : z ∈ used.filterMap fun u =>
        match voice_gate x u with
        | some i => (x.f_uis[i]?).map fun c => c.p_zone
        | none => none
    · exact ih x _ (w1.trans hu) (w2.trans hv) hrest
    · rw [all_notes_off_gates_mem z used x _ (w1.trans hu) (w2.trans hv) hrest]
      rw [List.filterMap_cons] at hz
      have hg : voice_gate y u = voice_gate x u := by
        unfold voice_gate
        rw [hv]
      cases hgate : voice_gate x u with
      | none =>
        rw [hgate] at hz
        exact absurd hz hrest
      | some i =>
        rw [hgate] at hz
        simp only at hz
        cases hc : x.f_uis[i]? with
        | none =>
          rw [hc] at hz
          exact absurd hz hrest
        | some c =>
          rw [hc] at hz
          simp only [Option.map_some', List.mem_cons] at hz
          rcases hz with e | e
          · rw [hg, hgate]
            unfold write_ctl
            simp only [hu, hc]
            rw [e]
            simp [write_zone]
          · exact absurd e hrest

/-- C27. After `faust_ui_manager_all_notes_off` the used chain is empty, the free
chain is the free chain from before followed by the used chain from before in the same
order, the gate cell of every voice that was used holds 0, and every other cell, so the
value of every other control, is as it was. -/
theorem C27_all_notes_off (x : t_faust_ui_manager) :
    (faust_ui_manager_all_notes_off x).f_used = [] ∧
    (faust_ui_manager_all_notes_off x).f_free = x.f_free ++ x.f_used ∧
    (∀ u ∈ x.f_used, ∀ i c, voice_gate x u = some i → x.f_uis[i]? = some c →
      (faust_ui_manager_all_notes_off x).zone_mem c.p_zone = 0) ∧
    (∀ z, z ∉ sounding_gate_zones x →
      (faust_ui_manager_all_notes_off x).zone_mem z = x.zone_mem z) ∧
    (faust_ui_manager_all_notes_off x).f_uis = x.f_uis ∧
    (faust_ui_manager_all_notes_off x).f_voices = x.f_voices := by
  obtain ⟨a, b, c, _⟩ := all_notes_off_chains x
  refine ⟨b, a, ?_, fun z hz => all_notes_off_zone_mem x z hz, all_notes_off_uis x, c⟩
  intro u hu i c hg hc
  have hmem : c.p_zone ∈ x.f_used.filterMap fun u =>
      match voice_gate x u with
      | some i => (x.f_uis[i]?).map fun c => c.p_zone
      | none => none := by
    rw [List.mem_filterMap]
    exact ⟨u, hu, by rw [hg]; simp only; rw [hc]; rfl⟩
  have := all_notes_off_gates_zero c.p_zone x.f_used x x rfl rfl hmem
  unfold faust_ui_manager_all_notes_off
  exact this

theorem C27_all_notes_off_witness :
    (faust_ui_manager_all_notes_off gate_sounding_state).zone_mem 1 = 0 :=
  (C27_all_notes_off gate_sounding_state).2.2.1 0 (by decide) 0
    (add_param_record
      (faust_ui_manager_ui_declare sscanf_none
        (faust_ui_manager_prepare_changes faust_ui_manager_new) 1 "voice".toList "gate".toList)
      "gate".toList FAUST_UI_TYPE_NUMBER 1 5 0 10 0)
    (by decide) (by decide)

/-! ## Saved states, kinds and voice roles -/

/-! ### Saved states -/

theorem set_value_f_uis (x : t_faust_ui_manager) (name : List Char) (f : ℚ) :
    (faust_ui_manager_set_value x name f).1.f_uis = x.f_uis := by
  unfold faust_ui_manager_set_value
  split
  · split
    · split_ifs <;> rfl
    · rfl
  · rfl

theorem midi_apply_f_uis (i num chan : Int) (c : t_faust_ui) (st : t_faust_ui_manager × Int)
    (b : t_faust_midi_ui) : (midi_apply i num chan c st b).1.f_uis = st.1.f_uis := by
  unfold midi_apply
  simp only
  split_ifs <;> rfl

theorem midi_bindings_f_uis (i num chan : Int) (c : t_faust_ui) (bs : List t_faust_midi_ui) :
    ∀ st : t_faust_ui_manager × Int,
    (bs.foldl (midi_apply i num chan c) st).1.f_uis = st.1.f_uis := by
  induction bs with
  | nil => exact fun _ => rfl
  | cons b bs ih =>
    intro st
    rw [List.foldl_cons, ih, midi_apply_f_uis]

theorem midi_scan_f_uis (i num chan : Int) (uis : List t_faust_ui) :
    ∀ st : t_faust_ui_manager × Int, (midi_scan i num chan uis st).1.f_uis = st.1.f_uis := by
  unfold midi_scan
  induction uis with
  | nil => exact fun _ => rfl
  | cons c uis ih =>
    intro st
    rw [List.foldl_cons, ih, midi_bindings_f_uis]

theorem midi_dispatch_f_uis (mtof : Int → ℚ) (x : t_faust_ui_manager) (i val num chan : Int) :
    (midi_dispatch mtof x i val num chan).f_uis = x.f_uis := by
  unfold midi_dispatch
  simp only
  rw [midi_scan_f_uis, midi_voices_f_uis]

theorem get_midi_f_uis (mtof : Int → ℚ) (x : t_faust_ui_manager) (s : List Char)
    (argv : List t_atom) (midichan : Int) :
    (faust_ui_manager_get_midi mtof x s argv midichan).1.f_uis = x.f_uis := by
  unfold faust_ui_manager_get_midi
  simp only
  have hD : ∀ c, (midi_dispatch mtof x (midi_find s 11 1)
      (if midi_argc (midi_find s 11 1) > 0 then c_int ((atom_float argv[0]?).getD 0) else 0)
      (if midi_argc (midi_find s 11 1) > 1 then c_int ((atom_float argv[1]?).getD 0) else 0)
      c).f_uis = x.f_uis := fun c => midi_dispatch_f_uis _ _ _ _ _ _
  generalize midi_dispatch mtof x (midi_find s 11 1)
    (if midi_argc (midi_find s 11 1) > 0 then c_int ((atom_float argv[0]?).getD 0) else 0)
    (if midi_argc (midi_find s 11 1) > 1 then c_int ((atom_float argv[1]?).getD 0) else 0)
    = D at hD ⊢
  repeat' split
  all_goals first | rfl | exact hD _

theorem value_changes_f_uis (mtof : Int → ℚ) (changes : List ValueChange) :
    ∀ x : t_faust_ui_manager, (changes.foldl (value_change mtof) x).f_uis = x.f_uis := by
  induction changes with
  | nil => exact fun _ => rfl
  | cons ch changes ih =>
    intro x
    rw [List.foldl_cons, ih]
    cases ch with
    | setValue name f => exact set_value_f_uis x name f
    | midi s argv midichan => exact get_midi_f_uis mtof x s argv midichan

/-- The loop of `faust_ui_manager_restore_states` over records whose saved values
are the values `m0` of their cells: the cells of the records get the values `m0`, and
every other cell keeps its value. -/
theorem restore_loop (m0 : Nat → ℚ) (uis : List t_faust_ui)
    (hsaved : ∀ c ∈ uis, c.p_saved = m0 c.p_zone) :
    ∀ y : t_faust_ui_manager,
    ((uis.foldl (fun y c => set_zone y c.p_zone c.p_saved c.p_uirecv) y).f_uis = y.f_uis) ∧
    ∀ z, (uis.foldl (fun y c => set_zone y c.p_zone c.p_saved c.p_uirecv) y).zone_mem z =
      if ∃ c ∈ uis, c.p_zone = z then m0 z else y.zone_mem z := by
  induction uis with
  | nil =>
    intro y
    refine ⟨rfl, fun z => ?_⟩
    rw [if_neg (by simp)]
    rfl
  | cons c uis ih =>
    intro y
    rw [List.foldl_cons]
    obtain ⟨i1, i2⟩ := ih (fun d hd => hsaved d (List.mem_cons_of_mem _ hd))
      (set_zone y c.p_zone c.p_saved c.p_uirecv)
    refine ⟨i1, fun z => ?_⟩
    rw [i2 z]
    by_cases hrest : ∃ d ∈ uis, d.p_zone = z
    · rw [if_pos hrest, if_pos]
      obtain ⟨d, hd, hz⟩ := hrest
      exact ⟨d, List.mem_cons_of_mem _ hd, hz⟩
    · rw [if_neg hrest]
      by_cases hc : c.p_zone = z
      · rw [if_pos ⟨c, List.mem_cons_self _ _, hc⟩]
        unfold set_zone write_zone
        simp only
        rw [if_pos hc.symm, hsaved c (List.mem_cons_self _ _), hc]
      · rw [if_neg]
        · unfold set_zone write_zone
          simp only
          rw [if_neg (fun e => hc e.symm)]
        · rintro ⟨d, hd, hz⟩
          rcases List.mem_cons.1 hd with e | e
          · exact hc (e ▸ hz)
          · exact hrest ⟨d, e, hz⟩

/-- C28. After `faust_ui_manager_save_states`, any sequence of calls of
`faust_ui_manager_set_value` and incoming MIDI messages, and then
`faust_ui_manager_restore_states`, the cell of every control holds the value it held
at the save. A save followed at once by a restore changes no cell at all. -/
theorem C28_save_restore (mtof : Int → ℚ) (x : t_faust_ui_manager)
    (changes : List ValueChange) :
    (∀ c ∈ (faust_ui_manager_restore_states
        (changes.foldl (value_change mtof) (faust_ui_manager_save_states x))).f_uis,
      (faust_ui_manager_restore_states
        (changes.foldl (value_change mtof) (faust_ui_manager_save_states x))).zone_mem c.p_zone
        = x.zone_mem c.p_zone) ∧
    (faust_ui_manager_restore_states
      (changes.foldl (value_change mtof) (faust_ui_manager_save_states x))).f_uis.map
        (fun c => (c.p_longname, c.p_zone)) = x.f_uis.map (fun c => (c.p_longname, c.p_zone)) ∧
    (faust_ui_manager_restore_states (faust_ui_manager_save_states x)).zone_mem = x.zone_mem := by
  have hsave : (faust_ui_manager_save_states x).f_uis =
      x.f_uis.map fun c => { c with p_saved := x.zone_mem c.p_zone } := rfl
  have hsaved : ∀ c ∈ (faust_ui_manager_save_states x).f_uis, c.p_saved = x.zone_mem c.p_zone := by
    intro c hc
    rw [hsave, List.mem_map] at hc
    obtain ⟨d, _, rfl⟩ := hc
    rfl
  have hrestore : ∀ y : t_faust_ui_manager, y.f_uis = (faust_ui_manager_save_states x).f_uis →
      (faust_ui_manager_restore_states y).f_uis = (faust_ui_manager_save_states x).f_uis ∧
      ∀ z, (faust_ui_manager_restore_states y).zone_mem z =
        if ∃ c ∈ (faust_ui_manager_save_states x).f_uis, c.p_zone = z then x.zone_mem z
        else y.zone_mem z := by
    intro y hy
    unfold faust_ui_manager_restore_states
    rw [hy]
    obtain ⟨r1, r2⟩ := restore_loop x.zone_mem _ hsaved y
    exact ⟨r1.trans hy, r2⟩
  obtain ⟨a1, a2⟩ := hrestore _ (value_changes_f_uis mtof changes (faust_ui_manager_save_states x))
  refine ⟨?_, ?_, ?_⟩
  · intro c hc
    rw [a1] at hc
    rw [a2, if_pos ⟨c, hc, rfl⟩]
  · rw [a1, hsave, List.map_map]
    rfl
  · obtain ⟨_, b2⟩ := hrestore (faust_ui_manager_save_states x) rfl
    funext z
    rw [b2 z]
    split_ifs
    · rfl
    · rfl

theorem C28_save_restore_witness :
    (faust_ui_manager_restore_states (faust_ui_manager_save_states vol_moved_state)).zone_mem 1 =
      vol_moved_state.zone_mem 1 :=
  congrFun (C28_save_restore (fun _ => 440) vol_moved_state []).2.2 1

/-! ### Kinds and voice roles -/

theorem call_record_kind (x : t_faust_ui_manager) (call : UICall) :
    (call_record x call).map (fun c => c.p_type) = call_kind call := by
  cases call <;>
    simp only [call_record, call_kind, Option.map_some', Option.map_none',
      (add_param_record_fields _ _ _ _ _ _ _ _).2.2.2.2]

theorem written_records_kinds (sscanf : List Char → List Char → List Nat)
    (calls : List UICall) : ∀ x : t_faust_ui_manager,
    (written_records sscanf x calls).map (fun c => c.p_type) = calls.filterMap call_kind := by
  induction calls with
  | nil => exact fun _ => rfl
  | cons call calls ih =>
    intro x
    rw [written_records, List.map_append, ih, List.filterMap_cons, ← call_record_kind x call]
    cases call_record x call <;> rfl

/-- C29 (amended). After every introspection pass, whatever the registry was before,
the controls are, in the order of the calls, the long names that the add calls of the
pass compute, each with the kind that its add call passes: a long name that is
registered again keeps its kind when the call passes the same kind, and takes the new
kind otherwise. -/
theorem C29_kind_of_latest_call (sscanf : List Char → List Char → List Nat)
    (x : t_faust_ui_manager) (calls : List UICall) :
    (introspection_pass sscanf x calls).f_uis.map (fun c => c.p_longname) =
      registered_long_names sscanf (faust_ui_manager_prepare_changes x) calls ∧
    (introspection_pass sscanf x calls).f_uis.map (fun c => c.p_type) =
      calls.filterMap call_kind ∧
    (introspection_pass sscanf x calls).f_uis.map (fun c => (c.p_longname, c.p_type)) =
      (registered_long_names sscanf (faust_ui_manager_prepare_changes x) calls).zip
        (calls.filterMap call_kind) := by
  have h1 := pass_long_names sscanf x calls
  have h2 : (introspection_pass sscanf x calls).f_uis.map (fun c => c.p_type) =
      calls.filterMap call_kind := by
    rw [pass_uis_eq_written, written_records_kinds]
  refine ⟨h1, h2, ?_⟩
  rw [← h1, ← h2, List.zip_map']

theorem C29_kind_of_latest_call_witness :
    (introspection_pass sscanf_none vol_state [.addToggle "vol".toList 1]).f_uis.map
      (fun c => c.p_type) = [UICall.addToggle "vol".toList 1].filterMap call_kind :=
  (C29_kind_of_latest_call sscanf_none vol_state [.addToggle "vol".toList 1]).2.1

/-- C29, as stated, fails when a DSP registers a long name with another kind: after
a pass that adds the Number "vol", a pass that adds a Toggle "vol" leaves one control
"vol", which is a Toggle. -/
theorem C29_counterexample_kind_changes :
    (vol_state.f_uis.map fun c => (c.p_longname, c.p_type)) =
      [("vol".toList, FAUST_UI_TYPE_NUMBER)] ∧
    ((introspection_pass sscanf_none vol_state [.addToggle "vol".toList 1]).f_uis.map
      fun c => (c.p_longname, c.p_type)) = [("vol".toList, FAUST_UI_TYPE_TOGGLE)] := by
  decide

theorem attach_meta_voice (m : t_last_meta) (c : t_faust_ui) (type : Int) (zone : Nat)
    (init min max : ℚ) (h : c.p_type = FAUST_UI_TYPE_BARGRAPH) :
    (attach_meta m c type zone init min max).p_voice = c.p_voice := by
  unfold attach_meta
  simp only
  split_ifs
  all_goals first | rfl | contradiction

theorem add_param_record_voice (x : t_faust_ui_manager) (label : List Char) (zone : Nat)
    (init min max step : ℚ) :
    (add_param_record x label FAUST_UI_TYPE_BARGRAPH zone init min max step).p_voice =
      VOICE_NONE := by
  unfold add_param_record
  simp only
  split
  · rw [attach_meta_voice _ _ _ _ _ _ _ rfl]
    rfl
  · rw [attach_meta_voice _ _ _ _ _ _ _ rfl]
    rfl

theorem add_param_record_bargraph (x : t_faust_ui_manager) (label : List Char) (type : Int)
    (zone : Nat) (init min max step : ℚ)
    (h : (add_param_record x label type zone init min max step).p_type =
      FAUST_UI_TYPE_BARGRAPH) :
    (add_param_record x label type zone init min max step).p_voice = VOICE_NONE := by
  rw [(add_param_record_fields x label type zone init min max step).2.2.2.2] at h
  rw [h]
  exact add_param_record_voice x label zone init min max step

theorem bargraph_no_voice_call (sscanf : List Char → List Char → List Nat)
    (x : t_faust_ui_manager) (call : UICall) (h : bargraph_no_voice x) :
    bargraph_no_voice (ui_call sscanf x call) := by
  cases hl : call_label call with
  | none =>
    intro c hc
    rw [(ui_call_other sscanf x call hl).1] at hc
    exact h c hc
  | some label =>
    obtain ⟨type, zone, init, min, max, step, e, _⟩ := ui_call_add sscanf x call label hl
    rw [e]
    intro c hc ht
    rcases add_param_uis x label type zone init min max step with
      ⟨l1, c0, l2, hx, _, _, hnew⟩ | ⟨_, hnew⟩
    · rw [hnew] at hc
      rcases List.mem_append.1 hc with hm | hm
      · exact h c (by rw [hx]; exact List.mem_append_left _ hm) ht
      · rcases List.mem_cons.1 hm with hm | hm
        · rw [hm] at ht ⊢
          exact add_param_record_bargraph x label type zone init min max step ht
        · exact h c (by rw [hx]; exact List.mem_append_right _ (List.mem_cons_of_mem _ hm)) ht
    · rw [hnew] at hc
      rcases List.mem_cons.1 hc with hm | hm
      · rw [hm] at ht ⊢
        exact add_param_record_bargraph x label type zone init min max step ht
      · exact h c hm ht

theorem bargraph_no_voice_build (sscanf : List Char → List Char → List Nat)
    (calls : List UICall) : ∀ x : t_faust_ui_manager, bargraph_no_voice x →
    bargraph_no_voice (build_user_interface sscanf x calls) := by
  unfold build_user_interface
  induction calls with
  | nil => exact fun _ h => h
  | cons call calls ih =>
    intro x h
    rw [List.foldl_cons]
    exact ih _ (bargraph_no_voice_call sscanf x call h)

theorem bargraph_no_voice_prepare (x : t_faust_ui_manager) (h : bargraph_no_voice x) :
    bargraph_no_voice (faust_ui_manager_prepare_changes x) := by
  intro c hc ht
  rw [prepare_changes_uis, List.mem_map] at hc
  obtain ⟨d, hd, rfl⟩ := hc
  exact h d hd ht

theorem written_records_no_voice (sscanf : List Char → List Char → List Nat)
    (calls : List UICall) : ∀ x : t_faust_ui_manager, ∀ c ∈ written_records sscanf x calls,
    c.p_type = FAUST_UI_TYPE_BARGRAPH → c.p_voice = VOICE_NONE := by
  induction calls with
  | nil =>
    intro x c hc
    simp [written_records] at hc
  | cons call calls ih =>
    intro x c hc ht
    rw [written_records, List.mem_append] at hc
    rcases hc with hm | hm
    · cases hl : call_label call with
      | none =>
        rw [(ui_call_other sscanf x call hl).2.2.2] at hm
        simp at hm
      | some label =>
        obtain ⟨type, zone, init, min, max, step, _, e⟩ := ui_call_add sscanf x call label hl
        rw [e] at hm
        simp only [Option.toList, List.mem_singleton] at hm
        rw [hm] at ht ⊢
        exact add_param_record_bargraph x label type zone init min max step ht
    · exact ih _ c hm ht

/-- C30. After every introspection pass, whatever the metadata declared and whatever
the registry was before, no Bargraph of the registry has a voice role other than
`VOICE_NONE`. The same holds after every call of a pass and for every sequence of
passes that starts from a new manager. A voice declaration aimed at the cell of a
Bargraph leaves the role of the Bargraph `VOICE_NONE`. -/
theorem C30_bargraph_no_voice (sscanf : List Char → List Char → List Nat)
    (x : t_faust_ui_manager) (passes : List (List UICall)) (calls : List UICall)
    (label value : List Char) (zone : Nat) (min max : ℚ) :
    bargraph_no_voice (introspection_pass sscanf x calls) ∧
    bargraph_no_voice (passes.foldl (introspection_pass sscanf) faust_ui_manager_new) ∧
    bargraph_no_voice (build_user_interface sscanf (faust_ui_manager_prepare_changes
      (passes.foldl (introspection_pass sscanf) faust_ui_manager_new)) calls) ∧
    (call_record (ui_call sscanf x (.declare zone "voice".toList value))
      (.addBargraph label zone min max)).map (fun c => c.p_voice) = some VOICE_NONE := by
  have hpass : ∀ (y : t_faust_ui_manager) (cs : List UICall),
      bargraph_no_voice (introspection_pass sscanf y cs) := by
    intro y cs c hc ht
    rw [pass_uis_eq_written] at hc
    exact written_records_no_voice sscanf cs _ c hc ht
  have hseq : bargraph_no_voice
      (passes.foldl (introspection_pass sscanf) faust_ui_manager_new) := by
    rcases List.eq_nil_or_concat passes with e | ⟨ps, p, e⟩
    · rw [e]
      intro c hc
      simp [faust_ui_manager_new] at hc
    · rw [e, List.concat_eq_append, List.foldl_append]
      exact hpass _ p
  refine ⟨hpass x calls, hseq, ?_, ?_⟩
  · exact bargraph_no_voice_build sscanf calls _ (bargraph_no_voice_prepare _ hseq)
  · simp only [call_record, Option.map_some']
    rw [add_param_record_voice]

theorem C30_bargraph_no_voice_witness :
    (call_record (ui_call sscanf_none faust_ui_manager_new
        (.declare 1 "voice".toList "gate".toList))
      (.addBargraph "meter".toList 1 0 1)).map (fun c => c.p_voice) = some VOICE_NONE :=
  (C30_bargraph_no_voice sscanf_none faust_ui_manager_new [] [] "meter".toList "gate".toList
    1 0 1).2.2.2

/-! ## Switches, order of the controls, monotone scaling -/

/-- C31. For a Button or Toggle that the lookup finds and every `f`,
`faust_ui_manager_set_value` succeeds and leaves the cell of the control equal to 1 when
`f > FLT_EPSILON` and to 0 otherwise, so the cell holds 0 or 1;
`faust_ui_manager_get_value` then returns that value. -/
theorem C31_set_value_switch (x : t_faust_ui_manager) (name : List Char) (f : ℚ) (i : Nat)
    (ui : t_faust_ui) (hget : faust_ui_manager_get x name = some i)
    (hui : x.f_uis[i]? = some ui)
    (hsw : ui.p_type = FAUST_UI_TYPE_BUTTON ∨ ui.p_type = FAUST_UI_TYPE_TOGGLE) :
    (faust_ui_manager_set_value x name f).2 = 0 ∧
    (faust_ui_manager_set_value x name f).1.zone_mem ui.p_zone =
      (if f > FLT_EPSILON then 1 else 0) ∧
    ((faust_ui_manager_set_value x name f).1.zone_mem ui.p_zone = 0 ∨
      (faust_ui_manager_set_value x name f).1.zone_mem ui.p_zone = 1) ∧
    faust_ui_manager_get_value (faust_ui_manager_set_value x name f).1 name =
      (some (if f > FLT_EPSILON then 1 else 0), 0) := by
  have hset : faust_ui_manager_set_value x name f =
      (set_zone x ui.p_zone (if f > FLT_EPSILON then 1 else 0) ui.p_uirecv, 0) := by
    unfold faust_ui_manager_set_value
    rw [hget]
    simp only [hui]
    rw [if_pos hsw]
  have hmem : (set_zone x ui.p_zone (if f > FLT_EPSILON then 1 else 0) ui.p_uirecv).zone_mem
      ui.p_zone = (if f > FLT_EPSILON then 1 else 0) := by
    simp [set_zone, write_zone]
  rw [hset]
  refine ⟨rfl, hmem, ?_, ?_⟩
  · rw [hmem]
    split_ifs
    · exact Or.inr rfl
    · exact Or.inl rfl
  · unfold faust_ui_manager_get_value
    have hg : faust_ui_manager_get
        (set_zone x ui.p_zone (if f > FLT_EPSILON then 1 else 0) ui.p_uirecv) name = some i :=
      hget
    rw [hg]
    have hu : (set_zone x ui.p_zone (if f > FLT_EPSILON then 1 else 0) ui.p_uirecv).f_uis[i]? =
        some ui := hui
    simp only [hu, hmem]

theorem C31_set_value_switch_witness :
    (faust_ui_manager_set_value gate_toggle_state "Gate".toList 5).2 = 0 ∧
    (faust_ui_manager_set_value gate_toggle_state "Gate".toList 5).1.zone_mem 1 = 1 := by
  have h := C31_set_value_switch gate_toggle_state "Gate".toList 5 0
    { p_name := "Gate".toList, p_longname := "Synth/Gate".toList, p_uisym := none,
      p_uirecv := none, p_uival := 0, p_type := 1, p_zone := 1, p_min := 0, p_max := 1,
      p_step := 1, p_default := 0, p_saved := 0, p_kept := true, p_index := 0, p_tempv := 0,
      p_voice := 0, p_midi := [] }
    (by decide) (by decide) (Or.inr (by decide))
  refine ⟨h.1, h.2.1.trans ?_⟩
  rw [if_pos]
  unfold FLT_EPSILON
  norm_num

/-- C33. After an introspection pass the list of the controls is in strictly
ascending order of the indices, the indices are 0, 1, ..., n - 1, and the control at
position `i` is the record written by the `i`-th call of `faust_ui_manager_add_param`
of the pass, although a call that makes a new record puts it in front of the list. -/
theorem C33_index_order (sscanf : List Char → List Char → List Nat)
    (x : t_faust_ui_manager) (calls : List UICall) :
    List.Pairwise (fun a b : t_faust_ui => a.p_index < b.p_index)
      (introspection_pass sscanf x calls).f_uis ∧
    (introspection_pass sscanf x calls).f_uis.map (fun c => c.p_index) =
      List.range (introspection_pass sscanf x calls).f_uis.length ∧
    (introspection_pass sscanf x calls).f_uis =
      written_records sscanf (faust_ui_manager_prepare_changes x) calls ∧
    (introspection_pass sscanf x calls).f_uis.length = (calls.filter is_add_param).length ∧
    (∀ (s : t_faust_ui_manager) (label : List Char) (type : Int) (zone : Nat)
      (init min max step : ℚ),
      add_param_reuse s (faust_ui_manager_get_long_name s label) = none →
      (faust_ui_manager_add_param s label type zone init min max step).f_uis =
        add_param_record s label type zone init min max step :: s.f_uis) := by
  refine ⟨pass_sorted sscanf x calls, pass_index_range sscanf x calls,
    pass_uis_eq_written sscanf x calls, ?_, ?_⟩
  · rw [pass_uis_eq_written, written_records_length]
  · intro s label type zone init min max step hnone
    rcases add_param_uis s label type zone init min max step with
      ⟨l1, c, l2, _, _, hsome, _⟩ | ⟨_, h⟩
    · rw [hnone] at hsome
      exact absurd hsome (by simp)
    · exact h

theorem C33_index_order_witness :
    (introspection_pass sscanf_none faust_ui_manager_new two_controls).f_uis.map
      (fun c => c.p_index) =
      List.range (introspection_pass sscanf_none faust_ui_manager_new two_controls).f_uis.length :=
  (C33_index_order sscanf_none faust_ui_manager_new two_controls).2.1

/-! ### Monotone scaling -/

theorem snapped_raw_mono (a b min max : Int) (h : a ≤ b) :
    snapped_raw a min max ≤ snapped_raw b min max := by
  unfold snapped_raw
  simp only
  split_ifs <;> omega

theorem step_round_mono (s w1 w2 : ℚ) (hs : s ≠ 0) (h : w1 ≤ w2) :
    s * ((c_round (w1 / s) : Int) : ℚ) ≤ s * ((c_round (w2 / s) : Int) : ℚ) := by
  rcases lt_or_gt_of_ne hs with hneg | hpos
  · have hdiv : w2 / s ≤ w1 / s := div_le_div_of_nonpos_of_le hneg.le h
    have hr : ((c_round (w2 / s) : Int) : ℚ) ≤ ((c_round (w1 / s) : Int) : ℚ) := by
      exact_mod_cast c_round_mono _ _ hdiv
    exact mul_le_mul_of_nonpos_left hr hneg.le
  · have hdiv : w1 / s ≤ w2 / s := div_le_div_of_nonneg_right h hpos.le
    have hr : ((c_round (w1 / s) : Int) : ℚ) ≤ ((c_round (w2 / s) : Int) : ℚ) := by
      exact_mod_cast c_round_mono _ _ hdiv
    exact mul_le_mul_of_nonneg_left hr hpos.le

/-- C36. For a Number control and a raw range `rawMin < rawMax`, `translate` is
monotone in the raw value for every `p_min`, `p_max` and `p_step`, also when
`p_min > p_max` and when the step is negative; the raw value `rawMin` gives the smaller
of the two bounds. -/
theorem C36_translate_monotone (raw1 raw2 rawMin rawMax : Int) (p_min p_max p_step : ℚ)
    (hraw : rawMin < rawMax) (hle : raw1 ≤ raw2) :
    translate raw1 rawMin rawMax FAUST_UI_TYPE_NUMBER p_min p_max p_step ≤
      translate raw2 rawMin rawMax FAUST_UI_TYPE_NUMBER p_min p_max p_step ∧
    translate rawMin rawMin rawMax FAUST_UI_TYPE_NUMBER p_min p_max p_step =
      Min.min p_min p_max := by
  have hden : (0 : ℚ) < ((rawMax - rawMin : Int) : ℚ) := by
    have : (0 : Int) < rawMax - rawMin := by omega
    exact_mod_cast this
  have hwidth : (0 : ℚ) ≤ Max.max p_min p_max - Min.min p_min p_max := by
    have := min_le_max (a := p_min) (b := p_max)
    linarith
  have hw : ((snapped_raw raw1 rawMin rawMax - rawMin : Int) : ℚ) /
      ((rawMax - rawMin : Int) : ℚ) * (Max.max p_min p_max - Min.min p_min p_max) ≤
      ((snapped_raw raw2 rawMin rawMax - rawMin : Int) : ℚ) /
      ((rawMax - rawMin : Int) : ℚ) * (Max.max p_min p_max - Min.min p_min p_max) := by
    apply mul_le_mul_of_nonneg_right _ hwidth
    apply div_le_div_of_nonneg_right _ hden.le
    have := snapped_raw_mono raw1 raw2 rawMin rawMax hle
    have h2 : snapped_raw raw1 rawMin rawMax - rawMin ≤ snapped_raw raw2 rawMin rawMax - rawMin := by
      omega
    exact_mod_cast h2
  have hmin : snapped_raw rawMin rawMin rawMax = rawMin := by
    unfold snapped_raw
    simp only
    split_ifs <;> omega
  constructor
  · rw [translate_eq, translate_eq, if_neg number_not_switch, if_neg number_not_switch]
    by_cases hs : (if p_min > p_max then -p_step else p_step) ≠ 0
    · rw [if_pos hs, if_pos hs]
      exact add_le_add_left (step_round_mono _ _ _ hs hw) _
    · rw [if_neg hs, if_neg hs]
      exact add_le_add_left hw _
  · rw [translate_eq, if_neg number_not_switch, hmin, sub_self]
    have hz : ((0 : Int) : ℚ) / ((rawMax - rawMin : Int) : ℚ) *
        (Max.max p_min p_max - Min.min p_min p_max) = 0 := by
      rw [Int.cast_zero, zero_div, zero_mul]
    have hr : c_round 0 = 0 := by
      have := c_round_int 0
      rwa [Int.cast_zero] at this
    rw [hz, zero_div, hr, Int.cast_zero, mul_zero, add_zero, ite_self]

theorem C36_translate_monotone_witness :
    translate 10 0 128 FAUST_UI_TYPE_NUMBER 1 0 (1 / 4) ≤
      translate 100 0 128 FAUST_UI_TYPE_NUMBER 1 0 (1 / 4) :=
  (C36_translate_monotone 10 100 0 128 1 0 (1 / 4) (by decide) (by decide)).1

/-! ## Notes and voices -/

theorem write_ctl_zone (x : t_faust_ui_manager) (c : Option Nat) (v : ℚ) :
    (∀ i ui, c = some i → x.f_uis[i]? = some ui →
      (write_ctl x c v).zone_mem = write_zone x.zone_mem ui.p_zone v) ∧
    ((c = none ∨ ∃ i, c = some i ∧ x.f_uis[i]? = none) →
      (write_ctl x c v).zone_mem = x.zone_mem) := by
  constructor
  · intro i ui hc hui
    unfold write_ctl
    rw [hc]
    simp only [hui]
  · rintro (h | ⟨i, h1, h2⟩)
    · rw [h]
      rfl
    · unfold write_ctl
      rw [h1]
      simp only [h2]

/-- A store through a voice control leaves a cell with the value 0 or with the value
stored, and leaves every cell but the one of the control as it was. -/
theorem write_ctl_cell (x : t_faust_ui_manager) (c : Option Nat) (v : ℚ) (z : Nat) :
    (∀ i ui, c = some i → x.f_uis[i]? = some ui → ui.p_zone = z →
      (write_ctl x c v).zone_mem z = v) ∧
    ((∀ i ui, c = some i → x.f_uis[i]? = some ui → ui.p_zone ≠ z) →
      (write_ctl x c v).zone_mem z = x.zone_mem z) := by
  constructor
  · intro i ui hc hui hz
    rw [(write_ctl_zone x c v).1 i ui hc hui, ← hz]
    simp [write_zone]
  · intro h
    cases c with
    | none => rfl
    | some i =>
      cases hui : x.f_uis[i]? with
      | none => rw [(write_ctl_zone x (some i) v).2 (Or.inr ⟨i, rfl, hui⟩)]
      | some ui =>
        rw [(write_ctl_zone x (some i) v).1 i ui rfl hui]
        unfold write_zone
        rw [if_neg (fun e => h i ui rfl hui e.symm)]

/-- The state that `voices_noteon` leaves when it takes the voice `v` at the head of
the free chain. -/
theorem voices_noteon_take_eq (mtof : Int → ℚ) (x : t_faust_ui_manager) (num val chan : Int)
    (v : Nat) (free : List Nat) (r : t_faust_voice) (h : x.f_free = v :: free)
    (hr : x.f_voices[v]? = some r) :
    voices_noteon mtof x num val chan =
      write_ctl (write_ctl (write_ctl
        { x with f_free := free, f_used := x.f_used ++ [v],
                 f_voices := modify_voice x.f_voices v (fun q => { q with num := num }) }
        r.freq_c (mtof num)) r.gain_c ((val : ℚ) / 127)) r.gate_c 1 := by
  have hm : (modify_voice x.f_voices v (fun q => { q with num := num }))[v]? =
      some { r with num := num } := by
    rw [modify_voice_get, if_pos rfl, hr]
    rfl
  unfold voices_noteon
  simp only
  rw [if_neg (by rw [h]; simp)]
  simp only [h, hm]

/-- C38. When the free chain is not empty, its head `v` a voice of the table that is
not on the used chain, and no voice on the used chain plays the note `num`,
`voices_noteon` for `num` followed by `voices_noteoff` for `num` leaves the used chain
as it was and the free chain as its tail followed by `v`; the voice `v` then has the
note `num`, its gate cell holds 0 and its gain cell, when it is another cell than the
gate cell, holds `val / 127`. -/
theorem C38_note_cycle (mtof : Int → ℚ) (x : t_faust_ui_manager) (num val chan : Int)
    (v : Nat) (free : List Nat) (r : t_faust_voice) (hfree : x.f_free = v :: free)
    (hr : x.f_voices[v]? = some r) (hvu : v ∉ x.f_used)
    (hplay : ∀ u ∈ x.f_used, ∀ q, x.f_voices[u]? = some q → q.num ≠ num) :
    (voices_noteoff (voices_noteon mtof x num val chan) num chan).f_used = x.f_used ∧
    (voices_noteoff (voices_noteon mtof x num val chan) num chan).f_free = free ++ [v] ∧
    (voices_noteoff (voices_noteon mtof x num val chan) num chan).f_voices[v]? =
      some { r with num := num } ∧
    (∀ i c, r.gate_c = some i → x.f_uis[i]? = some c →
      (voices_noteoff (voices_noteon mtof x num val chan) num chan).zone_mem c.p_zone = 0) ∧
    (∀ i c, r.gain_c = some i → x.f_uis[i]? = some c →
      (∀ j d, r.gate_c = some j → x.f_uis[j]? = some d → d.p_zone ≠ c.p_zone) →
      (voices_noteoff (voices_noteon mtof x num val chan) num chan).zone_mem c.p_zone =
        (val : ℚ) / 127) := by
  obtain ⟨a, b, c, _⟩ := voices_noteon_take mtof x num val chan v free hfree
  have huis : (voices_noteon mtof x num val chan).f_uis = x.f_uis :=
    voices_noteon_f_uis mtof x num val chan
  have hm : (voices_noteon mtof x num val chan).f_voices[v]? = some { r with num := num } := by
    rw [c, modify_voice_get, if_pos rfl, hr]
    rfl
  have hfound : unlink_used (voices_noteon mtof x num val chan).f_voices num
      (voices_noteon mtof x num val chan).f_used = some (v, x.f_used) := by
    rw [b]
    apply unlink_used_last _ num v { r with num := num } hm rfl
    intro u hu q hq
    have hne : ¬ v = u := fun e => hvu (by rw [e]; exact hu)
    rw [c, modify_voice_get, if_neg hne] at hq
    exact hplay u hu q hq
  obtain ⟨y1, hy1⟩ : ∃ y1 : t_faust_ui_manager, y1 =
      { voices_noteon mtof x num val chan with
          f_used := x.f_used, f_free := (voices_noteon mtof x num val chan).f_free ++ [v] } :=
    ⟨_, rfl⟩
  have y1_uis : y1.f_uis = x.f_uis := by rw [hy1]; exact huis
  have y1_mem : y1.zone_mem = (voices_noteon mtof x num val chan).zone_mem := by rw [hy1]
  have y1_used : y1.f_used = x.f_used := by rw [hy1]
  have y1_free : y1.f_free = free ++ [v] := by rw [hy1]; simp only [a]
  have y1_voices : y1.f_voices = (voices_noteon mtof x num val chan).f_voices := by rw [hy1]
  have hoff : voices_noteoff (voices_noteon mtof x num val chan) num chan =
      write_ctl y1 r.gate_c 0 := by
    unfold voices_noteoff
    rw [hfound, hy1]
    simp only
    congr 1
    unfold voice_gate
    simp only [hm]
  obtain ⟨_, w2, w3, w4⟩ := write_ctl_fields y1 r.gate_c 0
  have hgate : ∀ (y : t_faust_ui_manager) (w : ℚ) (ui : t_faust_ui), y.f_uis = x.f_uis →
      (∀ j d, r.gate_c = some j → x.f_uis[j]? = some d → d.p_zone ≠ ui.p_zone) →
      (write_ctl y r.gate_c w).zone_mem ui.p_zone = y.zone_mem ui.p_zone := by
    intro y w ui hy hdiff
    apply (write_ctl_cell y r.gate_c w ui.p_zone).2
    intro j d hj hd
    rw [hy] at hd
    exact hdiff j d hj hd
  refine ⟨by rw [hoff, w3, y1_used], by rw [hoff, w4, y1_free],
    by rw [hoff, w2, y1_voices]; exact hm, ?_, ?_⟩
  · intro i ui hg hui
    rw [hoff]
    exact (write_ctl_cell y1 r.gate_c 0 ui.p_zone).1 i ui hg (by rw [y1_uis]; exact hui) rfl
  · intro i ui hg hui hdiff
    rw [hoff, hgate y1 0 ui y1_uis hdiff, y1_mem,
      voices_noteon_take_eq mtof x num val chan v free r hfree hr,
      hgate _ 1 ui (by rw [write_ctl_f_uis, write_ctl_f_uis]) hdiff]
    exact (write_ctl_cell _ r.gain_c _ ui.p_zone).1 i ui hg
      (by rw [write_ctl_f_uis]; exact hui) rfl

theorem C38_note_cycle_witness :
    (voices_noteoff (voices_noteon (fun _ => 440) two_voice_state 60 100 0) 60 0).f_free =
      [1, 0] ∧
    (voices_noteoff (voices_noteon (fun _ => 440) two_voice_state 60 100 0) 60 0).zone_mem 2 =
      0 :=
  ⟨(C38_note_cycle (fun _ => 440) two_voice_state 60 100 0 0 [1]
      { num := 0, freq_c := some 0, gain_c := none, gate_c := some 1 }
      (by decide) (by decide) (by decide) (by decide)).2.1,
    (C38_note_cycle (fun _ => 440) two_voice_state 60 100 0 0 [1]
      { num := 0, freq_c := some 0, gain_c := none, gate_c := some 1 }
      (by decide) (by decide) (by decide) (by decide)).2.2.2.1 1
      (add_param_record
        (build_user_interface sscanf_none
          (faust_ui_manager_prepare_changes faust_ui_manager_new) (two_voice_calls.take 3))
        "gate1".toList FAUST_UI_TYPE_BUTTON 2 0 0 0 0) rfl (by decide)⟩

/-! ## New records and pending metadata -/

/-- C34. The registry holds the control "synth/vol" (short name "vol", saved value 5,
value 7) and no control with the long name "vol". In the next pass the call that adds
a control with the long name "vol" and the initial value 2 finds that record through
its short name: no record is added, the record of "synth/vol" is rewritten, and the
control "vol" has the saved value 5 and the value 7. -/
theorem C34_short_name_match :
    (grouped_vol_state.f_uis.map fun c => (c.p_name, c.p_longname)) =
      [("vol".toList, "synth/vol".toList)] ∧
    (grouped_vol_state.f_uis.map fun c => c.p_saved) = [5] ∧
    grouped_vol_state.zone_mem 1 = 7 ∧
    faust_ui_manager_get_long_name (faust_ui_manager_prepare_changes grouped_vol_state)
      "vol".toList = "vol".toList ∧
    (∀ c ∈ (faust_ui_manager_prepare_changes grouped_vol_state).f_uis,
      c.p_longname ≠ "vol".toList) ∧
    ((faust_ui_manager_add_param (faust_ui_manager_prepare_changes grouped_vol_state)
      "vol".toList FAUST_UI_TYPE_NUMBER 3 2 0 10 0).f_uis.map
        fun c => (c.p_name, c.p_longname, c.p_zone)) = [("vol".toList, "vol".toList, 3)] ∧
    ((faust_ui_manager_add_param (faust_ui_manager_prepare_changes grouped_vol_state)
      "vol".toList FAUST_UI_TYPE_NUMBER 3 2 0 10 0).f_uis.map fun c => c.p_saved) = [5] ∧
    (faust_ui_manager_add_param (faust_ui_manager_prepare_changes grouped_vol_state)
      "vol".toList FAUST_UI_TYPE_NUMBER 3 2 0 10 0).zone_mem 3 = 7 ∧
    ((introspection_pass sscanf_none grouped_vol_state
      [.addNumber "vol".toList 3 2 0 10 0]).f_uis.map fun c => c.p_saved) = [5] ∧
    (introspection_pass sscanf_none grouped_vol_state
      [.addNumber "vol".toList 3 2 0 10 0]).zone_mem 3 = 7 := by
  decide

theorem push_meta_fields (m : t_last_meta) (zone : Nat) (msg num chan : Int) :
    (push_meta m zone msg num chan).zone = zone ∧
    m.midi <+: (push_meta m zone msg num chan).midi ∧
    (push_meta m zone msg num chan).voice = m.voice :=
  ⟨rfl, List.prefix_append _ _, rfl⟩

theorem ite_cases {α : Type} (P : α → Prop) (c : Prop) [Decidable c] (a b : α)
    (ha : P a) (hb : P b) : P (if c then a else b) := by
  split_ifs
  · exact ha
  · exact hb

theorem declare_midi_cases (sscanf : List Char → List Char → List Nat) (m : t_last_meta)
    (zone : Nat) (value : List Char) (P : t_last_meta → Prop) (hm : P m)
    (hp : ∀ msg num chan, P (push_meta m zone msg num chan)) :
    P (declare_midi sscanf m zone value) := by
  unfold declare_midi declare_two declare_one
  repeat' refine ite_cases P _ _ _ ?_ ?_
  all_goals first | exact hm | exact hp _ _ _
theorem declare_midi_fields (sscanf : List Char → List Char → List Nat) (m : t_last_meta)
    (zone : Nat) (value : List Char) :
    (declare_midi sscanf m zone value = m ∨ (declare_midi sscanf m zone value).zone = zone) ∧
    m.midi <+: (declare_midi sscanf m zone value).midi ∧
    (declare_midi sscanf m zone value).voice = m.voice :=
  declare_midi_cases sscanf m zone value
    (fun r => (r = m ∨ r.zone = zone) ∧ m.midi <+: r.midi ∧ r.voice = m.voice)
    ⟨Or.inl rfl, List.prefix_refl _, rfl⟩
    (fun msg num chan => ⟨Or.inr (push_meta_fields m zone msg num chan).1,
      (push_meta_fields m zone msg num chan).2.1, (push_meta_fields m zone msg num chan).2.2⟩)

theorem declare_voice_fields (m : t_last_meta) (zone : Nat) (value : List Char) :
    (declare_voice m zone value = m ∨ (declare_voice m zone value).zone = zone) ∧
    (declare_voice m zone value).midi = m.midi := by
  unfold declare_voice
  split_ifs
  all_goals first
    | exact ⟨Or.inl rfl, rfl⟩
    | exact ⟨Or.inr rfl, rfl⟩

/-- A declaration keeps the bindings that are pending, and it either leaves
`last_meta` as it is or makes its own cell the cell of `last_meta`. -/
theorem declare_meta (sscanf : List Char → List Char → List Nat) (x : t_faust_ui_manager)
    (zone : Nat) (key value : List Char) :
    ((faust_ui_manager_ui_declare sscanf x zone key value).last_meta = x.last_meta ∨
      (faust_ui_manager_ui_declare sscanf x zone key value).last_meta.zone = zone) ∧
    x.last_meta.midi <+: (faust_ui_manager_ui_declare sscanf x zone key value).last_meta.midi := by
  unfold faust_ui_manager_ui_declare
  split_ifs
  · obtain ⟨a, b⟩ := declare_voice_fields x.last_meta zone value
    exact ⟨a, by simp only [b]; exact List.prefix_refl _⟩
  · obtain ⟨a, b, _⟩ := declare_midi_fields sscanf x.last_meta zone value
    exact ⟨a, b⟩
  · exact ⟨Or.inl rfl, List.prefix_refl _⟩
  · exact ⟨Or.inl rfl, List.prefix_refl _⟩

theorem attach_meta_role (m : t_last_meta) (c : t_faust_ui) (type : Int) (zone : Nat)
    (init min max : ℚ) (hv : c.p_voice = VOICE_NONE) :
    (attach_meta m c type zone init min max).p_voice =
      if m.zone = zone ∧ c.p_type ≠ FAUST_UI_TYPE_BARGRAPH then m.voice else VOICE_NONE := by
  have hR : (if m.zone = zone ∧ c.p_type ≠ FAUST_UI_TYPE_BARGRAPH then m.voice
      else VOICE_NONE) =
      if m.zone = zone then
        (if m.voice ≠ 0 then
          (if c.p_type ≠ FAUST_UI_TYPE_BARGRAPH then m.voice else VOICE_NONE)
        else VOICE_NONE)
      else VOICE_NONE := by
    unfold VOICE_NONE
    split_ifs <;> first | rfl | tauto
  rw [hR]
  unfold attach_meta
  simp only
  split_ifs <;> first | rfl | exact hv

theorem add_param_record_role (x : t_faust_ui_manager) (label : List Char) (type : Int)
    (zone : Nat) (init min max step : ℚ) :
    (add_param_record x label type zone init min max step).p_voice =
      if x.last_meta.zone = zone ∧ type ≠ FAUST_UI_TYPE_BARGRAPH then x.last_meta.voice
      else VOICE_NONE := by
  unfold add_param_record
  simp only
  split
  · rw [attach_meta_role _ _ _ _ _ _ _ rfl]
    rfl
  · rw [attach_meta_role _ _ _ _ _ _ _ rfl]
    rfl

theorem add_param_clears_meta (x : t_faust_ui_manager) (label : List Char) (type : Int)
    (zone : Nat) (init min max step : ℚ) :
    (faust_ui_manager_add_param x label type zone init min max step).last_meta.midi = [] ∧
    (faust_ui_manager_add_param x label type zone init min max step).last_meta.voice =
      VOICE_NONE := by
  unfold faust_ui_manager_add_param
  simp only
  split <;> exact ⟨rfl, rfl⟩

/-- Declarations that all name the cell `z`, after nothing was pending: either
nothing is pending still, or `z` is the cell of `last_meta`. -/
theorem declares_one_cell (sscanf : List Char → List Char → List Nat) (z : Nat)
    (ds : List (List Char × List Char)) : ∀ x : t_faust_ui_manager,
    ((x.last_meta.midi = [] ∧ x.last_meta.voice = VOICE_NONE) ∨ x.last_meta.zone = z) →
    (((ds.foldl (fun s d => faust_ui_manager_ui_declare sscanf s z d.1 d.2) x).last_meta.midi
        = [] ∧
      (ds.foldl (fun s d => faust_ui_manager_ui_declare sscanf s z d.1 d.2) x).last_meta.voice
        = VOICE_NONE) ∨
    (ds.foldl (fun s d => faust_ui_manager_ui_declare sscanf s z d.1 d.2) x).last_meta.zone
      = z) := by
  induction ds with
  | nil => exact fun _ h => h
  | cons d ds ih =>
    intro x h
    rw [List.foldl_cons]
    apply ih
    rcases (declare_meta sscanf x z d.1 d.2).1 with e | e
    · rw [e]
      exact h
    · exact Or.inr e

/-- C35 (amended). A call of `faust_ui_manager_add_param` attaches to its control all
the bindings and the voice role that are pending, whatever cells they were declared
for, when the cell named by the latest declaration is the cell of the control, and
nothing otherwise; the call leaves nothing pending. A declaration keeps the bindings
that are pending. So when the declarations since the previous call all name one cell,
a control of another cell gets no binding and no role. -/
theorem C35_pending_metadata (sscanf : List Char → List Char → List Nat)
    (x : t_faust_ui_manager) (label : List Char) (type : Int) (zone z : Nat)
    (init min max step : ℚ) (key value : List Char) (ds : List (List Char × List Char))
    (hclear : x.last_meta.midi = [] ∧ x.last_meta.voice = VOICE_NONE) :
    (∀ s : t_faust_ui_manager,
      (add_param_record s label type zone init min max step).p_midi =
        (if s.last_meta.zone = zone then
          s.last_meta.midi.map fun b =>
            { msg := b.msg, num := b.num, chan := b.chan,
              val := midi_defaultval init min max type b.msg }
        else []) ∧
      (add_param_record s label type zone init min max step).p_voice =
        (if s.last_meta.zone = zone ∧ type ≠ FAUST_UI_TYPE_BARGRAPH then s.last_meta.voice
        else VOICE_NONE) ∧
      (faust_ui_manager_add_param s label type zone init min max step).last_meta.midi = [] ∧
      (faust_ui_manager_add_param s label type zone init min max step).last_meta.voice =
        VOICE_NONE ∧
      s.last_meta.midi <+: (faust_ui_manager_ui_declare sscanf s z key value).last_meta.midi ∧
      ((faust_ui_manager_ui_declare sscanf s z key value).last_meta = s.last_meta ∨
        (faust_ui_manager_ui_declare sscanf s z key value).last_meta.zone = z)) ∧
    (zone ≠ z →
      (add_param_record (ds.foldl (fun s d => faust_ui_manager_ui_declare sscanf s z d.1 d.2) x)
        label type zone init min max step).p_midi = [] ∧
      (add_param_record (ds.foldl (fun s d => faust_ui_manager_ui_declare sscanf s z d.1 d.2) x)
        label type zone init min max step).p_voice = VOICE_NONE) := by
  have hrule : ∀ s : t_faust_ui_manager,
      (add_param_record s label type zone init min max step).p_midi =
        (if s.last_meta.zone = zone then
          s.last_meta.midi.map fun b =>
            { msg := b.msg, num := b.num, chan := b.chan,
              val := midi_defaultval init min max type b.msg }
        else []) := by
    intro s
    have hatt : ∀ c : t_faust_ui, c.p_midi = [] →
        (attach_meta s.last_meta c type zone init min max).p_midi =
          (if s.last_meta.zone = zone then
            s.last_meta.midi.map fun b =>
              { msg := b.msg, num := b.num, chan := b.chan,
                val := midi_defaultval init min max type b.msg }
          else []) := by
      intro c hc
      rw [attach_meta_midi _ _ _ _ _ _ _ hc]
      by_cases hz : s.last_meta.zone = zone
      · rw [if_pos hz]
        by_cases hm : s.last_meta.midi = []
        · rw [if_neg (fun h => h.2 hm), hm]
          rfl
        · rw [if_pos ⟨hz, hm⟩]
      · rw [if_neg hz, if_neg (fun h => hz h.1)]
    unfold add_param_record
    simp only
    split <;> exact hatt _ rfl
  refine ⟨fun s => ⟨hrule s, add_param_record_role s label type zone init min max step,
    (add_param_clears_meta s label type zone init min max step).1,
    (add_param_clears_meta s label type zone init min max step).2,
    (declare_meta sscanf s z key value).2, (declare_meta sscanf s z key value).1⟩, ?_⟩
  intro hne
  rw [hrule, add_param_record_role]
  rcases declares_one_cell sscanf z ds x (Or.inl hclear) with ⟨h1, h2⟩ | h
  · rw [h1, h2]
    constructor
    · split_ifs <;> rfl
    · split_ifs <;> rfl
  · rw [h, if_neg (fun e => hne e.symm), if_neg (fun e => hne e.1.symm)]
    exact ⟨rfl, rfl⟩

theorem C35_pending_metadata_witness :
    (add_param_record
      (faust_ui_manager_ui_declare sscanf_ctrl
        (faust_ui_manager_prepare_changes faust_ui_manager_new) 1 "midi".toList "ctrl 7".toList)
      "pan".toList FAUST_UI_TYPE_NUMBER 2 0 0 127 0).p_midi = [] :=
  ((C35_pending_metadata sscanf_ctrl (faust_ui_manager_prepare_changes faust_ui_manager_new)
    "pan".toList FAUST_UI_TYPE_NUMBER 2 1 0 0 127 0 [] []
    [("midi".toList, "ctrl 7".toList)] (by decide)).2 (by decide)).1

/-- C35, as stated, fails when bindings are declared for two cells before a control
is added: the binding declared for the cell 1 and the binding declared for the cell 2
are both attached to "pan", the control of the cell 2, and "vol", the control of the
cell 1, gets none. -/
theorem C35_counterexample_other_cell :
    ((introspection_pass sscanf_ctrl faust_ui_manager_new mixed_declare_calls).f_uis.map
      fun c => (c.p_name, c.p_zone, c.p_midi.map fun b => (b.msg, b.num, b.chan))) =
      [("pan".toList, 2, [(MIDI_CTRL, 7, 3), (MIDI_CTRL, 7, -1)]), ("vol".toList, 1, [])] := by
  decide

/-! ## The voice table -/

theorem count_voices_acc (uis : List t_faust_ui) : ∀ acc : Nat × Nat × Nat,
    uis.foldl (fun n c =>
      if c.p_voice = VOICE_FREQ then (n.1 + 1, n.2.1, n.2.2)
      else if c.p_voice = VOICE_GAIN then (n.1, n.2.1 + 1, n.2.2)
      else if c.p_voice = VOICE_GATE then (n.1, n.2.1, n.2.2 + 1)
      else n) acc =
    (acc.1 + uis.countP (fun c => decide (c.p_voice = VOICE_FREQ)),
      acc.2.1 + uis.countP (fun c => decide (c.p_voice = VOICE_GAIN)),
      acc.2.2 + uis.countP (fun c => decide (c.p_voice = VOICE_GATE))) := by
  induction uis with
  | nil => exact fun _ => rfl
  | cons c uis ih =>
    intro acc
    rw [List.foldl_cons, ih]
    simp only [List.countP_cons, decide_eq_true_eq]
    by_cases h1 : c.p_voice = VOICE_FREQ
    · have h2 : ¬ c.p_voice = VOICE_GAIN := by rw [h1]; decide
      have h3 : ¬ c.p_voice = VOICE_GATE := by rw [h1]; decide
      simp only [if_pos h1, if_neg h2, if_neg h3]
      ext <;> simp only <;> omega
    · by_cases h2 : c.p_voice = VOICE_GAIN
      · have h3 : ¬ c.p_voice = VOICE_GATE := by rw [h2]; decide
        simp only [if_neg h1, if_pos h2, if_neg h3]
        ext <;> simp only <;> omega
      · by_cases h3 : c.p_voice = VOICE_GATE
        · simp only [if_neg h1, if_neg h2, if_pos h3]
          ext <;> simp only <;> omega
        · simp only [if_neg h1, if_neg h2, if_neg h3]
          ext <;> simp only <;> omega

/-- The counting loop of `faust_new_voices` counts the controls of each voice role. -/
theorem count_voices_eq (uis : List t_faust_ui) :
    count_voices uis =
      (uis.countP (fun c => decide (c.p_voice = VOICE_FREQ)),
        uis.countP (fun c => decide (c.p_voice = VOICE_GAIN)),
        uis.countP (fun c => decide (c.p_voice = VOICE_GATE))) := by
  unfold count_voices
  rw [count_voices_acc]
  simp

theorem populate_num (l : List (Nat × t_faust_ui)) :
    ∀ (st : List t_faust_voice × Nat × Nat × Nat) (k : Nat),
    ((l.foldl populate_step st).1[k]?).map (fun v => v.num) = (st.1[k]?).map fun v => v.num := by
  induction l with
  | nil => exact fun _ _ => rfl
  | cons pc l ih =>
    intro st k
    rw [List.foldl_cons, ih]
    unfold populate_step
    split_ifs
    all_goals first
      | rfl
      | (simp only [modify_voice_get]
         split_ifs <;> first | rfl | (cases st.1[k]? <;> rfl))

theorem populate_step_freq (tab : List t_faust_voice) (a b c : Nat) (pc : Nat × t_faust_ui)
    (h1 : pc.2.p_voice = VOICE_FREQ) :
    populate_step (tab, a, b, c) pc =
      (modify_voice tab a (fun v => { v with freq_c := some pc.1 }), a + 1, b, c) := by
  unfold populate_step
  rw [if_pos h1]

theorem populate_step_gain (tab : List t_faust_voice) (a b c : Nat) (pc : Nat × t_faust_ui)
    (h2 : pc.2.p_voice = VOICE_GAIN) :
    populate_step (tab, a, b, c) pc =
      (modify_voice tab b (fun v => { v with gain_c := some pc.1 }), a, b + 1, c) := by
  unfold populate_step
  rw [if_neg (by rw [h2]; decide), if_pos h2]

theorem populate_step_gate (tab : List t_faust_voice) (a b c : Nat) (pc : Nat × t_faust_ui)
    (h3 : pc.2.p_voice = VOICE_GATE) :
    populate_step (tab, a, b, c) pc =
      (modify_voice tab c (fun v => { v with gate_c := some pc.1 }), a, b, c + 1) := by
  unfold populate_step
  rw [if_neg (by rw [h3]; decide), if_neg (by rw [h3]; decide), if_pos h3]

theorem populate_step_none (tab : List t_faust_voice) (a b c : Nat) (pc : Nat × t_faust_ui)
    (h1 : ¬ pc.2.p_voice = VOICE_FREQ) (h2 : ¬ pc.2.p_voice = VOICE_GAIN)
    (h3 : ¬ pc.2.p_voice = VOICE_GATE) : populate_step (tab, a, b, c) pc = (tab, a, b, c) := by
  unfold populate_step
  rw [if_neg h1, if_neg h2, if_neg h3]

theorem populate_freq (l : List (Nat × t_faust_ui)) :
    ∀ (tab : List t_faust_voice) (a b c k : Nat),
    ((l.foldl populate_step (tab, a, b, c)).1[k]?).map (fun v => v.freq_c) =
      (tab[k]?).map fun v =>
        if a ≤ k then
          (((l.filter fun pc => decide (pc.2.p_voice = VOICE_FREQ)).map Prod.fst)[k - a]?).or
            v.freq_c
        else v.freq_c := by
  induction l with
  | nil =>
    intro tab a b c k
    simp only [List.foldl_nil, List.filter_nil, List.map_nil, List.getElem?_nil, Option.none_or,
      ite_self]
  | cons pc l ih =>
    intro tab a b c k
    rw [List.foldl_cons]
    have hother : ∀ (j : Nat) (f : t_faust_voice → t_faust_voice),
        (∀ v, (f v).freq_c = v.freq_c) → ∀ (h : t_faust_voice → Option Nat)
        (_ : ∀ v w : t_faust_voice, v.freq_c = w.freq_c → h v = h w),
        ((modify_voice tab j f)[k]?).map h = (tab[k]?).map h := by
      intro j f hf h hh
      rw [modify_voice_get]
      split_ifs
      · cases tab[k]? with
        | none => rfl
        | some v => exact congrArg some (hh _ _ (hf v))
      · rfl
    have hdep : ∀ (F : List Nat) (n : Nat) (v w : t_faust_voice), v.freq_c = w.freq_c →
        (if n ≤ k then (F[k - n]?).or v.freq_c else v.freq_c) =
        (if n ≤ k then (F[k - n]?).or w.freq_c else w.freq_c) := by
      intro F n v w e
      rw [e]
    by_cases h1 : pc.2.p_voice = VOICE_FREQ
    · rw [populate_step_freq _ _ _ _ _ h1, ih, List.filter_cons_of_pos (by simpa using h1),
        List.map_cons, modify_voice_get]
      by_cases hk : a = k
      · rw [if_pos hk, ← hk]
        cases tab[a]? with
        | none => rfl
        | some v =>
          simp only [Option.map_some', Nat.sub_self, List.getElem?_cons_zero,
            le_refl, if_true, Nat.add_one_le_iff, lt_irrefl, if_false]
          rfl
      · rw [if_neg hk]
        cases tab[k]? with
        | none => rfl
        | some v =>
          simp only [Option.map_some']
          by_cases hlt : a + 1 ≤ k
          · have e : k - a = (k - (a + 1)) + 1 := by omega
            rw [if_pos hlt, if_pos (by omega), e, List.getElem?_cons_succ]
          · rw [if_neg hlt, if_neg (by omega)]
    · by_cases h2 : pc.2.p_voice = VOICE_GAIN
      · have hne : ¬ pc.2.p_voice = VOICE_FREQ := by rw [h2]; decide
        rw [populate_step_gain _ _ _ _ _ h2, ih, List.filter_cons_of_neg (by simpa using hne)]
        exact hother b (fun v => { v with gain_c := some pc.1 }) (fun _ => rfl) _ (hdep _ _)
      · by_cases h3 : pc.2.p_voice = VOICE_GATE
        · have hne : ¬ pc.2.p_voice = VOICE_FREQ := by rw [h3]; decide
          rw [populate_step_gate _ _ _ _ _ h3, ih, List.filter_cons_of_neg (by simpa using hne)]
          exact hother c (fun v => { v with gate_c := some pc.1 }) (fun _ => rfl) _ (hdep _ _)
        · have hne : ¬ pc.2.p_voice = VOICE_FREQ := h1
          rw [populate_step_none _ _ _ _ _ h1 h2 h3, ih, List.filter_cons_of_neg (by simpa using hne)]

theorem populate_gain (l : List (Nat × t_faust_ui)) :
    ∀ (tab : List t_faust_voice) (a b c k : Nat),
    ((l.foldl populate_step (tab, a, b, c)).1[k]?).map (fun v => v.gain_c) =
      (tab[k]?).map fun v =>
        if b ≤ k then
          (((l.filter fun pc => decide (pc.2.p_voice = VOICE_GAIN)).map Prod.fst)[k - b]?).or
            v.gain_c
        else v.gain_c := by
  induction l with
  | nil =>
    intro tab a b c k
    simp only [List.foldl_nil, List.filter_nil, List.map_nil, List.getElem?_nil, Option.none_or,
      ite_self]
  | cons pc l ih =>
    intro tab a b c k
    rw [List.foldl_cons]
    have hother : ∀ (j : Nat) (f : t_faust_voice → t_faust_voice),
        (∀ v, (f v).gain_c = v.gain_c) → ∀ (h : t_faust_voice → Option Nat)
        (_ : ∀ v w : t_faust_voice, v.gain_c = w.gain_c → h v = h w),
        ((modify_voice tab j f)[k]?).map h = (tab[k]?).map h := by
      intro j f hf h hh
      rw [modify_voice_get]
      split_ifs
      · cases tab[k]? with
        | none => rfl
        | some v => exact congrArg some (hh _ _ (hf v))
      · rfl
    have hdep : ∀ (F : List Nat) (n : Nat) (v w : t_faust_voice), v.gain_c = w.gain_c →
        (if n ≤ k then (F[k - n]?).or v.gain_c else v.gain_c) =
        (if n ≤ k then (F[k - n]?).or w.gain_c else w.gain_c) := by
      intro F n v w e
      rw [e]
    by_cases h1 : pc.2.p_voice = VOICE_FREQ
    · have hne : ¬ pc.2.p_voice = VOICE_GAIN := by rw [h1]; decide
      rw [populate_step_freq _ _ _ _ _ h1, ih, List.filter_cons_of_neg (by simpa using hne)]
      exact hother a (fun v => { v with freq_c := some pc.1 }) (fun _ => rfl) _ (hdep _ _)
    · by_cases h2 : pc.2.p_voice = VOICE_GAIN
      · rw [populate_step_gain _ _ _ _ _ h2, ih, List.filter_cons_of_pos (by simpa using h2),
          List.map_cons, modify_voice_get]
        by_cases hk : b = k
        · rw [if_pos hk, ← hk]
          cases tab[b]? with
          | none => rfl
          | some v =>
            simp only [Option.map_some', Nat.sub_self, List.getElem?_cons_zero,
              le_refl, if_true, Nat.add_one_le_iff, lt_irrefl, if_false]
            rfl
        · rw [if_neg hk]
          cases tab[k]? with
          | none => rfl
          | some v =>
            simp only [Option.map_some']
            by_cases hlt : b + 1 ≤ k
            · have e : k - b = (k - (b + 1)) + 1 := by omega
              rw [if_pos hlt, if_pos (by omega), e, List.getElem?_cons_succ]
            · rw [if_neg hlt, if_neg (by omega)]
      · by_cases h3 : pc.2.p_voice = VOICE_GATE
        · have hne : ¬ pc.2.p_voice = VOICE_GAIN := by rw [h3]; decide
          rw [populate_step_gate _ _ _ _ _ h3, ih, List.filter_cons_of_neg (by simpa using hne)]
          exact hother c (fun v => { v with gate_c := some pc.1 }) (fun _ => rfl) _ (hdep _ _)
        · have hne : ¬ pc.2.p_voice = VOICE_GAIN := h2
          rw [populate_step_none _ _ _ _ _ h1 h2 h3, ih, List.filter_cons_of_neg (by simpa using hne)]

theorem populate_gate (l : List (Nat × t_faust_ui)) :
    ∀ (tab : List t_faust_voice) (a b c k : Nat),
    ((l.foldl populate_step (tab, a, b, c)).1[k]?).map (fun v => v.gate_c) =
      (tab[k]?).map fun v =>
        if c ≤ k then
          (((l.filter fun pc => decide (pc.2.p_voice = VOICE_GATE)).map Prod.fst)[k - c]?).or
            v.gate_c
        else v.gate_c := by
  induction l with
  | nil =>
    intro tab a b c k
    simp only [List.foldl_nil, List.filter_nil, List.map_nil, List.getElem?_nil, Option.none_or,
      ite_self]
  | cons pc l ih =>
    intro tab a b c k
    rw [List.foldl_cons]
    have hother : ∀ (j : Nat) (f : t_faust_voice → t_faust_voice),
        (∀ v, (f v).gate_c = v.gate_c) → ∀ (h : t_faust_voice → Option Nat)
        (_ : ∀ v w : t_faust_voice, v.gate_c = w.gate_c → h v = h w),
        ((modify_voice tab j f)[k]?).map h = (tab[k]?).map h := by
      intro j f hf h hh
      rw [modify_voice_get]
      split_ifs
      · cases tab[k]? with
        | none => rfl
        | some v => exact congrArg some (hh _ _ (hf v))
      · rfl
    have hdep : ∀ (F : List Nat) (n : Nat) (v w : t_faust_voice), v.gate_c = w.gate_c →
        (if n ≤ k then (F[k - n]?).or v.gate_c else v.gate_c) =
        (if n ≤ k then (F[k - n]?).or w.gate_c else w.gate_c) := by
      intro F n v w e
      rw [e]
    by_cases h1 : pc.2.p_voice = VOICE_FREQ
    · have hne : ¬ pc.2.p_voice = VOICE_GATE := by rw [h1]; decide
      rw [populate_step_freq _ _ _ _ _ h1, ih, List.filter_cons_of_neg (by simpa using hne)]
      exact hother a (fun v => { v with freq_c := some pc.1 }) (fun _ => rfl) _ (hdep _ _)
    · by_cases h2 : pc.2.p_voice = VOICE_GAIN
      · have hne : ¬ pc.2.p_voice = VOICE_GATE := by rw [h2]; decide
        rw [populate_step_gain _ _ _ _ _ h2, ih, List.filter_cons_of_neg (by simpa using hne)]
        exact hother b (fun v => { v with gain_c := some pc.1 }) (fun _ => rfl) _ (hdep _ _)
      · by_cases h3 : pc.2.p_voice = VOICE_GATE
        · rw [populate_step_gate _ _ _ _ _ h3, ih, List.filter_cons_of_pos (by simpa using h3),
            List.map_cons, modify_voice_get]
          by_cases hk : c = k
          · rw [if_pos hk, ← hk]
            cases tab[c]? with
            | none => rfl
            | some v =>
              simp only [Option.map_some', Nat.sub_self, List.getElem?_cons_zero,
                le_refl, if_true, Nat.add_one_le_iff, lt_irrefl, if_false]
              rfl
          · rw [if_neg hk]
            cases tab[k]? with
            | none => rfl
            | some v =>
              simp only [Option.map_some']
              by_cases hlt : c + 1 ≤ k
              · have e : k - c = (k - (c + 1)) + 1 := by omega
                rw [if_pos hlt, if_pos (by omega), e, List.getElem?_cons_succ]
              · rw [if_neg hlt, if_neg (by omega)]
        · have hne : ¬ pc.2.p_voice = VOICE_GATE := h3
          rw [populate_step_none _ _ _ _ _ h1 h2 h3, ih, List.filter_cons_of_neg (by simpa using hne)]

/-- The pool that `faust_new_voices` leaves, by the numbers `f`, `g` and `t` of the
controls with the roles freq, gain and gate. -/
theorem new_voices_table (z : t_faust_ui_manager) (f g t n : Nat)
    (hf : f = z.f_uis.countP (fun c => decide (c.p_voice = VOICE_FREQ)))
    (hg : g = z.f_uis.countP (fun c => decide (c.p_voice = VOICE_GAIN)))
    (ht : t = z.f_uis.countP (fun c => decide (c.p_voice = VOICE_GATE))) :
    (n ≠ 0 → (f = 0 ∨ f = n) → (g = 0 ∨ g = n) → (t = 0 ∨ t = n) → (f ≠ 0 ∨ g ≠ 0 ∨ t ≠ 0) →
      (faust_new_voices z).f_nvoices = n ∧ (faust_new_voices z).f_voices.length = n ∧
      (faust_new_voices z).f_free = List.range n ∧ (faust_new_voices z).f_used = [] ∧
      ∀ i, i < n → (faust_new_voices z).f_voices[i]? =
        some { num := 0, freq_c := (role_positions VOICE_FREQ z.f_uis)[i]?,
               gain_c := (role_positions VOICE_GAIN z.f_uis)[i]?,
               gate_c := (role_positions VOICE_GATE z.f_uis)[i]? }) ∧
    ((f ≠ 0 ∧ g ≠ 0 ∧ f ≠ g) ∨ (f ≠ 0 ∧ t ≠ 0 ∧ f ≠ t) ∨ (g ≠ 0 ∧ t ≠ 0 ∧ g ≠ t) →
      (faust_new_voices z).f_voices = []) := by
  have hx1 : (if z.f_voices ≠ [] then faust_free_voices z else z).f_voices = [] ∧
      (if z.f_voices ≠ [] then faust_free_voices z else z).f_uis = z.f_uis := by
    split_ifs with hv
    · exact ⟨by unfold faust_free_voices; rw [if_pos hv], (free_voices_fields z).1⟩
    · exact ⟨not_not.1 hv, rfl⟩
  unfold faust_new_voices
  simp only
  generalize (if z.f_voices ≠ [] then faust_free_voices z else z) = x1 at hx1 ⊢
  obtain ⟨hv1, hu1⟩ := hx1
  rw [count_voices_eq, hu1]
  simp only
  rw [← hf, ← hg, ← ht]
  constructor
  · intro hn hf0 hg0 ht0 hsome
    have hnv : (if f ≠ 0 then f else if g ≠ 0 then g else t) = n := by
      split_ifs <;> omega
    rw [hnv, if_pos hn, if_neg (by omega)]
    refine ⟨rfl, ?_, rfl, rfl, ?_⟩
    · simp only [populate_length, List.length_replicate]
    · intro i hi
      have h0 : (List.replicate n zero_voice)[i]? = some zero_voice := by
        rw [List.getElem?_eq_getElem (by simpa using hi)]
        simp
      have e1 := populate_num z.f_uis.enum (List.replicate n zero_voice, 0, 0, 0) i
      have e2 := populate_freq z.f_uis.enum (List.replicate n zero_voice) 0 0 0 i
      have e3 := populate_gain z.f_uis.enum (List.replicate n zero_voice) 0 0 0 i
      have e4 := populate_gate z.f_uis.enum (List.replicate n zero_voice) 0 0 0 i
      simp only [h0, Option.map_some', Nat.zero_le, if_true, Nat.sub_zero] at e1 e2 e3 e4
      simp only
      cases hr : (List.foldl populate_step (List.replicate n zero_voice, 0, 0, 0)
          z.f_uis.enum).1[i]? with
      | none =>
        rw [hr] at e1
        simp at e1
      | some v =>
        rw [hr] at e1 e2 e3 e4
        simp only [Option.map_some', Option.some.injEq] at e1 e2 e3 e4
        obtain ⟨vn, vf, vg, vt⟩ := v
        simp only at e1 e2 e3 e4
        rw [e1, e2, e3, e4]
        simp only [zero_voice, Option.or_none, role_positions]
  · intro hbad
    by_cases hn : (if f ≠ 0 then f else if g ≠ 0 then g else t) ≠ 0
    · rw [if_pos hn, if_pos]
      · exact hv1
      · split_ifs at hn ⊢ <;> omega
    · rw [if_neg hn]
      exact hv1

/-- C32. After `faust_ui_manager_finish_changes`, with `f`, `g` and `t` the numbers
of the controls with the roles freq, gain and gate: when one of them is not 0 and all
that are not 0 equal `n`, the pool has `n` voices, all on the free chain in the order
of the table and none on the used chain, and the voice `i` refers to the `i`-th control
of each role in the order of the list, or to none for a role without controls. When
two of the numbers that are not 0 differ there is no voice table, and a note message
reaches no voice. -/
theorem C32_voice_pool (mtof : Int → ℚ) (x y : t_faust_ui_manager) (f g t n : Nat)
    (hy : y = faust_ui_manager_finish_changes x)
    (hf : f = y.f_uis.countP (fun c => decide (c.p_voice = VOICE_FREQ)))
    (hg : g = y.f_uis.countP (fun c => decide (c.p_voice = VOICE_GAIN)))
    (ht : t = y.f_uis.countP (fun c => decide (c.p_voice = VOICE_GATE))) :
    (n ≠ 0 → (f = 0 ∨ f = n) → (g = 0 ∨ g = n) → (t = 0 ∨ t = n) → (f ≠ 0 ∨ g ≠ 0 ∨ t ≠ 0) →
      y.f_nvoices = n ∧ y.f_voices.length = n ∧ y.f_free = List.range n ∧ y.f_used = [] ∧
      ∀ i, i < n → y.f_voices[i]? =
        some { num := 0, freq_c := (role_positions VOICE_FREQ y.f_uis)[i]?,
               gain_c := (role_positions VOICE_GAIN y.f_uis)[i]?,
               gate_c := (role_positions VOICE_GATE y.f_uis)[i]? }) ∧
    ((f ≠ 0 ∧ g ≠ 0 ∧ f ≠ g) ∨ (f ≠ 0 ∧ t ≠ 0 ∧ f ≠ t) ∨ (g ≠ 0 ∧ t ≠ 0 ∧ g ≠ t) →
      y.f_voices = [] ∧ ∀ i num val chan, midi_voices mtof y i num val chan = y) := by
  have hcases : (x.f_uis = [] ∧ y = x) ∨
      ∃ z : t_faust_ui_manager, y = faust_new_voices z := by
    rw [hy]
    unfold faust_ui_manager_finish_changes
    cases hx : x.f_uis with
    | nil => exact Or.inl ⟨rfl, rfl⟩
    | cons c rest => exact Or.inr ⟨_, rfl⟩
  rcases hcases with ⟨hnil, hyx⟩ | ⟨z, hz⟩
  · have hu : y.f_uis = [] := by rw [hyx, hnil]
    rw [hu] at hf hg ht
    simp only [List.countP_nil] at hf hg ht
    constructor
    · intro _ _ _ _ hsome
      omega
    · intro hbad
      omega
  · have hu : y.f_uis = z.f_uis := by rw [hz, (new_voices_fields z).1]
    rw [hu] at hf hg ht ⊢
    obtain ⟨h1, h2⟩ := new_voices_table z f g t n hf hg ht
    rw [hz]
    refine ⟨h1, fun hbad => ⟨h2 hbad, ?_⟩⟩
    intro i num val chan
    unfold midi_voices
    rw [if_neg (fun h => h.1 (h2 hbad))]

theorem C32_voice_pool_witness :
    two_voice_state.f_free = List.range 2 ∧
    two_voice_state.f_voices[1]? =
      some { num := 0, freq_c := (role_positions VOICE_FREQ two_voice_state.f_uis)[1]?,
             gain_c := (role_positions VOICE_GAIN two_voice_state.f_uis)[1]?,
             gate_c := (role_positions VOICE_GATE two_voice_state.f_uis)[1]? } :=
  ⟨(C32_voice_pool (fun _ => 440)
      (build_user_interface sscanf_none (faust_ui_manager_prepare_changes faust_ui_manager_new)
        two_voice_calls) two_voice_state 2 0 2 2 rfl (by decide) (by decide) (by decide)).1
      (by decide) (Or.inr rfl) (Or.inl rfl) (Or.inr rfl) (Or.inl (by decide)) |>.2.2.1,
    ((C32_voice_pool (fun _ => 440)
      (build_user_interface sscanf_none (faust_ui_manager_prepare_changes faust_ui_manager_new)
        two_voice_calls) two_voice_state 2 0 2 2 rfl (by decide) (by decide) (by decide)).1
      (by decide) (Or.inr rfl) (Or.inl rfl) (Or.inr rfl) (Or.inl (by decide))).2.2.2.2 1
        (by decide)⟩

end FaustUI
